import Mathlib

/-!
# Predictive hot-spot scheduling plugin (`plugin/scheduler_example`)

A shallow embedding of `moveRegionPlugin.go` and `produce_scheduler.go`.

Conventions of the embedding

* A Go function that can return an `error`, hit a runtime panic, or spin in an
  unbounded `for` loop returns `Except Failure α`.
* `uint64` values are `Nat`; where the source relies on wrap-around
  (`uint64Max`, `maxrw - minrw`, the `uint64(...)` conversion of an `int64`
  product) the arithmetic is written out modulo `2 ^ 64`.
* `int64` timestamps and `int` counters are `Int`; Unix-second timestamps stay
  far from the 64-bit range, so their sums are not reduced modulo `2 ^ 64`.
  Go's `/` on integers truncates toward zero and is `Int.tdiv`.
* `float64` predictions are read as exact rationals (`ℚ`); the `float64` powers
  of the weight pass are rounded as the hardware rounds them (`float64OfInt`).
* `time.Time` instants are `Int`; `Before` is `<` and `After` is `>`.
* Go strings are byte sequences, `List Nat`.
* Logging calls are dropped.
-/

namespace SchedulerExample

/-- Ways a call can end without a normal result. -/
inductive Failure where
  /-- A Go `error` value returned by the function, with its message. -/
  | error (msg : String)
  /-- Runtime panic: slice index out of range. -/
  | indexOutOfRange
  /-- Runtime panic: integer division by zero. -/
  | divideByZero
  /-- Runtime panic: `make` with a negative length. -/
  | negativeLen
  /-- Runtime panic: method call through a nil pointer. -/
  | nilDereference
  /-- The unbounded `for` loop was still running after the iteration budget. -/
  | loopBudget
  deriving DecidableEq, Repr

/-! ## Cluster view used by the scheduler (`opt.Cluster`, `core`, `filter`, `operator`) -/

/-- The part of `core.StoreInfo` the plugin reads. -/
structure StoreInfo where
  /-- Result of `GetID()`. -/
  id : Nat
  deriving DecidableEq, Repr

/-- The part of `core.RegionInfo` the plugin reads. -/
structure RegionInfo where
  /-- Result of `GetID()`. -/
  id : Nat
  /-- Result of `core.HexRegionKey(meta.GetStartKey())`, as bytes. -/
  hexStartKey : List Nat
  /-- Store of the leader peer, `none` when `GetLeader()` is nil. -/
  leader : Option Nat
  /-- Stores holding a peer: the key set of `GetStoreIds()`. -/
  storeIds : List Nat
  /-- Result of `GetRwBytesTotal()` (`uint64`). -/
  rwBytesTotal : Nat
  /-- Result of `GetApproximateSize()` (`int64`). -/
  approximateSize : Int
  deriving DecidableEq, Repr

/-- The value of `region.GetLeader().GetStoreId()`: the getter of a nil peer returns 0. -/
def RegionInfo.leaderStoreId (region : RegionInfo) : Nat :=
  match region.leader with
  | some s => s
  | none => 0

/-- The type `filter.StoreStateFilter`, with the two fields the plugin sets. -/
structure StoreStateFilter where
  TransferLeader : Bool := false
  MoveRegion : Bool := false
  deriving DecidableEq, Repr

/-- The constants `operator.OpLeader` and `operator.OpAdmin`. -/
inductive OpKind where
  | OpLeader
  | OpAdmin
  deriving DecidableEq, Repr

/-- The constants `core.LowPriority`, `core.NormalPriority`, `core.HighPriority`. -/
inductive PriorityLevel where
  | LowPriority
  | NormalPriority
  | HighPriority
  deriving DecidableEq, Repr

/-- What an operator does to its region. -/
inductive OpAction where
  /-- Hand leadership to a store that already holds a replica. -/
  | transferLeader
  /-- Add a replica at the target store, then hand leadership to it. -/
  | moveLeader
  deriving DecidableEq, Repr

/-- An `operator.Operator`, reduced to what the scheduler decides. -/
structure Operator where
  desc : String
  regionID : Nat
  kind : OpKind
  action : OpAction
  sourceStore : Nat
  targetStore : Nat
  level : PriorityLevel
  deriving DecidableEq, Repr

/-- The method `Operator.SetPriorityLevel`. -/
def Operator.SetPriorityLevel (op : Operator) (level : PriorityLevel) : Operator :=
  { op with level := level }

/-- The cluster view `opt.Cluster` together with the host services the
scheduler calls. All of them live outside the plugin and are parameters. -/
structure Cluster where
  /-- The call `cluster.GetRegion(id)`, `none` for a nil result. -/
  GetRegion : Nat → Option RegionInfo
  /-- The call `cluster.GetStore(id)`, `none` for a nil result. -/
  GetStore : Nat → Option StoreInfo
  /-- The call `cluster.GetRegionScheduleLimit()`. -/
  GetRegionScheduleLimit : Nat
  /-- The call `filter.Source(cluster, store, filters)`: true when the store is filtered out. -/
  filterSource : Option StoreInfo → List StoreStateFilter → Bool
  /-- The call `filter.Target(cluster, store, filters)`: true when the store is filtered out. -/
  filterTarget : Option StoreInfo → List StoreStateFilter → Bool
  /-- Whether `operator.CreateMoveLeaderOperator` returns an error for this
  region, source store and destination store. -/
  moveLeaderFails : RegionInfo → Nat → Nat → Bool

/-- The constant `MoveRegionType`. -/
def MoveRegionType : String := "user-move-region"

/-- Modelled from the spec: `operator.CreateTransferLeaderOperator` is not in
the plugin sources. The decision is "transfer leadership" of the region from
the leader's store to the target store. The source discards the error result
of the call, so the constructor is total here. A fresh operator has normal
priority. -/
def CreateTransferLeaderOperator (desc : String) (region : RegionInfo)
    (sourceStoreID targetStoreID : Nat) (kind : OpKind) : Operator :=
  { desc := desc, regionID := region.id, kind := kind, action := OpAction.transferLeader,
    sourceStore := sourceStoreID, targetStore := targetStoreID,
    level := PriorityLevel.NormalPriority }

/-- Modelled from the spec: `operator.CreateMoveLeaderOperator` is not in the
plugin sources. The decision is "move leadership": add a replica at the
target, then transfer leadership to it; construction can fail. -/
def CreateMoveLeaderOperator (cluster : Cluster) (desc : String) (region : RegionInfo)
    (kind : OpKind) (sourceStoreID destStoreID : Nat) : Except Failure Operator :=
  if cluster.moveLeaderFails region sourceStoreID destStoreID then
    Except.error (Failure.error "CreateMoveLeaderOperator")
  else
    Except.ok { desc := desc, regionID := region.id, kind := kind,
                action := OpAction.moveLeader, sourceStore := sourceStoreID,
                targetStore := destStoreID, level := PriorityLevel.NormalPriority }

/-! ## `moveRegionPlugin.go` -/

/-- The struct `moveRegionUserScheduler`. -/
structure moveRegionUserScheduler where
  name : String
  regionIDs : List Nat
  storeIDs : List Nat
  startTime : Int
  endTime : Int
  deriving DecidableEq, Repr

/-- The method `IsScheduleAllowed`. The reading of `time.Now()` is the
parameter `now`, and `r.opController.OperatorCount(operator.OpRegion)` is the
parameter `operatorCount`. -/
def moveRegionUserScheduler.IsScheduleAllowed (r : moveRegionUserScheduler) (now : Int)
    (operatorCount : Nat) (cluster : Cluster) : Bool :=
  if now < r.startTime || now > r.endTime then
    false
  else
    decide (operatorCount < cluster.GetRegionScheduleLimit)

/-- The function `isExists`. -/
def isExists (ID : Nat) : List Nat → Bool
  | [] => false
  | id :: IDs => if id = ID then true else isExists ID IDs

/-- The `for _, regionID := range r.regionIDs` loop of `Schedule`, run on the
region IDs still to visit; `storeIDs` is `r.storeIDs`. -/
def scheduleLoop (storeIDs : List Nat) (cluster : Cluster) :
    List Nat → Except Failure (List Operator)
  | [] => Except.ok []
  | regionID :: rest =>
    match cluster.GetRegion regionID with
    | none => scheduleLoop storeIDs cluster rest
    | some region =>
      let sourceID := region.leaderStoreId
      let source := cluster.GetStore sourceID
      if !isExists sourceID storeIDs then
        match storeIDs.head? with
        | none => Except.error Failure.indexOutOfRange
        | some targetID =>
          let target := cluster.GetStore targetID
          if targetID ∈ region.storeIds then
            let filters : List StoreStateFilter := [{ TransferLeader := true }]
            if cluster.filterSource source filters then
              scheduleLoop storeIDs cluster rest
            else if cluster.filterTarget target filters then
              scheduleLoop storeIDs cluster rest
            else
              let op := CreateTransferLeaderOperator MoveRegionType region sourceID targetID
                OpKind.OpLeader
              Except.ok [op.SetPriorityLevel PriorityLevel.HighPriority]
          else
            let filters : List StoreStateFilter := [{ MoveRegion := true }]
            if cluster.filterSource source filters then
              scheduleLoop storeIDs cluster rest
            else if cluster.filterTarget target filters then
              scheduleLoop storeIDs cluster rest
            else
              match target with
              | none => Except.error Failure.nilDereference
              | some t =>
                let destPeer := t.id
                match CreateMoveLeaderOperator cluster MoveRegionType region OpKind.OpAdmin
                    sourceID destPeer with
                | Except.error _ => scheduleLoop storeIDs cluster rest
                | Except.ok op => Except.ok [op.SetPriorityLevel PriorityLevel.HighPriority]
      else
        scheduleLoop storeIDs cluster rest

/-- The method `Schedule`. A nil result is the empty list. -/
def moveRegionUserScheduler.Schedule (r : moveRegionUserScheduler) (cluster : Cluster) :
    Except Failure (List Operator) :=
  if r.storeIDs.length = 0 then
    Except.ok []
  else
    scheduleLoop r.storeIDs cluster r.regionIDs

/-! ## `produce_scheduler.go`: data -/

/-- The constant `uint64Max`. -/
def uint64Max : Nat := 2 ^ 64 - 1

/-- The constant `uint64Min`. -/
def uint64Min : Nat := 0

/-- The struct `hotSpotPeriod`: a hot interval or a merged hot period. -/
structure hotSpotPeriod where
  StartTime : Int
  EndTime : Int
  TableKey : List Nat
  deriving DecidableEq, Repr

/-- The struct `scheduleTime`: a schedule window with its weight per table. -/
structure scheduleTime where
  StartTime : Int
  EndTime : Int
  DeltT : List Int
  deriving DecidableEq, Repr

/-- The struct `preTableInfo`. -/
structure preTableInfo where
  Predict : List ℚ
  StartKey : List Nat := []
  EndKey : List Nat := []
  MaxValue : ℚ := 0
  MinValue : ℚ := 0
  HistoryR2Score : ℚ := 0

/-- The struct `predictInfo`. -/
structure predictInfo where
  Time : Int
  TableNum : Int
  PredictStep : Int
  HistoryR2ScoreTotal : ℚ := 0
  TableInfo : List preTableInfo
  Replicas : Int := 0

/-- The struct `dispatchTiming`. -/
structure dispatchTiming where
  predictData : predictInfo
  threshold : ℚ
  scheduleTime : List scheduleTime

/-- The struct `HotRegionTable`. -/
structure HotRegionTable where
  count : Nat
  regionID : List Nat
  deriving DecidableEq, Repr

/-! ## `calculateThreshold` -/

/-- The inner loop `for j := 0; j < p.TableNum; j++` of `calculateThreshold`
for step `i`, run on the table indices still to visit, `acc` being
`preDataTotal[i]`. -/
def sumPredict (p : predictInfo) (i : Nat) : List Nat → ℚ → Except Failure ℚ
  | [], acc => Except.ok acc
  | j :: js, acc =>
    match p.TableInfo[j]? with
    | none => Except.error Failure.indexOutOfRange
    | some t =>
      match t.Predict[i]? with
      | none => Except.error Failure.indexOutOfRange
      | some v => sumPredict p i js (acc + v)

/-- The outer loop `for i := 0; i < p.PredictStep; i++` of
`calculateThreshold`, run on the steps still to visit: the per-step means. -/
def stepMeans (p : predictInfo) : List Nat → Except Failure (List ℚ)
  | [] => Except.ok []
  | i :: rest =>
    match sumPredict p i (List.range p.TableNum.toNat) 0 with
    | Except.error e => Except.error e
    | Except.ok total =>
      match stepMeans p rest with
      | Except.error e => Except.error e
      | Except.ok means => Except.ok (total / (p.TableNum : ℚ) :: means)

/-- The method `calculateThreshold`. `sort.Float64s` is an ascending sort. -/
def predictInfo.calculateThreshold (p : predictInfo) : Except Failure ℚ :=
  if p.PredictStep ≤ 0 ∨ p.TableNum ≤ 0 then
    Except.error (Failure.error "predictstep or tablenum is less than 0")
  else
    match stepMeans p (List.range p.PredictStep.toNat) with
    | Except.error e => Except.error e
    | Except.ok preDataTotal =>
      let sorted := preDataTotal.insertionSort (· ≤ ·)
      match sorted[(p.PredictStep.tdiv 5).toNat]?, sorted[(p.PredictStep.tdiv 5 + 1).toNat]? with
      | some lo, some hi => Except.ok ((lo + hi) / 2)
      | _, _ => Except.error Failure.indexOutOfRange

/-! ## `bubbleSortHotSpot` -/

/-- One run of the inner loop `for j := 0; j < len(values)-i-1; j++` making `n`
comparisons. The head of the list is `values[j]`; the returned flag is false
when a swap happened. -/
def bubblePass : Nat → List hotSpotPeriod → List hotSpotPeriod × Bool
  | n + 1, a :: b :: rest =>
    if a.StartTime > b.StartTime then
      (b :: (bubblePass n (a :: rest)).1, false)
    else
      (a :: (bubblePass n (b :: rest)).1, (bubblePass n (b :: rest)).2)
  | _, values => (values, true)

/-- The outer loop `for i := 0; i < len(values)-1; i++`, with `m` iterations
left, so that the inner loop makes `m` comparisons. -/
def bubbleLoop : Nat → List hotSpotPeriod → List hotSpotPeriod
  | 0, values => values
  | m + 1, values =>
    if (bubblePass (m + 1) values).2 then
      (bubblePass (m + 1) values).1
    else
      bubbleLoop m (bubblePass (m + 1) values).1

/-- The function `bubbleSortHotSpot`, returning the slice contents after the call. -/
def bubbleSortHotSpot (values : List hotSpotPeriod) : List hotSpotPeriod :=
  bubbleLoop (values.length - 1) values

/-! ## `calculateScheduleTime` -/

/-- The loop `for j := 0; j < p.PredictStep; j++` of the hot-interval detector
for table `i`, run on the steps still to visit, with the current `flag` and
`startT`. Returns the intervals appended to `hotSpotArr`, in order. -/
def detectShard (p : predictInfo) (threshold : ℚ) (i : Nat) :
    List Nat → Bool → Int → Except Failure (List hotSpotPeriod)
  | [], _, _ => Except.ok []
  | j :: js, flag, startT =>
    match p.TableInfo[i]? with
    | none => Except.error Failure.indexOutOfRange
    | some t =>
      match t.Predict[j]? with
      | none => Except.error Failure.indexOutOfRange
      | some v =>
        let hot : Bool := decide (v > threshold)
        let flag1 : Bool := if hot && !flag then true else flag
        let startT1 : Int := if hot && !flag then ((j : Int) + 1) * 60 + p.Time else startT
        if (!hot && flag1) || (hot && flag1 && decide ((j : Int) = p.PredictStep - 1)) then
          match detectShard p threshold i js false startT1 with
          | Except.error e => Except.error e
          | Except.ok more =>
            Except.ok ({ StartTime := startT1, EndTime := (j : Int) * 60 + p.Time,
                         TableKey := [i] } :: more)
        else
          detectShard p threshold i js flag1 startT1

/-- The loop `for i := 0; i < p.TableNum; i++` of the hot-interval detector,
run on the tables still to visit: the final `hotSpotArr`. -/
def detectAll (p : predictInfo) (threshold : ℚ) : List Nat → Except Failure (List hotSpotPeriod)
  | [] => Except.ok []
  | i :: rest =>
    match detectShard p threshold i (List.range p.PredictStep.toNat) false 0 with
    | Except.error e => Except.error e
    | Except.ok arr =>
      match detectAll p threshold rest with
      | Except.error e => Except.error e
      | Except.ok more => Except.ok (arr ++ more)

/-- The local variables of the period-merging loop. -/
structure MergeState where
  period : List hotSpotPeriod
  i : Nat
  j : Nat
  tableArr : List Nat
  startT : Int
  endT : Int
  deriving DecidableEq, Repr

/-- The period-merging `for` loop, run for at most `fuel` iterations. Returns
the final `period` list. -/
def mergeLoop (hotSpotArr : List hotSpotPeriod) : Nat → MergeState →
    Except Failure (List hotSpotPeriod)
  | 0, _ => Except.error Failure.loopBudget
  | fuel + 1, s =>
    match hotSpotArr[s.j]? with
    | none => Except.error Failure.indexOutOfRange
    | some hj =>
      if hj.StartTime - s.endT > 2 * 60 then
        let s1 : MergeState :=
          { period := s.period ++ [{ StartTime := s.startT, EndTime := s.endT,
                                     TableKey := s.tableArr }],
            i := s.j, j := s.j, tableArr := [],
            startT := hj.StartTime, endT := hj.EndTime }
        if s1.j = hotSpotArr.length then
          Except.ok (s1.period ++ [{ StartTime := s1.startT, EndTime := s1.endT,
                                     TableKey := s1.tableArr }])
        else
          mergeLoop hotSpotArr fuel s1
      else
        match hotSpotArr[s.i]? with
        | none => Except.error Failure.indexOutOfRange
        | some hi =>
          let s1 : MergeState :=
            { period := s.period, i := s.i, j := s.j + 1,
              tableArr := s.tableArr ++ hj.TableKey,
              startT := s.startT,
              endT := if hj.EndTime > hi.EndTime then hj.EndTime else s.endT }
          if s1.j = hotSpotArr.length then
            Except.ok (s1.period ++ [{ StartTime := s1.startT, EndTime := s1.endT,
                                       TableKey := s1.tableArr }])
          else
            mergeLoop hotSpotArr fuel s1

/-- The period-merging pass of `calculateScheduleTime` (from
`period := make(...)` to the end of the `for` loop) on the sorted interval
list, seeded with the carried-over period. -/
def mergePeriods (fuel : Nat) (gLastPeriod : hotSpotPeriod) (hotSpotArr : List hotSpotPeriod) :
    Except Failure (List hotSpotPeriod) :=
  match hotSpotArr[0]? with
  | none => Except.error Failure.indexOutOfRange
  | some h0 =>
    mergeLoop hotSpotArr fuel
      { period := [gLastPeriod], i := 0, j := 0, tableArr := [],
        startT := h0.StartTime, endT := h0.EndTime }

/-- The loop `for i := 1; i < len(period); i++` that builds `scheduleT`, run on
the periods from `period[i-1]` on. -/
def buildScheduleT (p : predictInfo) : List hotSpotPeriod → List scheduleTime
  | prev :: cur :: rest =>
    let tmp : Int := (cur.StartTime + prev.EndTime).tdiv 2
    if cur.StartTime - prev.EndTime > 2 * 60 then
      let tmp1 : Int := if prev.EndTime = 0 then p.Time else tmp
      let arr : List Int := List.replicate p.TableNum.toNat 0
      { StartTime := tmp1, EndTime := cur.EndTime, DeltT := arr } :: buildScheduleT p (cur :: rest)
    else
      buildScheduleT p (cur :: rest)
  | _ => []

/-- The conversion `float64(n)` of an integer `n`: the nearest value with 53
significant bits, a tie going to the even significand. The result is again an
integer, and it is `n` itself when `|n| < 2^53`. An integer beyond the largest
finite `float64` stands for the infinity the conversion gives. -/
def float64OfInt (n : Int) : Int :=
  if n.natAbs < 2 ^ 53 then n
  else
    let k : Nat := Nat.log2 n.natAbs - 52
    let q : Nat := n.natAbs / 2 ^ k
    let r : Nat := n.natAbs % 2 ^ k
    let q1 : Nat := if 2 ^ k < 2 * r ∨ (2 * r = 2 ^ k ∧ q % 2 = 1) then q + 1 else q
    if n < 0 then -((q1 * 2 ^ k : Nat) : Int) else ((q1 * 2 ^ k : Nat) : Int)

/-- The loop `for i := int64(yi); i != 0; i >>= 1` of the library function
`math.Pow`, for an integer-valued base: `a1` is multiplied by `x1` at every set
bit of the exponent and `x1` is squared at every bit, each product rounded to
`float64`. The library works on the significands and adds the binary exponents;
scaling by a power of two is exact, so the roundings are those of the full
values. -/
def powLoop : Nat → Nat → Int → Int → Int
  | 0, _, _, a1 => a1
  | fuel + 1, i, x1, a1 =>
    if i = 0 then a1
    else
      powLoop fuel (i / 2) (float64OfInt (x1 * x1))
        (if i % 2 = 1 then float64OfInt (a1 * x1) else a1)

/-- The call `math.Pow(x, y)` for an integer-valued `float64` base `x` and a
whole exponent `y`. -/
def mathPow (x : Int) (y : Nat) : Int :=
  powLoop (y + 1) y x 1

/-- The conversion `int64(f)` of an integer-valued `float64`. A value outside
the `int64` range has no result fixed by the language; it converts to `-2^63`,
the result of the amd64 conversion instruction. -/
def int64OfFloat64 (f : Int) : Int :=
  if -(2 ^ 63) ≤ f ∧ f < 2 ^ 63 then f else -(2 ^ 63)

/-- The body of the loop `for _, h := range hotSpotArr` for one interval `h`:
the update of the weight vector `v.DeltT`. The minute count goes through
`float64`, `math.Pow` and `math.Floor` and back to `int64`; `math.Floor` leaves
an integer-valued `float64` as it is. -/
def updateDeltT (v : scheduleTime) (h : hotSpotPeriod) : Except Failure scheduleTime :=
  let tmp : Int := (h.StartTime + h.EndTime).tdiv 2
  match h.TableKey[0]? with
  | none => Except.error Failure.indexOutOfRange
  | some k =>
    match v.DeltT[k]? with
    | none => Except.error Failure.indexOutOfRange
    | some cur =>
      if tmp ≥ v.StartTime ∧ tmp ≤ v.EndTime then
        Except.ok { v with DeltT := v.DeltT.set k 1 }
      else if tmp > v.EndTime then
        let tfloat : Int := float64OfInt ((tmp - v.StartTime).tdiv 60)
        let t : Int := int64OfFloat64 (mathPow tfloat 2)
        if cur = 0 ∨ t < cur then Except.ok { v with DeltT := v.DeltT.set k t } else Except.ok v
      else
        let tfloat : Int := float64OfInt ((tmp - v.StartTime).tdiv 60)
        let t : Int := int64OfFloat64 (mathPow tfloat 3)
        if cur = 0 ∨ t < cur then Except.ok { v with DeltT := v.DeltT.set k t } else Except.ok v

/-- The loop `for _, h := range hotSpotArr` for one window `v`. -/
def weightWindow : scheduleTime → List hotSpotPeriod → Except Failure scheduleTime
  | v, [] => Except.ok v
  | v, h :: rest =>
    match updateDeltT v h with
    | Except.error e => Except.error e
    | Except.ok v1 => weightWindow v1 rest

/-- The loop `for _, v := range scheduleT` of the weight pass. -/
def weightPass (hotSpotArr : List hotSpotPeriod) : List scheduleTime →
    Except Failure (List scheduleTime)
  | [] => Except.ok []
  | v :: rest =>
    match weightWindow v hotSpotArr with
    | Except.error e => Except.error e
    | Except.ok v1 =>
      match weightPass hotSpotArr rest with
      | Except.error e => Except.error e
      | Except.ok more => Except.ok (v1 :: more)

/-- The method `calculateScheduleTime`. The global `gLastPeriod` is passed in
and its value after the call is the second component of the result. The
merging loop runs for at most `fuel` iterations. -/
def predictInfo.calculateScheduleTime (fuel : Nat) (p : predictInfo) (threshold : ℚ)
    (gLastPeriod : hotSpotPeriod) : Except Failure (List scheduleTime) × hotSpotPeriod :=
  if p.TableNum < 0 then
    (Except.error Failure.negativeLen, gLastPeriod)
  else if 0 < p.TableNum ∧ p.PredictStep < 0 then
    (Except.error Failure.negativeLen, gLastPeriod)
  else
    match detectAll p threshold (List.range p.TableNum.toNat) with
    | Except.error e => (Except.error e, gLastPeriod)
    | Except.ok hotSpotArr0 =>
      if hotSpotArr0.length ≤ 0 then
        (Except.error (Failure.error "no hot spot"), gLastPeriod)
      else
        let hotSpotArr := bubbleSortHotSpot hotSpotArr0
        match mergePeriods fuel gLastPeriod hotSpotArr with
        | Except.error e => (Except.error e, gLastPeriod)
        | Except.ok period =>
          match weightPass hotSpotArr (buildScheduleT p period) with
          | Except.error e => (Except.error e, gLastPeriod)
          | Except.ok scheduleT =>
            match period.getLast? with
            | none => (Except.error Failure.indexOutOfRange, gLastPeriod)
            | some last => (Except.ok scheduleT, last)

/-! ## `getTableIndexByRegion` and `getTopK` -/

/-- The function `strings.Compare` on byte strings: -1, 0 or 1. -/
def stringsCompare : List Nat → List Nat → Int
  | [], [] => 0
  | [], _ :: _ => -1
  | _ :: _, [] => 1
  | x :: xs, y :: ys => if x < y then -1 else if y < x then 1 else stringsCompare xs ys

/-- The loop `for index, t := range tableInfo` of `getTableIndexByRegion`, run
on the tables from position `index` on. -/
def scanTables (str : List Nat) : List preTableInfo → Nat → Except Failure Nat
  | [], _ => Except.error (Failure.error "region is not in all table")
  | t :: rest, index =>
    if stringsCompare t.StartKey str ≤ 0 ∧ (t.EndKey = [] ∨ stringsCompare t.EndKey str > 0) then
      Except.ok index
    else
      scanTables str rest (index + 1)

/-- The method `getTableIndexByRegion`. -/
def predictInfo.getTableIndexByRegion (p : predictInfo) (meta : RegionInfo) :
    Except Failure Nat :=
  scanTables meta.hexStartKey p.TableInfo 0

/-- The first loop `for index, v := range regions` of `getTopK`, run on the
regions still to visit: the entries of `tmp` for them, and the final `minrw`
and `maxrw`. -/
def metricLoop (dispatchT : dispatchTiming) (DeltT : List Int) :
    List RegionInfo → Nat → Nat → Except Failure (List Nat × Nat × Nat)
  | [], minrw, maxrw => Except.ok ([], minrw, maxrw)
  | v :: rest, minrw, maxrw =>
    match dispatchT.predictData.getTableIndexByRegion v with
    | Except.error _ =>
      match metricLoop dispatchT DeltT rest minrw maxrw with
      | Except.error e => Except.error e
      | Except.ok (tmp, mn, mx) => Except.ok (0 :: tmp, mn, mx)
    | Except.ok tableIndex =>
      match DeltT[tableIndex]? with
      | none => Except.error Failure.indexOutOfRange
      | some w =>
        let divisor : Nat := ((w * v.approximateSize) % 2 ^ 64).toNat
        if divisor = 0 then
          Except.error Failure.divideByZero
        else
          let data : Nat := v.rwBytesTotal / divisor
          let minrw1 : Nat := if minrw > data then data else minrw
          let maxrw1 : Nat := if maxrw < data then data else maxrw
          match metricLoop dispatchT DeltT rest minrw1 maxrw1 with
          | Except.error e => Except.error e
          | Except.ok (tmp, mn, mx) => Except.ok (data :: tmp, mn, mx)

/-- The second loop `for index, v := range regions` of `getTopK`, run on the
regions still to visit paired with their `tmp` entries: the final `HotDegree`. -/
def binLoop (maxrw segment : Nat) :
    List (RegionInfo × Nat) → List HotRegionTable → Except Failure (List HotRegionTable)
  | [], HotDegree => Except.ok HotDegree
  | (v, data) :: rest, HotDegree =>
    if data = 0 then
      binLoop maxrw segment rest HotDegree
    else
      let indexData : Nat := ((maxrw + 2 ^ 64 - data) % 2 ^ 64) / segment
      match HotDegree[indexData]? with
      | none => Except.error Failure.indexOutOfRange
      | some h =>
        binLoop maxrw segment rest
          (HotDegree.set indexData
            { count := (h.count + 1) % 2 ^ 64, regionID := h.regionID ++ [v.id] })

/-- The inner loop `for _, i := range h.regionID` of the selection, run on the
IDs still to visit. Returns `retRegionID`, `k`, and whether `break LOOP` ran. -/
def takeBin (topk : Int) : List Nat → List Nat → Int → List Nat × Int × Bool
  | [], retRegionID, k => (retRegionID, k, false)
  | i :: rest, retRegionID, k =>
    if k + 1 = topk then
      (retRegionID ++ [i], k + 1, true)
    else
      takeBin topk rest (retRegionID ++ [i]) (k + 1)

/-- The labelled loop `for _, h := range HotDegree` of the selection, run on
the bins still to visit. -/
def takeLoop (topk : Int) : List HotRegionTable → List Nat → Int → List Nat
  | [], retRegionID, _ => retRegionID
  | h :: rest, retRegionID, k =>
    if (takeBin topk h.regionID retRegionID k).2.2 then
      (takeBin topk h.regionID retRegionID k).1
    else
      takeLoop topk rest (takeBin topk h.regionID retRegionID k).1
        (takeBin topk h.regionID retRegionID k).2.1

/-- The function `getTopK`. The slice `cluster.GetRegions()` is the parameter
`regions`. -/
def getTopK (regions : List RegionInfo) (index : Nat) (dispatchT : dispatchTiming) :
    Except Failure (List Nat) :=
  match dispatchT.scheduleTime[index]? with
  | none => Except.error Failure.indexOutOfRange
  | some window =>
    let DeltT := window.DeltT
    if regions.length ≤ 0 then
      Except.ok []
    else
      match metricLoop dispatchT DeltT regions uint64Max uint64Min with
      | Except.error e => Except.error e
      | Except.ok (tmp, minrw, maxrw) =>
        let segment0 : Nat := ((maxrw + 2 ^ 64 - minrw) % 2 ^ 64) / regions.length
        let segment : Nat := if segment0 = 0 then 1 else segment0
        let HotDegree0 : List HotRegionTable :=
          List.replicate (regions.length + 1) { count := 0, regionID := [] }
        match binLoop maxrw segment (regions.zip tmp) HotDegree0 with
        | Except.error e => Except.error e
        | Except.ok HotDegree =>
          let topk : Int := (regions.length : Int).tdiv 10
          Except.ok (takeLoop topk HotDegree [] 0)

/-! ## Specification-side definitions -/

/-- The schedule window the specification attaches to an adjacent pair of
periods whose gap exceeds two minutes: it starts at the base timestamp `T0`
when the earlier period ends at 0 and at the midpoint of the gap otherwise, ends
with the later period, and carries one weight entry per table. -/
def specWindow (T0 : Int) (tableNum : Nat) (prev cur : hotSpotPeriod) : scheduleTime :=
  { StartTime := if prev.EndTime = 0 then T0 else (cur.StartTime + prev.EndTime).tdiv 2,
    EndTime := cur.EndTime,
    DeltT := List.replicate tableNum 0 }

/-- The window of the specification for position `i` of the period list, if
any: there is one exactly when `period[i].start - period[i-1].end > 120`. -/
def specWindowAt (T0 : Int) (tableNum : Nat) (period : List hotSpotPeriod) (i : Nat) :
    Option scheduleTime :=
  match period[i - 1]?, period[i]? with
  | some prev, some cur =>
    if cur.StartTime - prev.EndTime > 120 then some (specWindow T0 tableNum prev cur) else none
  | _, _ => none

/-- The window list of the specification: the windows of the positions
`i = 1 .. len(period) - 1`, in that order. -/
def specScheduleWindows (T0 : Int) (tableNum : Nat) (period : List hotSpotPeriod) :
    List scheduleTime :=
  (List.range' 1 (period.length - 1)).filterMap (specWindowAt T0 tableNum period)

/-- Step `j` of the series `xs` is hot: it exists and its predicted value is
strictly above the threshold. -/
def IsHot (xs : List ℚ) (threshold : ℚ) (j : Nat) : Prop :=
  ∃ v, xs[j]? = some v ∧ threshold < v

/-- The steps `a..b` form a maximal run of hot steps of `xs`: all of them are
hot, the step before `a` (if there is one) is not, and the step after `b` (if
there is one) is not. -/
def IsMaximalRun (xs : List ℚ) (threshold : ℚ) (a b : Nat) : Prop :=
  a ≤ b ∧ (∀ j, a ≤ j → j ≤ b → IsHot xs threshold j) ∧
    (∀ k, a = k + 1 → ¬ IsHot xs threshold k) ∧ ¬ IsHot xs threshold (b + 1)

/-- The interval the specification attaches to the run `a..b` of table `i`: it
starts at `(a+1)*60 + base`; it ends at `(b+1)*60 + base` when `b` is before
the final step and at `(T-1)*60 + base` when `b` is the final step. -/
def runInterval (p : predictInfo) (i a b : Nat) : hotSpotPeriod :=
  { StartTime := ((a : Int) + 1) * 60 + p.Time,
    EndTime := if (b : Int) < p.PredictStep - 1 then ((b : Int) + 1) * 60 + p.Time
               else (p.PredictStep - 1) * 60 + p.Time,
    TableKey := [i] }

/-- The midpoint `(start + end) / 2` of a hot interval, with Go's integer division. -/
def intervalMid (h : hotSpotPeriod) : Int :=
  (h.StartTime + h.EndTime).tdiv 2

/-- The weight the specification records for interval `h` in the window
`[winStart, winEnd]`: 1 for a midpoint inside the window, the square of the
whole minutes from `winStart` for a midpoint after `winEnd`, the cube
otherwise. -/
def recordedWeight (winStart winEnd : Int) (h : hotSpotPeriod) : Int :=
  if winStart ≤ intervalMid h ∧ intervalMid h ≤ winEnd then 1
  else if winEnd < intervalMid h then ((intervalMid h - winStart).tdiv 60) ^ 2
  else ((intervalMid h - winStart).tdiv 60) ^ 3

/-- The weight the code computes for interval `h` in the window
`[winStart, winEnd]`: as `recordedWeight`, with the square and the cube taken
in `float64` and converted back to `int64`. -/
def storedWeight (winStart winEnd : Int) (h : hotSpotPeriod) : Int :=
  if winStart ≤ intervalMid h ∧ intervalMid h ≤ winEnd then 1
  else if winEnd < intervalMid h then
    int64OfFloat64 (mathPow (float64OfInt ((intervalMid h - winStart).tdiv 60)) 2)
  else
    int64OfFloat64 (mathPow (float64OfInt ((intervalMid h - winStart).tdiv 60)) 3)

/-- The value of a table's entry after the weight pass has visited interval `h`
of that table, `cur` being the entry before. -/
def entryStep (winStart winEnd : Int) (cur : Int) (h : hotSpotPeriod) : Int :=
  if winStart ≤ intervalMid h ∧ intervalMid h ≤ winEnd then 1
  else if cur = 0 ∨ storedWeight winStart winEnd h < cur then storedWeight winStart winEnd h
  else cur

/-- The mean predicted load of step `i` across all tables, as the
specification defines the per-step mean series: the sum of the tables'
predictions for step `i` divided by the number of tables. -/
def specStepMean (p : predictInfo) (i : Nat) : ℚ :=
  (p.TableInfo.map fun t => t.Predict.getD i 0).sum / (p.TableInfo.length : ℚ)

/-- Byte string `a` is at most byte string `b` in lexicographic order. -/
def keyLE (a b : List Nat) : Prop :=
  a = b ∨ List.Lex (· < ·) a b

/-- Table `t` owns the key `k` under half-open semantics: `startKey ≤ k`, and
`endKey` is empty or `k < endKey`. -/
def Owns (t : preTableInfo) (k : List Nat) : Prop :=
  keyLE t.StartKey k ∧ (t.EndKey = [] ∨ List.Lex (· < ·) k t.EndKey)

/-- The bin of a region with metric `data`: `floor((max - metric) / binWidth)`. -/
def specBin (maxrw segment data : Nat) : Nat :=
  (maxrw - data) / segment

/-- The bin width: `floor((max - min) / N)`, raised to 1 when it is 0. -/
def specBinWidth (minrw maxrw n : Nat) : Nat :=
  max 1 ((maxrw - minrw) / n)

/-- The ranked regions (nonzero metric) with their metrics, bin after bin for the
bins `0 .. n`, each bin in region-iteration order. -/
def rankedByBin (maxrw segment n : Nat) (entries : List (RegionInfo × Nat)) :
    List (RegionInfo × Nat) :=
  (List.range (n + 1)).flatMap fun b =>
    entries.filter fun e => decide (e.2 ≠ 0 ∧ specBin maxrw segment e.2 = b)

/-! ## Theorems: the scheduler of `moveRegionPlugin.go` -/

theorem isExists_iff (ID : Nat) (IDs : List Nat) : isExists ID IDs = true ↔ ID ∈ IDs := by
  induction IDs with
  | nil => simp [isExists]
  | cons id IDs ih =>
    by_cases h : id = ID
    · simp [isExists, h]
    · have h2 : ¬ ID = id := fun e => h e.symm
      simp [isExists, h, h2, ih]

theorem isExists_eq_false_iff (ID : Nat) (IDs : List Nat) :
    isExists ID IDs = false ↔ ID ∉ IDs := by
  rw [← isExists_iff]; simp

/-- C2: with the current time as the parameter `now`, `IsScheduleAllowed` is
true exactly when `startTime ≤ now ≤ endTime` and the in-flight region-operator
count is below the cluster's region-schedule limit; outside the window it is
false whatever the count, also for a count of zero. -/
theorem IsScheduleAllowed_iff (r : moveRegionUserScheduler) (now : Int) (operatorCount : Nat)
    (cluster : Cluster) :
    (r.IsScheduleAllowed now operatorCount cluster = true ↔
      (r.startTime ≤ now ∧ now ≤ r.endTime ∧ operatorCount < cluster.GetRegionScheduleLimit)) ∧
    ((now < r.startTime ∨ r.endTime < now) →
      r.IsScheduleAllowed now 0 cluster = false ∧
      r.IsScheduleAllowed now operatorCount cluster = false) := by
  unfold moveRegionUserScheduler.IsScheduleAllowed
  constructor
  · by_cases h1 : now < r.startTime
    · simp [h1]
    · by_cases h2 : now > r.endTime
      · simp [h1, h2]
      · simp [h1, h2]; omega
  · rintro (h | h)
    · simp [h]
    · have : now > r.endTime := h
      simp [this]

/-- C2 witness. -/
theorem IsScheduleAllowed_iff_witness :
    ((10 : Int) < 20 ∨ (30 : Int) < 10) ∧
    moveRegionUserScheduler.IsScheduleAllowed
      { name := "s", regionIDs := [5, 7], storeIDs := [2], startTime := 20, endTime := 30 } 10 0
      { GetRegion := fun _ => none, GetStore := fun _ => none, GetRegionScheduleLimit := 4,
        filterSource := fun _ _ => false, filterTarget := fun _ _ => false,
        moveLeaderFails := fun _ _ _ => false } = false :=
  ⟨by decide, ((IsScheduleAllowed_iff _ 10 0 _).2 (Or.inl (by decide))).1⟩

theorem scheduleLoop_skip (storeIDs : List Nat) (cluster : Cluster) (pre rest : List Nat)
    (hpre : ∀ id ∈ pre, ∀ region, cluster.GetRegion id = some region →
      region.leaderStoreId ∈ storeIDs) :
    scheduleLoop storeIDs cluster (pre ++ rest) = scheduleLoop storeIDs cluster rest := by
  induction pre with
  | nil => rfl
  | cons id pre ih =>
    have ih2 := ih (fun x hx => hpre x (List.mem_cons_of_mem _ hx))
    rw [List.cons_append, scheduleLoop]
    cases hreg : cluster.GetRegion id with
    | none => simpa using ih2
    | some region =>
      have hin := hpre id (List.mem_cons_self _ _) region hreg
      have hex : isExists region.leaderStoreId storeIDs = true := (isExists_iff _ _).2 hin
      simpa [hex] using ih2

theorem scheduleLoop_missing (storeIDs : List Nat) (cluster : Cluster) (ids : List Nat) :
    scheduleLoop storeIDs cluster (ids.filter fun id => (cluster.GetRegion id).isSome) =
      scheduleLoop storeIDs cluster ids := by
  induction ids with
  | nil => rfl
  | cons id ids ih =>
    cases hreg : cluster.GetRegion id with
    | none =>
      rw [List.filter_cons_of_neg (by simp [hreg])]
      rw [ih]
      conv_rhs => rw [scheduleLoop]
      simp [hreg]
    | some region =>
      rw [List.filter_cons_of_pos (by simp [hreg])]
      rw [scheduleLoop]
      conv_rhs => rw [scheduleLoop]
      simp only [hreg, ih]

/-- C3: when the first region of the ID list that exists and is led from a store
outside the target set has a replica on `storeIDs[0]`, and both its leader store
and `storeIDs[0]` pass the transfer-leader filter, `Schedule` returns exactly
one operator: a transfer-leader operator for that region from the leader's store
to `storeIDs[0]` with high priority. The result is the same whatever IDs `post'`
follow that region in the list. -/
theorem Schedule_transfer_leader (r : moveRegionUserScheduler) (cluster : Cluster)
    (pre post : List Nat) (regionID : Nat) (region : RegionInfo) (targetID : Nat)
    (others : List Nat)
    (hids : r.regionIDs = pre ++ regionID :: post)
    (hstores : r.storeIDs = targetID :: others)
    (hpre : ∀ id ∈ pre, ∀ reg, cluster.GetRegion id = some reg → reg.leaderStoreId ∈ r.storeIDs)
    (hreg : cluster.GetRegion regionID = some region)
    (hleader : region.leaderStoreId ∉ r.storeIDs)
    (hreplica : targetID ∈ region.storeIds)
    (hsource : cluster.filterSource (cluster.GetStore region.leaderStoreId)
      [{ TransferLeader := true }] = false)
    (htarget : cluster.filterTarget (cluster.GetStore targetID)
      [{ TransferLeader := true }] = false) :
    r.Schedule cluster =
        Except.ok [{ desc := MoveRegionType, regionID := region.id, kind := OpKind.OpLeader,
                     action := OpAction.transferLeader,
                     sourceStore := region.leaderStoreId, targetStore := targetID,
                     level := PriorityLevel.HighPriority }] ∧
    ∀ post' : List Nat,
      moveRegionUserScheduler.Schedule { r with regionIDs := pre ++ regionID :: post' } cluster =
        r.Schedule cluster := by
  have hex : isExists region.leaderStoreId r.storeIDs = false :=
    (isExists_eq_false_iff _ _).2 hleader
  have hlen : ¬ (r.storeIDs.length = 0) := by simp [hstores]
  have key : ∀ tail : List Nat, scheduleLoop r.storeIDs cluster (pre ++ regionID :: tail) =
      Except.ok [{ desc := MoveRegionType, regionID := region.id, kind := OpKind.OpLeader,
                   action := OpAction.transferLeader,
                   sourceStore := region.leaderStoreId, targetStore := targetID,
                   level := PriorityLevel.HighPriority }] := by
    intro tail
    rw [scheduleLoop_skip r.storeIDs cluster pre (regionID :: tail) hpre, scheduleLoop]
    simp only [hreg, hex]
    simp [hstores, hreplica, hsource, htarget, CreateTransferLeaderOperator,
      Operator.SetPriorityLevel]
  unfold moveRegionUserScheduler.Schedule
  simp only [hlen, if_false]
  refine ⟨?_, fun post' => ?_⟩
  · rw [hids]; exact key post
  · rw [hids, key post, key post']

/-- C3 witness: regions `[5, 7]`, targets `[2]`, region 5 led from store 9 with a
replica on store 2; region 7 is left unspecified by taking any continuation. -/
theorem Schedule_transfer_leader_witness :
    moveRegionUserScheduler.Schedule
      { name := "s", regionIDs := [5, 7], storeIDs := [2], startTime := 0, endTime := 10 }
      { GetRegion := fun id => if id = 5 then
          some { id := 5, hexStartKey := [], leader := some 9, storeIds := [9, 2],
                 rwBytesTotal := 0, approximateSize := 1 } else none,
        GetStore := fun id => some { id := id }, GetRegionScheduleLimit := 4,
        filterSource := fun _ _ => false, filterTarget := fun _ _ => false,
        moveLeaderFails := fun _ _ _ => false } =
      Except.ok [{ desc := MoveRegionType, regionID := 5, kind := OpKind.OpLeader,
                   action := OpAction.transferLeader, sourceStore := 9, targetStore := 2,
                   level := PriorityLevel.HighPriority }] :=
  (Schedule_transfer_leader
    { name := "s", regionIDs := [5, 7], storeIDs := [2], startTime := 0, endTime := 10 }
    { GetRegion := fun id => if id = 5 then
        some { id := 5, hexStartKey := [], leader := some 9, storeIds := [9, 2],
               rwBytesTotal := 0, approximateSize := 1 } else none,
      GetStore := fun id => some { id := id }, GetRegionScheduleLimit := 4,
      filterSource := fun _ _ => false, filterTarget := fun _ _ => false,
      moveLeaderFails := fun _ _ _ => false }
    [] [7] 5
    { id := 5, hexStartKey := [], leader := some 9, storeIds := [9, 2],
      rwBytesTotal := 0, approximateSize := 1 }
    2 [] rfl rfl (by simp) rfl (by decide) (by decide) rfl rfl).1

/-- C4: `Schedule` returns no operator when the target store list is empty, and
when every region ID of the task is absent from the cluster view or has its
leader on a store of the target set. A missing region is skipped: the result is
that of the scan over the IDs that exist. -/
theorem Schedule_nothing_to_do (r : moveRegionUserScheduler) (cluster : Cluster) :
    ((r.storeIDs = [] ∨
      ∀ id ∈ r.regionIDs, cluster.GetRegion id = none ∨
        ∃ region, cluster.GetRegion id = some region ∧ region.leaderStoreId ∈ r.storeIDs) →
      r.Schedule cluster = Except.ok []) ∧
    r.Schedule cluster =
      moveRegionUserScheduler.Schedule
        { r with regionIDs := r.regionIDs.filter fun id => (cluster.GetRegion id).isSome }
        cluster := by
  constructor
  · rintro (h | h)
    · simp [moveRegionUserScheduler.Schedule, h]
    · unfold moveRegionUserScheduler.Schedule
      split
      · rfl
      · have hskip := scheduleLoop_skip r.storeIDs cluster r.regionIDs [] (by
          intro id hid region hreg
          rcases h id hid with hn | ⟨reg, hreg2, hin⟩
          · rw [hn] at hreg; cases hreg
          · rw [hreg2] at hreg; cases hreg; exact hin)
        rw [List.append_nil] at hskip
        rw [hskip]; rfl
  · unfold moveRegionUserScheduler.Schedule
    split
    · rfl
    · exact (scheduleLoop_missing r.storeIDs cluster r.regionIDs).symm

/-- C4 witness: regions `[5, 7]`, targets `[2]`, both leaders on store 2. -/
theorem Schedule_nothing_to_do_witness :
    moveRegionUserScheduler.Schedule
      { name := "s", regionIDs := [5, 7], storeIDs := [2], startTime := 0, endTime := 10 }
      { GetRegion := fun id =>
          some { id := id, hexStartKey := [], leader := some 2, storeIds := [2, 3],
                 rwBytesTotal := 0, approximateSize := 1 },
        GetStore := fun id => some { id := id }, GetRegionScheduleLimit := 4,
        filterSource := fun _ _ => false, filterTarget := fun _ _ => false,
        moveLeaderFails := fun _ _ _ => false } = Except.ok [] :=
  (Schedule_nothing_to_do _ _).1 (Or.inr (by
    intro id _
    exact Or.inr ⟨_, rfl, by simp [RegionInfo.leaderStoreId]⟩))

/-! ## Theorems: evaluations of `getTopK` and `calculateThreshold` -/

/-- C1 (fails on the code): with a single region whose table has weight 1,
`getTopK` completes and returns that region, a list of length 1, although
`floor(1/10) = 0`: the test `k == topk` runs after `k++`, so it never fires
when `topk` is 0. -/
theorem getTopK_below_ten_returns_region :
    getTopK
      [{ id := 7, hexStartKey := [], leader := none, storeIds := [], rwBytesTotal := 5,
         approximateSize := 1 }]
      0
      { predictData := { Time := 0, TableNum := 1, PredictStep := 1,
                         TableInfo := [{ Predict := [1] }] },
        threshold := 0,
        scheduleTime := [{ StartTime := 0, EndTime := 10, DeltT := [1] }] } = Except.ok [7] ∧
    ¬ ([7].length ≤ 1 / 10) := by
  refine ⟨?_, by decide⟩
  rfl

/-- C5 (fails on the code): for one table and `PredictStep = 1` the guard
passes, the sorted mean series has the single index 0, and reading position
`floor(1/5) + 1 = 1` is out of range. -/
theorem calculateThreshold_single_step_out_of_range :
    predictInfo.calculateThreshold
      { Time := 0, TableNum := 1, PredictStep := 1, TableInfo := [{ Predict := [1] }] } =
      Except.error Failure.indexOutOfRange := by
  rfl

/-- The inner selection loop keeps `len(retRegionID) = k` and never lets `k`
pass a positive `topk`. -/
theorem takeBin_count (topk : Int) :
    ∀ (ids ret : List Nat) (k : Int), (ret.length : Int) = k → k < topk →
      ((takeBin topk ids ret k).1.length : Int) = (takeBin topk ids ret k).2.1 ∧
      (takeBin topk ids ret k).2.1 ≤ topk ∧
      ((takeBin topk ids ret k).2.2 = false → (takeBin topk ids ret k).2.1 < topk) := by
  intro ids
  induction ids with
  | nil =>
    intro ret k hk hlt
    simp only [takeBin]
    exact ⟨hk, le_of_lt hlt, fun _ => hlt⟩
  | cons id rest ih =>
    intro ret k hk hlt
    rw [takeBin]
    by_cases hstop : k + 1 = topk
    · rw [if_pos hstop]
      refine ⟨?_, le_of_eq hstop, fun h => by cases h⟩
      simp only [List.length_append, List.length_singleton]
      push_cast
      omega
    · rw [if_neg hstop]
      apply ih
      · simp only [List.length_append, List.length_singleton]
        push_cast
        omega
      · omega

/-- With a positive `topk` the selection returns at most `topk` IDs. -/
theorem takeLoop_length_le (topk : Int) :
    ∀ (bins : List HotRegionTable) (ret : List Nat) (k : Int), (ret.length : Int) = k →
      k < topk → ((takeLoop topk bins ret k).length : Int) ≤ topk := by
  intro bins
  induction bins with
  | nil =>
    intro ret k hk hlt
    simp only [takeLoop]
    omega
  | cons h rest ih =>
    intro ret k hk hlt
    obtain ⟨h1, h2, h3⟩ := takeBin_count topk h.regionID ret k hk hlt
    rw [takeLoop]
    split
    · omega
    · rename_i hbreak
      exact ih _ _ h1 (h3 (by simpa using hbreak))

/-- From ten regions on, a completed `getTopK` returns at most
`floor(n/10)` IDs. -/
theorem getTopK_length_le (regions : List RegionInfo) (index : Nat) (dispatchT : dispatchTiming)
    (ids : List Nat) (hn : 10 ≤ regions.length)
    (hret : getTopK regions index dispatchT = Except.ok ids) :
    ids.length ≤ regions.length / 10 := by
  unfold getTopK at hret
  split at hret
  · cases hret
  · simp only at hret
    rw [if_neg (by omega)] at hret
    split at hret
    · cases hret
    · split at hret
      · cases hret
      · simp only [Except.ok.injEq] at hret
        subst hret
        have htopk : (regions.length : Int).tdiv 10 = ((regions.length / 10 : Nat) : Int) := by
          rw [Int.tdiv_eq_ediv (by omega) (by omega)]
          norm_cast
        rename_i HotDegree _
        have hle := takeLoop_length_le ((regions.length : Int).tdiv 10) HotDegree [] 0 rfl (by
          rw [htopk]
          have : 1 ≤ regions.length / 10 := by omega
          omega)
        rw [htopk] at hle
        exact_mod_cast hle

theorem sumPredict_ok (p : predictInfo) (i : Nat)
    (hpred : ∀ t ∈ p.TableInfo, i < t.Predict.length) :
    ∀ (js : List Nat) (acc : ℚ), (∀ j ∈ js, j < p.TableInfo.length) →
      ∃ total, sumPredict p i js acc = Except.ok total := by
  intro js
  induction js with
  | nil => intro acc _; exact ⟨acc, rfl⟩
  | cons j rest ih =>
    intro acc hjs
    have hj : j < p.TableInfo.length := hjs j (List.mem_cons_self _ _)
    have hi := hpred _ (List.getElem_mem hj)
    rw [sumPredict, List.getElem?_eq_getElem hj]
    simp only [List.getElem?_eq_getElem hi]
    exact ih _ (fun x hx => hjs x (List.mem_cons_of_mem _ hx))

theorem stepMeans_ok (p : predictInfo) (hlen : (p.TableInfo.length : Int) = p.TableNum)
    (hpred : ∀ t ∈ p.TableInfo, (t.Predict.length : Int) = p.PredictStep) :
    ∀ steps : List Nat, (∀ i ∈ steps, (i : Int) < p.PredictStep) →
      ∃ means, stepMeans p steps = Except.ok means ∧ means.length = steps.length := by
  intro steps
  induction steps with
  | nil => intro _; exact ⟨[], rfl, rfl⟩
  | cons i rest ih =>
    intro hsteps
    have hi := hsteps i (List.mem_cons_self _ _)
    obtain ⟨total, htotal⟩ := sumPredict_ok p i (fun t ht => by
      have := hpred t ht
      omega) (List.range p.TableNum.toNat) 0 (by
      intro j hj
      rw [List.mem_range] at hj
      omega)
    obtain ⟨means, hmeans, hl⟩ := ih (fun x hx => hsteps x (List.mem_cons_of_mem _ hx))
    rw [stepMeans, htotal, hmeans]
    exact ⟨_, rfl, by simp [hl]⟩

/-- For a well-formed snapshot with `S ≥ 1` tables and `T ≥ 2` steps,
`calculateThreshold` succeeds with the mean of the sorted per-step means at
positions `floor(T/5)` and `floor(T/5) + 1`. -/
theorem calculateThreshold_ok (p : predictInfo) (hS : 1 ≤ p.TableNum) (hT : 2 ≤ p.PredictStep)
    (hlen : (p.TableInfo.length : Int) = p.TableNum)
    (hpred : ∀ t ∈ p.TableInfo, (t.Predict.length : Int) = p.PredictStep) :
    ∃ means lo hi, stepMeans p (List.range p.PredictStep.toNat) = Except.ok means ∧
      (means.length : Int) = p.PredictStep ∧
      (means.insertionSort (· ≤ ·))[(p.PredictStep.tdiv 5).toNat]? = some lo ∧
      (means.insertionSort (· ≤ ·))[(p.PredictStep.tdiv 5 + 1).toNat]? = some hi ∧
      p.calculateThreshold = Except.ok ((lo + hi) / 2) := by
  obtain ⟨means, hmeans, hl⟩ := stepMeans_ok p hlen hpred (List.range p.PredictStep.toNat) (by
    intro i hi
    rw [List.mem_range] at hi
    omega)
  rw [List.length_range] at hl
  have hsl : (means.insertionSort (· ≤ ·)).length = p.PredictStep.toNat := by
    rw [List.length_insertionSort, hl]
  have hdiv : p.PredictStep.tdiv 5 = p.PredictStep / 5 :=
    Int.tdiv_eq_ediv (by omega) (by omega)
  have h1 : (p.PredictStep.tdiv 5).toNat < (means.insertionSort (· ≤ ·)).length := by
    rw [hsl, hdiv]; omega
  have h2 : (p.PredictStep.tdiv 5 + 1).toNat < (means.insertionSort (· ≤ ·)).length := by
    rw [hsl, hdiv]; omega
  refine ⟨means, _, _, hmeans, by omega, List.getElem?_eq_getElem h1,
    List.getElem?_eq_getElem h2, ?_⟩
  unfold predictInfo.calculateThreshold
  rw [if_neg (by omega), hmeans]
  simp only [List.getElem?_eq_getElem h1, List.getElem?_eq_getElem h2]

/-! ## Theorems: the period-merging pass -/

theorem bubbleSortHotSpot_pair (a b : hotSpotPeriod) (hab : a.StartTime ≤ b.StartTime) :
    bubbleSortHotSpot [a, b] = [a, b] := by
  have h : ¬ (a.StartTime > b.StartTime) := by omega
  simp [bubbleSortHotSpot, bubbleLoop, bubblePass, h]

/-- C7: for two intervals `a`, `b` with `a.start ≤ a.end`, `b.start ≤ b.end`
and `a.start ≤ b.start` (a list the sort leaves as it is), the merge pass,
given at least three loop iterations, yields after the seed exactly one period
`[a.start, max a.end b.end]` when `b.start - a.end ≤ 120`, and exactly the two
periods `a` and `b` when `b.start - a.end > 120`. On `[0,60], [100,160],
[400,460]` it yields `[0,160]` and `[400,460]` after the seed. -/
theorem mergePeriods_two_intervals (fuel : Nat) (seed a b : hotSpotPeriod)
    (ha : a.StartTime ≤ a.EndTime) (hb : b.StartTime ≤ b.EndTime)
    (hab : a.StartTime ≤ b.StartTime) (hfuel : 3 ≤ fuel) :
    bubbleSortHotSpot [a, b] = [a, b] ∧
    (b.StartTime - a.EndTime ≤ 120 →
      mergePeriods fuel seed [a, b] =
        Except.ok [seed, { StartTime := a.StartTime, EndTime := max a.EndTime b.EndTime,
                           TableKey := a.TableKey ++ b.TableKey }]) ∧
    (b.StartTime - a.EndTime > 120 → mergePeriods fuel seed [a, b] = Except.ok [seed, a, b]) ∧
    (∀ k1 k2 k3 : List Nat,
      mergePeriods (fuel + 1) seed
        [{ StartTime := 0, EndTime := 60, TableKey := k1 },
         { StartTime := 100, EndTime := 160, TableKey := k2 },
         { StartTime := 400, EndTime := 460, TableKey := k3 }] =
        Except.ok [seed, { StartTime := 0, EndTime := 160, TableKey := k1 ++ k2 },
                   { StartTime := 400, EndTime := 460, TableKey := k3 }]) := by
  obtain ⟨n, rfl⟩ : ∃ n, fuel = n + 3 := ⟨fuel - 3, by omega⟩
  have h1 : ¬ (120 < a.StartTime - a.EndTime) := by omega
  have h2 : ¬ (120 < b.StartTime - b.EndTime) := by omega
  refine ⟨bubbleSortHotSpot_pair a b hab, ?_, ?_, ?_⟩
  · intro hgap
    have h3 : ¬ (120 < b.StartTime - a.EndTime) := by omega
    by_cases hmax : a.EndTime < b.EndTime
    · have hm : max a.EndTime b.EndTime = b.EndTime := max_eq_right (le_of_lt hmax)
      simp [mergePeriods, mergeLoop, h1, h3, hmax, hm]
    · have hm : max a.EndTime b.EndTime = a.EndTime := max_eq_left (by omega)
      simp [mergePeriods, mergeLoop, h1, h3, hmax, hm]
  · intro hgap
    have h3 : 120 < b.StartTime - a.EndTime := by omega
    cases a; cases b
    simp only [] at h1 h2 h3
    simp [mergePeriods, mergeLoop, h1, h2, h3]
  · intro k1 k2 k3
    simp [mergePeriods, mergeLoop]

/-- C7 witness: `[0,60]` and `[100,160]` merge into `[0,160]`. -/
theorem mergePeriods_two_intervals_witness :
    mergePeriods 3 { StartTime := 0, EndTime := 0, TableKey := [] }
      [{ StartTime := 0, EndTime := 60, TableKey := [0] },
       { StartTime := 100, EndTime := 160, TableKey := [1] }] =
      Except.ok [{ StartTime := 0, EndTime := 0, TableKey := [] },
                 { StartTime := 0, EndTime := max 60 160, TableKey := [0] ++ [1] }] :=
  (mergePeriods_two_intervals 3 { StartTime := 0, EndTime := 0, TableKey := [] }
    { StartTime := 0, EndTime := 60, TableKey := [0] }
    { StartTime := 100, EndTime := 160, TableKey := [1] }
    (by decide) (by decide) (by decide) (by decide)).2.1 (by decide)

/-- C8 (fails on the code): three tables over 20 steps, hot at steps 0-1, 1-9
and 2-4. The detector emits `[60,120]`, `[120,600]`, `[180,300]`, already in
start order, and the merge pass folds them into one period whose end is 300,
below the end 600 of the second interval: the running end is compared with the
end of the first interval of the period, not with its current value. -/
theorem mergePeriods_lowers_running_end :
    detectAll
      { Time := 0, TableNum := 3, PredictStep := 20,
        TableInfo := [{ Predict := [5,5,0,0,0,0,0,0,0,0,0,0,0,0,0,0,0,0,0,0] },
                      { Predict := [0,5,5,5,5,5,5,5,5,5,0,0,0,0,0,0,0,0,0,0] },
                      { Predict := [0,0,5,5,5,0,0,0,0,0,0,0,0,0,0,0,0,0,0,0] }] }
      1 (List.range 3) =
      Except.ok [{ StartTime := 60, EndTime := 120, TableKey := [0] },
                 { StartTime := 120, EndTime := 600, TableKey := [1] },
                 { StartTime := 180, EndTime := 300, TableKey := [2] }] ∧
    bubbleSortHotSpot
      [{ StartTime := 60, EndTime := 120, TableKey := [0] },
       { StartTime := 120, EndTime := 600, TableKey := [1] },
       { StartTime := 180, EndTime := 300, TableKey := [2] }] =
      [{ StartTime := 60, EndTime := 120, TableKey := [0] },
       { StartTime := 120, EndTime := 600, TableKey := [1] },
       { StartTime := 180, EndTime := 300, TableKey := [2] }] ∧
    mergePeriods 4 { StartTime := 0, EndTime := 0, TableKey := [] }
      [{ StartTime := 60, EndTime := 120, TableKey := [0] },
       { StartTime := 120, EndTime := 600, TableKey := [1] },
       { StartTime := 180, EndTime := 300, TableKey := [2] }] =
      Except.ok [{ StartTime := 0, EndTime := 0, TableKey := [] },
                 { StartTime := 60, EndTime := 300, TableKey := [0, 1, 2] }] ∧
    (300 : Int) < max 120 (max 600 300) := by
  refine ⟨?_, ?_, ?_, by decide⟩
  · rfl
  · rfl
  · rfl

/-! ## Theorems: the hot-interval detector and the "no hot spot" error -/

/-- One iteration of the detector loop at a readable step `j`, by cases on
whether the step is hot, whether an interval is open, and whether `j` is the
final step. -/
theorem detectShard_cons (p : predictInfo) (threshold : ℚ) (i : Nat) (t : preTableInfo)
    (ht : p.TableInfo[i]? = some t) (j : Nat) (js : List Nat) (v : ℚ)
    (hv : t.Predict[j]? = some v) (flag : Bool) (startT : Int) :
    detectShard p threshold i (j :: js) flag startT =
      if threshold < v then
        if (j : Int) = p.PredictStep - 1 then
          Except.map
            (fun more => { StartTime := if flag then startT else ((j : Int) + 1) * 60 + p.Time,
                           EndTime := (j : Int) * 60 + p.Time, TableKey := [i] } :: more)
            (detectShard p threshold i js false
              (if flag then startT else ((j : Int) + 1) * 60 + p.Time))
        else
          detectShard p threshold i js true
            (if flag then startT else ((j : Int) + 1) * 60 + p.Time)
      else if flag then
        Except.map
          (fun more => { StartTime := startT, EndTime := (j : Int) * 60 + p.Time,
                         TableKey := [i] } :: more)
          (detectShard p threshold i js false startT)
      else
        detectShard p threshold i js false startT := by
  rw [detectShard]
  simp only [ht, hv]
  by_cases hhot : threshold < v <;> by_cases hlast : (j : Int) = p.PredictStep - 1 <;>
    cases flag <;> simp [hhot, hlast, Except.map] <;>
    cases detectShard p threshold i js false _ <;> rfl

/-- Under the shape hypotheses the detector loop of table `i` returns, and it
emits no interval exactly when no interval is open and no remaining step is
above the threshold. -/
theorem detectShard_nil_iff (p : predictInfo) (threshold : ℚ) (i : Nat) (t : preTableInfo)
    (ht : p.TableInfo[i]? = some t) (hlen : (t.Predict.length : Int) = p.PredictStep) :
    ∀ (n j0 : Nat) (flag : Bool) (startT : Int), j0 + n = t.Predict.length →
      ∃ l, detectShard p threshold i (List.range' j0 n) flag startT = Except.ok l ∧
        (l = [] ↔ (flag = false ∨ n = 0) ∧
          ∀ j, j0 ≤ j → ∀ v, t.Predict[j]? = some v → v ≤ threshold) := by
  intro n
  induction n with
  | zero =>
    intro j0 flag startT hj
    refine ⟨[], by simp [detectShard], ?_⟩
    simp only [true_iff, or_true, true_and]
    intro j hj0 v hv
    have := (List.getElem?_eq_some_iff.1 hv).1
    omega
  | succ n ih =>
    intro j0 flag startT hj
    have hlt : j0 < t.Predict.length := by omega
    have hv0 : t.Predict[j0]? = some (t.Predict[j0]) := List.getElem?_eq_getElem hlt
    rw [List.range'_succ, detectShard_cons p threshold i t ht j0 _ _ hv0]
    by_cases hhot : threshold < t.Predict[j0]
    · -- a hot step: the output cannot be empty
      have hne : ¬ (∀ j, j0 ≤ j → ∀ v, t.Predict[j]? = some v → v ≤ threshold) := by
        intro hall
        exact absurd (hall j0 le_rfl _ hv0) (not_le.2 hhot)
      rw [if_pos hhot]
      by_cases hlast : (j0 : Int) = p.PredictStep - 1
      · rw [if_pos hlast]
        obtain ⟨l, hl, -⟩ := ih (j0 + 1) false
          (if flag then startT else ((j0 : Int) + 1) * 60 + p.Time) (by omega)
        rw [hl]
        exact ⟨_, rfl, by simp [hne]⟩
      · rw [if_neg hlast]
        have hn : n ≠ 0 := by
          intro h0
          apply hlast
          omega
        obtain ⟨l, hl, hiff⟩ := ih (j0 + 1) true
          (if flag then startT else ((j0 : Int) + 1) * 60 + p.Time) (by omega)
        rw [hl]
        exact ⟨_, rfl, by simp [hne, hiff, hn]⟩
    · -- a step at or below the threshold
      have hcold : t.Predict[j0] ≤ threshold := not_lt.1 hhot
      rw [if_neg hhot]
      cases flag with
      | true =>
        obtain ⟨l, hl, -⟩ := ih (j0 + 1) false startT (by omega)
        rw [if_pos rfl, hl]
        exact ⟨_, rfl, by simp⟩
      | false =>
        obtain ⟨l, hl, hiff⟩ := ih (j0 + 1) false startT (by omega)
        rw [if_neg (by simp), hl]
        refine ⟨_, rfl, ?_⟩
        rw [hiff]
        simp only [true_or, true_and]
        constructor
        · intro h j hj0 v hv
          rcases Nat.eq_or_lt_of_le hj0 with heq | hlt2
          · subst heq
            rw [hv0] at hv
            cases hv
            exact hcold
          · exact h j hlt2 v hv
        · intro h j hj0 v hv
          exact h j (by omega) v hv


/-- The detector over a list of readable tables returns, and its output is
empty exactly when no step of any of those tables is above the threshold. -/
theorem detectAll_nil_iff (p : predictInfo) (threshold : ℚ)
    (hpred : ∀ t ∈ p.TableInfo, (t.Predict.length : Int) = p.PredictStep) :
    ∀ tables : List Nat, (∀ i ∈ tables, i < p.TableInfo.length) →
      ∃ arr, detectAll p threshold tables = Except.ok arr ∧
        (arr = [] ↔ ∀ i ∈ tables, ∀ t, p.TableInfo[i]? = some t →
          ∀ v ∈ t.Predict, ¬ threshold < v) := by
  intro tables
  induction tables with
  | nil => intro _; exact ⟨[], rfl, by simp⟩
  | cons i rest ih =>
    intro hin
    have hi : i < p.TableInfo.length := hin i (List.mem_cons_self _ _)
    have ht : p.TableInfo[i]? = some p.TableInfo[i] := List.getElem?_eq_getElem hi
    have hlen := hpred _ (List.getElem_mem hi)
    obtain ⟨l, hl, hiff⟩ := detectShard_nil_iff p threshold i _ ht hlen
      p.PredictStep.toNat 0 false 0 (by omega)
    obtain ⟨more, hmore, hiff2⟩ := ih (fun x hx => hin x (List.mem_cons_of_mem _ hx))
    rw [detectAll, List.range_eq_range', hl, hmore]
    refine ⟨_, rfl, ?_⟩
    rw [List.append_eq_nil, hiff, hiff2]
    simp only [true_or, true_and, List.mem_cons, forall_eq_or_imp, zero_le, forall_const]
    refine and_congr_left fun _ => ?_
    constructor
    · intro h t' ht' v hv
      rw [ht] at ht'
      cases ht'
      obtain ⟨k, hk, rfl⟩ := List.getElem_of_mem hv
      exact not_lt.2 (h k _ (List.getElem?_eq_getElem hk))
    · intro h j v hv
      exact not_lt.1 (h _ ht v (List.getElem?_mem hv))

/-- One iteration of the merging loop at readable positions `i` and `j`. -/
theorem mergeLoop_succ (hotSpotArr : List hotSpotPeriod) (fuel : Nat) (s : MergeState)
    (hi hj : hotSpotPeriod) (hhj : hotSpotArr[s.j]? = some hj)
    (hhi : hotSpotArr[s.i]? = some hi) :
    mergeLoop hotSpotArr (fuel + 1) s =
      if 120 < hj.StartTime - s.endT then
        if s.j = hotSpotArr.length then
          Except.ok (s.period ++ [{ StartTime := s.startT, EndTime := s.endT,
                                    TableKey := s.tableArr }]
                              ++ [{ StartTime := hj.StartTime, EndTime := hj.EndTime,
                                    TableKey := [] }])
        else
          mergeLoop hotSpotArr fuel
            { period := s.period ++ [{ StartTime := s.startT, EndTime := s.endT,
                                       TableKey := s.tableArr }],
              i := s.j, j := s.j, tableArr := [],
              startT := hj.StartTime, endT := hj.EndTime }
      else if s.j + 1 = hotSpotArr.length then
        Except.ok (s.period ++ [{ StartTime := s.startT,
                                  EndTime := if hi.EndTime < hj.EndTime then hj.EndTime else s.endT,
                                  TableKey := s.tableArr ++ hj.TableKey }])
      else
        mergeLoop hotSpotArr fuel
          { period := s.period, i := s.i, j := s.j + 1,
            tableArr := s.tableArr ++ hj.TableKey, startT := s.startT,
            endT := if hi.EndTime < hj.EndTime then hj.EndTime else s.endT } := by
  rw [mergeLoop]
  simp only [hhj, hhi]
  by_cases h1 : 120 < hj.StartTime - s.endT
  · have h1' : hj.StartTime - s.endT > 2 * 60 := by omega
    simp only [h1, h1', if_true]
  · have h1' : ¬ (hj.StartTime - s.endT > 2 * 60) := by omega
    simp only [h1, h1', if_false, gt_iff_lt]

theorem mergeLoop_error (hotSpotArr : List hotSpotPeriod) :
    ∀ (fuel : Nat) (s : MergeState) (e : Failure),
      mergeLoop hotSpotArr fuel s = Except.error e →
        e = Failure.loopBudget ∨ e = Failure.indexOutOfRange := by
  intro fuel
  induction fuel with
  | zero =>
    intro s e h
    simp only [mergeLoop, Except.error.injEq] at h
    exact Or.inl h.symm
  | succ fuel ih =>
    intro s e h
    cases hhj : hotSpotArr[s.j]? with
    | none =>
      rw [mergeLoop] at h
      simp only [hhj, Except.error.injEq] at h
      exact Or.inr h.symm
    | some hj =>
      cases hhi : hotSpotArr[s.i]? with
      | none =>
        rw [mergeLoop] at h
        simp only [hhj, hhi] at h
        split_ifs at h
        · exact ih _ _ h
        · simp only [Except.error.injEq] at h
          exact Or.inr h.symm
      | some hi =>
        rw [mergeLoop_succ hotSpotArr fuel s hi hj hhj hhi] at h
        split_ifs at h <;> exact ih _ _ h

theorem updateDeltT_error (v : scheduleTime) (h : hotSpotPeriod) (e : Failure)
    (he : updateDeltT v h = Except.error e) : e = Failure.indexOutOfRange := by
  unfold updateDeltT at he
  split at he
  · simp only [Except.error.injEq] at he
    exact he.symm
  · split at he
    · simp only [Except.error.injEq] at he
      exact he.symm
    · simp only at he
      split_ifs at he

theorem weightWindow_error (hotSpotArr : List hotSpotPeriod) :
    ∀ (v : scheduleTime) (e : Failure),
      weightWindow v hotSpotArr = Except.error e → e = Failure.indexOutOfRange := by
  induction hotSpotArr with
  | nil => intro v e h; cases h
  | cons h rest ih =>
    intro v e he
    rw [weightWindow] at he
    split at he
    · rename_i e1 h1
      simp only [Except.error.injEq] at he
      subst he
      exact updateDeltT_error _ _ _ h1
    · exact ih _ _ he

theorem weightPass_error (hotSpotArr : List hotSpotPeriod) :
    ∀ (ws : List scheduleTime) (e : Failure),
      weightPass hotSpotArr ws = Except.error e → e = Failure.indexOutOfRange := by
  intro ws
  induction ws with
  | nil => intro e h; cases h
  | cons v rest ih =>
    intro e he
    rw [weightPass] at he
    split at he
    · rename_i e1 h1
      simp only [Except.error.injEq] at he
      subst he
      exact weightWindow_error _ _ _ h1
    · split at he
      · rename_i e1 h1
        simp only [Except.error.injEq] at he
        subst he
        exact ih _ h1
      · cases he

/-- C6: for a well-formed snapshot (`S ≥ 1` tables, `T ≥ 1` steps each),
`calculateScheduleTime` returns the "no hot spot" error exactly when no
predicted value of any table is strictly above the threshold; and the detector
emits at least one interval for a table with a hot step and none for a table
without one. -/
theorem calculateScheduleTime_no_hot_spot_iff (fuel : Nat) (p : predictInfo) (threshold : ℚ)
    (gLastPeriod : hotSpotPeriod) (hS : 1 ≤ p.TableNum) (hT : 1 ≤ p.PredictStep)
    (hlen : (p.TableInfo.length : Int) = p.TableNum)
    (hpred : ∀ t ∈ p.TableInfo, (t.Predict.length : Int) = p.PredictStep) :
    ((p.calculateScheduleTime fuel threshold gLastPeriod).1 =
        Except.error (Failure.error "no hot spot") ↔
      ∀ t ∈ p.TableInfo, ∀ v ∈ t.Predict, ¬ threshold < v) ∧
    (∀ i t, p.TableInfo[i]? = some t →
      ∃ l, detectShard p threshold i (List.range p.PredictStep.toNat) false 0 = Except.ok l ∧
        (l = [] ↔ ∀ v ∈ t.Predict, ¬ threshold < v)) := by
  constructor
  · obtain ⟨arr, harr, hiff⟩ := detectAll_nil_iff p threshold hpred (List.range p.TableNum.toNat)
      (by intro i hi; rw [List.mem_range] at hi; omega)
    have hall : (∀ i ∈ List.range p.TableNum.toNat, ∀ t, p.TableInfo[i]? = some t →
        ∀ v ∈ t.Predict, ¬ threshold < v) ↔ ∀ t ∈ p.TableInfo, ∀ v ∈ t.Predict, ¬ threshold < v := by
      constructor
      · intro h t ht
        obtain ⟨k, hk, rfl⟩ := List.getElem_of_mem ht
        exact h k (by rw [List.mem_range]; omega) _ (List.getElem?_eq_getElem hk)
      · intro h i _ t ht
        exact h t (List.getElem?_mem ht)
    rw [← hall, ← hiff]
    unfold predictInfo.calculateScheduleTime
    rw [if_neg (by omega), if_neg (by omega), harr]
    simp only
    by_cases hnil : arr = []
    · subst hnil
      simp
    · have hpos : ¬ arr.length ≤ 0 := by
        have := List.length_pos.2 hnil
        omega
      rw [if_neg hpos]
      simp only [hnil, iff_false]
      intro hcontra
      split at hcontra
      · rename_i e he
        simp only [Except.error.injEq] at hcontra
        unfold mergePeriods at he
        split at he
        · cases he; cases hcontra
        · rcases mergeLoop_error _ _ _ _ he with h1 | h1 <;> rw [h1] at hcontra <;> cases hcontra
      · split at hcontra
        · rename_i e he
          simp only [Except.error.injEq] at hcontra
          rw [weightPass_error _ _ _ he] at hcontra
          cases hcontra
        · split at hcontra
          · cases hcontra
          · cases hcontra
  · intro i t ht
    have hlen2 := hpred t (List.getElem?_mem ht)
    obtain ⟨l, hl, hiff⟩ := detectShard_nil_iff p threshold i t ht hlen2
      p.PredictStep.toNat 0 false 0 (by omega)
    rw [List.range_eq_range']
    refine ⟨l, hl, ?_⟩
    rw [hiff]
    simp only [true_or, true_and, zero_le, forall_const]
    constructor
    · intro h v hv
      obtain ⟨k, hk, rfl⟩ := List.getElem_of_mem hv
      exact not_lt.2 (h k _ (List.getElem?_eq_getElem hk))
    · intro h j v hv
      exact not_lt.1 (h v (List.getElem?_mem hv))

/-- C6 witness: one table, two steps, both at the threshold: the run fails with
"no hot spot". -/
theorem calculateScheduleTime_no_hot_spot_iff_witness :
    (predictInfo.calculateScheduleTime 10
      { Time := 0, TableNum := 1, PredictStep := 2, TableInfo := [{ Predict := [1, 1] }] } 1
      { StartTime := 0, EndTime := 0, TableKey := [] }).1 =
      Except.error (Failure.error "no hot spot") :=
  (calculateScheduleTime_no_hot_spot_iff 10
    { Time := 0, TableNum := 1, PredictStep := 2, TableInfo := [{ Predict := [1, 1] }] } 1
    { StartTime := 0, EndTime := 0, TableKey := [] } (by decide) (by decide) (by decide)
    (by simp)).1.2 (by simp)

/-! ## Theorems: detector intervals and maximal runs -/

theorem IsHot.lt_length {xs : List ℚ} {threshold : ℚ} {j : Nat} (h : IsHot xs threshold j) :
    j < xs.length := by
  obtain ⟨v, hv, -⟩ := h
  exact (List.getElem?_eq_some_iff.1 hv).1

theorem isHot_iff_getElem (xs : List ℚ) (threshold : ℚ) (j : Nat) (hj : j < xs.length) :
    IsHot xs threshold j ↔ threshold < xs[j] := by
  unfold IsHot
  rw [List.getElem?_eq_getElem hj]
  constructor
  · rintro ⟨v, hv, hlt⟩
    cases hv
    exact hlt
  · intro h
    exact ⟨_, rfl, h⟩

/-- Two left-maximal hot stretches reaching the same step start at the same step. -/
theorem run_start_unique (xs : List ℚ) (threshold : ℚ) (a a' b : Nat) (ha : a ≤ b) (ha' : a' ≤ b)
    (hhot : ∀ j, a ≤ j → j ≤ b → IsHot xs threshold j)
    (hhot' : ∀ j, a' ≤ j → j ≤ b → IsHot xs threshold j)
    (hl : ∀ k, a = k + 1 → ¬ IsHot xs threshold k)
    (hl' : ∀ k, a' = k + 1 → ¬ IsHot xs threshold k) : a = a' := by
  rcases lt_trichotomy a a' with h | h | h
  · obtain ⟨k, rfl⟩ : ∃ k, a' = k + 1 := ⟨a' - 1, by omega⟩
    exact absurd (hhot k (by omega) (by omega)) (hl' k rfl)
  · exact h
  · obtain ⟨k, rfl⟩ : ∃ k, a = k + 1 := ⟨a - 1, by omega⟩
    exact absurd (hhot' k (by omega) (by omega)) (hl k rfl)

theorem runInterval_last (p : predictInfo) (i a b : Nat) (hb : (b : Int) = p.PredictStep - 1) :
    runInterval p i a b =
      { StartTime := ((a : Int) + 1) * 60 + p.Time, EndTime := (b : Int) * 60 + p.Time,
        TableKey := [i] } := by
  unfold runInterval
  rw [if_neg (by omega), hb]

theorem runInterval_closed (p : predictInfo) (i a k : Nat) (hk : (k : Int) < p.PredictStep - 1) :
    runInterval p i a k =
      { StartTime := ((a : Int) + 1) * 60 + p.Time,
        EndTime := (((k + 1 : Nat)) : Int) * 60 + p.Time, TableKey := [i] } := by
  unfold runInterval
  rw [if_pos hk]
  push_cast
  rfl

/-- The detector loop of table `i` from step `j0` on, with `n` steps left. When
an interval is open (`flag`), it was opened at a step `a0` that starts a run
reaching `j0 - 1`; when none is open, step `j0 - 1` is not hot. The loop then
emits, in order, the intervals of the maximal runs not yet closed. -/
theorem detectShard_runs (p : predictInfo) (threshold : ℚ) (i : Nat) (t : preTableInfo)
    (ht : p.TableInfo[i]? = some t) (hlen : (t.Predict.length : Int) = p.PredictStep) :
    ∀ (n j0 : Nat) (flag : Bool) (startT : Int), j0 + n = t.Predict.length →
      (flag = true → 1 ≤ n ∧ ∃ a0, a0 < j0 ∧ startT = ((a0 : Int) + 1) * 60 + p.Time ∧
        (∀ j, a0 ≤ j → j < j0 → IsHot t.Predict threshold j) ∧
        (∀ k, a0 = k + 1 → ¬ IsHot t.Predict threshold k)) →
      (flag = false → ∀ k, j0 = k + 1 → ¬ IsHot t.Predict threshold k) →
      ∃ runs : List (Nat × Nat),
        detectShard p threshold i (List.range' j0 n) flag startT =
          Except.ok (runs.map fun r => runInterval p i r.1 r.2) ∧
        runs.Pairwise (fun r s => r.2 < s.1) ∧
        ∀ a b, (a, b) ∈ runs ↔
          IsMaximalRun t.Predict threshold a b ∧ (if flag then j0 ≤ b + 1 else j0 ≤ b) := by
  intro n
  induction n with
  | zero =>
    intro j0 flag startT hj hopen hclosed
    cases flag with
    | true => exact absurd (hopen rfl).1 (by omega)
    | false =>
      refine ⟨[], by simp [detectShard], List.Pairwise.nil, ?_⟩
      intro a b
      simp only [List.not_mem_nil, false_iff, not_and]
      intro hrun
      have := (hrun.2.1 b hrun.1 le_rfl).lt_length
      simp only [Bool.false_eq_true, if_false]
      omega
  | succ n ih =>
    intro j0 flag startT hj hopen hclosed
    have hlt : j0 < t.Predict.length := by omega
    have hv0 : t.Predict[j0]? = some (t.Predict[j0]) := List.getElem?_eq_getElem hlt
    have hhot_iff := isHot_iff_getElem t.Predict threshold j0 hlt
    have hend : ¬ IsHot t.Predict threshold t.Predict.length := fun h => by
      have := h.lt_length
      omega
    rw [List.range'_succ, detectShard_cons p threshold i t ht j0 _ _ hv0]
    by_cases hhot : threshold < t.Predict[j0]
    · have hhot' : IsHot t.Predict threshold j0 := hhot_iff.2 hhot
      rw [if_pos hhot]
      by_cases hlast : (j0 : Int) = p.PredictStep - 1
      · -- hot at the final step: the open or just opened interval is closed
        have hn : n = 0 := by omega
        subst hn
        rw [if_pos hlast]
        simp only [List.range'_zero, detectShard, Except.map]
        cases flag with
        | true =>
          obtain ⟨-, a0, ha0, hstart, hrun, hleft⟩ := hopen rfl
          refine ⟨[(a0, j0)], ?_, List.pairwise_singleton _ _, ?_⟩
          · simp only [List.map_cons, List.map_nil, if_true]
            rw [runInterval_last p i a0 j0 hlast, hstart]
          · intro a b
            simp only [List.mem_singleton, Prod.mk.injEq, if_true]
            constructor
            · rintro ⟨ha, hb⟩
              rw [ha, hb]
              refine ⟨⟨by omega, ?_, hleft, ?_⟩, by omega⟩
              · intro j hj1 hj2
                rcases Nat.eq_or_lt_of_le hj2 with heq | hj3
                · rw [heq]
                  exact hhot'
                · exact hrun j hj1 hj3
              · have : j0 + 1 = t.Predict.length := by omega
                rw [this]
                exact hend
            · rintro ⟨⟨hab, hrun2, hleft2, hright2⟩, hb⟩
              have hb2 : b < t.Predict.length := (hrun2 b hab le_rfl).lt_length
              have hbj : b = j0 := by
                by_contra hne
                have : b + 1 = j0 := by omega
                rw [this] at hright2
                exact hright2 hhot'
              subst hbj
              refine ⟨?_, rfl⟩
              exact run_start_unique t.Predict threshold a a0 b hab (by omega) hrun2
                (fun j hj1 hj2 => by
                  rcases Nat.eq_or_lt_of_le hj2 with rfl | hj3
                  · exact hhot'
                  · exact hrun j hj1 hj3) hleft2 hleft
        | false =>
          have hprev := hclosed rfl
          refine ⟨[(j0, j0)], ?_, List.pairwise_singleton _ _, ?_⟩
          · simp only [List.map_cons, List.map_nil, Bool.false_eq_true, if_false]
            rw [runInterval_last p i j0 j0 hlast]
          · intro a b
            simp only [List.mem_singleton, Prod.mk.injEq, Bool.false_eq_true, if_false]
            constructor
            · rintro ⟨ha, hb⟩
              rw [ha, hb]
              refine ⟨⟨le_rfl, ?_, hprev, ?_⟩, le_rfl⟩
              · intro j hj1 hj2
                have : j = j0 := by omega
                rw [this]
                exact hhot'
              · have : j0 + 1 = t.Predict.length := by omega
                rw [this]
                exact hend
            · rintro ⟨⟨hab, hrun2, hleft2, hright2⟩, hb⟩
              have hb2 : b < t.Predict.length := (hrun2 b hab le_rfl).lt_length
              have hbj : b = j0 := by omega
              subst hbj
              refine ⟨?_, rfl⟩
              exact run_start_unique t.Predict threshold a b b hab le_rfl hrun2
                (fun j hj1 hj2 => by
                  have : j = b := by omega
                  subst this
                  exact hhot') hleft2 hprev
      · -- hot before the final step: the interval stays open
        rw [if_neg hlast]
        have hn : 1 ≤ n := by omega
        cases flag with
        | true =>
          obtain ⟨-, a0, ha0, hstart, hrun, hleft⟩ := hopen rfl
          obtain ⟨runs, hruns, hpair, hchar⟩ := ih (j0 + 1) true startT (by omega)
            (fun _ => ⟨hn, a0, by omega, hstart, fun j hj1 hj2 => by
              rcases Nat.eq_or_lt_of_le (Nat.le_of_lt_succ hj2) with rfl | hj3
              · exact hhot'
              · exact hrun j hj1 hj3, hleft⟩)
            (fun h => by cases h)
          refine ⟨runs, ?_, hpair, ?_⟩
          · simpa using hruns
          · intro a b
            rw [hchar a b]
            simp only [if_true]
            refine and_congr_right fun hmax => ?_
            constructor
            · intro h; omega
            · intro h
              by_contra hne
              have : b + 1 = j0 := by omega
              have hr := hmax.2.2.2
              rw [this] at hr
              exact hr hhot'
        | false =>
          have hprev := hclosed rfl
          obtain ⟨runs, hruns, hpair, hchar⟩ := ih (j0 + 1) true (((j0 : Int) + 1) * 60 + p.Time)
            (by omega)
            (fun _ => ⟨hn, j0, by omega, rfl, fun j hj1 hj2 => by
              have : j = j0 := by omega
              subst this
              exact hhot', hprev⟩)
            (fun h => by cases h)
          refine ⟨runs, ?_, hpair, ?_⟩
          · simpa using hruns
          · intro a b
            rw [hchar a b]
            simp only [if_true, Bool.false_eq_true, if_false]
            refine and_congr_right fun _ => ?_
            omega
    · -- a step at or below the threshold
      have hcold : ¬ IsHot t.Predict threshold j0 := fun h => hhot (hhot_iff.1 h)
      rw [if_neg hhot]
      obtain ⟨runs, hruns, hpair, hchar⟩ := ih (j0 + 1) false startT (by omega)
        (fun h => by cases h)
        (fun _ k hk => by
          have : k = j0 := by omega
          subst this
          exact hcold)
      simp only [Bool.false_eq_true, if_false] at hchar
      have hafter : ∀ a b, IsMaximalRun t.Predict threshold a b → j0 ≤ b → j0 + 1 ≤ a := by
        intro a b hmax hb
        by_contra hne
        exact hcold (hmax.2.1 j0 (by omega) hb)
      cases flag with
      | true =>
        obtain ⟨-, a0, ha0, hstart, hrun, hleft⟩ := hopen rfl
        obtain ⟨k, rfl⟩ : ∃ k, j0 = k + 1 := ⟨j0 - 1, by omega⟩
        refine ⟨(a0, k) :: runs, ?_, ?_, ?_⟩
        · rw [if_pos rfl, hruns]
          simp only [Except.map, List.map_cons]
          rw [runInterval_closed p i a0 k (by omega), hstart]
        · refine List.Pairwise.cons ?_ hpair
          intro r hr
          have hr2 := (hchar r.1 r.2).1 hr
          have := hafter r.1 r.2 hr2.1 (by omega)
          show k < r.1
          omega
        · intro a b
          simp only [List.mem_cons, Prod.mk.injEq, if_true, hchar a b]
          constructor
          · rintro (⟨rfl, rfl⟩ | ⟨hmax, hb⟩)
            · exact ⟨⟨by omega, fun j hj1 hj2 => hrun j hj1 (by omega), hleft, hcold⟩, le_rfl⟩
            · exact ⟨hmax, by omega⟩
          · rintro ⟨hmax, hb⟩
            rcases Nat.eq_or_lt_of_le hb with heq | hgt
            · left
              have hbk : b = k := by omega
              subst hbk
              exact ⟨run_start_unique t.Predict threshold a a0 b hmax.1 (by omega) hmax.2.1
                (fun j hj1 hj2 => hrun j hj1 (by omega)) hmax.2.2.1 hleft, rfl⟩
            · right
              have hb2 : k + 1 ≤ b := by omega
              have h1 := hafter a b hmax hb2
              have h2 := hmax.1
              exact ⟨hmax, by omega⟩
      | false =>
        refine ⟨runs, ?_, hpair, ?_⟩
        · rw [if_neg (by simp), hruns]
        · intro a b
          simp only [Bool.false_eq_true, if_false, hchar a b]
          refine and_congr_right fun hmax => ?_
          constructor
          · intro h; omega
          · intro h
            have h1 := hafter a b hmax h
            have h2 := hmax.1
            omega

/-- C9: for a table `i` whose series has `T = PredictStep` steps, the detector
returns, and the intervals it emits for the table are, in order, the images of
the maximal runs of steps strictly above the threshold: the list `runs` holds
exactly the maximal runs `a..b`, each once and in increasing order, and the
run `a..b` yields the interval tagged `[i]` with start `(a+1)*60 + base` and
end `(b+1)*60 + base` when `b < T-1`, `(T-1)*60 + base` when `b = T-1`. -/
theorem detectShard_maximal_runs (p : predictInfo) (threshold : ℚ) (i : Nat) (t : preTableInfo)
    (ht : p.TableInfo[i]? = some t) (hlen : (t.Predict.length : Int) = p.PredictStep) :
    ∃ runs : List (Nat × Nat),
      detectShard p threshold i (List.range p.PredictStep.toNat) false 0 =
        Except.ok (runs.map fun r => runInterval p i r.1 r.2) ∧
      runs.Pairwise (fun r s => r.2 < s.1) ∧
      ∀ a b, (a, b) ∈ runs ↔ IsMaximalRun t.Predict threshold a b := by
  obtain ⟨runs, hruns, hpair, hchar⟩ := detectShard_runs p threshold i t ht hlen
    p.PredictStep.toNat 0 false 0 (by omega) (fun h => by cases h) (fun _ k hk => by omega)
  refine ⟨runs, ?_, hpair, ?_⟩
  · rw [List.range_eq_range']
    exact hruns
  · intro a b
    rw [hchar a b]
    simp

/-- C9 witness: one table over five steps, hot at steps 1-2 and 4, threshold 1,
base timestamp 1000. -/
theorem detectShard_maximal_runs_witness :
    ∃ runs : List (Nat × Nat),
      detectShard
        { Time := 1000, TableNum := 1, PredictStep := 5, TableInfo := [{ Predict := [0, 5, 5, 0, 5] }] }
        1 0 (List.range 5) false 0 =
        Except.ok (runs.map fun r => runInterval
          { Time := 1000, TableNum := 1, PredictStep := 5,
            TableInfo := [{ Predict := [0, 5, 5, 0, 5] }] } 0 r.1 r.2) ∧
      runs.Pairwise (fun r s => r.2 < s.1) ∧
      ∀ a b, (a, b) ∈ runs ↔ IsMaximalRun [0, 5, 5, 0, 5] 1 a b :=
  detectShard_maximal_runs
    { Time := 1000, TableNum := 1, PredictStep := 5, TableInfo := [{ Predict := [0, 5, 5, 0, 5] }] }
    1 0 { Predict := [0, 5, 5, 0, 5] } rfl rfl

/-- The detector on the series of the witness: the run at steps 1-2 gives
`[1120, 1180]`, and the run that starts at the final step 4 gives the interval
with start `5*60 + 1000` and end `4*60 + 1000`. -/
theorem detectShard_example :
    detectShard
      { Time := 1000, TableNum := 1, PredictStep := 5, TableInfo := [{ Predict := [0, 5, 5, 0, 5] }] }
      1 0 (List.range 5) false 0 =
      Except.ok [{ StartTime := 1120, EndTime := 1180, TableKey := [0] },
                 { StartTime := 1300, EndTime := 1240, TableKey := [0] }] := by
  rfl

/-! ## Theorems: the schedule-window builder -/

theorem specScheduleWindows_cons (T0 : Int) (tableNum : Nat) (prev cur : hotSpotPeriod)
    (rest : List hotSpotPeriod) :
    specScheduleWindows T0 tableNum (prev :: cur :: rest) =
      (if cur.StartTime - prev.EndTime > 120 then [specWindow T0 tableNum prev cur] else []) ++
        specScheduleWindows T0 tableNum (cur :: rest) := by
  unfold specScheduleWindows
  simp only [List.length_cons, Nat.add_sub_cancel]
  rw [List.range'_succ, List.filterMap_cons]
  have htail : (List.range' (1 + 1) rest.length).filterMap
      (specWindowAt T0 tableNum (prev :: cur :: rest)) =
      (List.range' 1 rest.length).filterMap (specWindowAt T0 tableNum (cur :: rest)) := by
    rw [← List.map_add_range' 1 1 rest.length 1, List.filterMap_map]
    apply List.filterMap_congr
    intro i hi
    have hi1 : 1 ≤ i := by
      rw [List.mem_range'_1] at hi
      exact hi.1
    obtain ⟨k, rfl⟩ : ∃ k, i = k + 1 := ⟨i - 1, by omega⟩
    simp [specWindowAt, Nat.add_comm 1]
  rw [htail]
  by_cases hgap : cur.StartTime - prev.EndTime > 120
  · simp [specWindowAt, hgap]
  · simp [specWindowAt, hgap]

theorem buildScheduleT_eq_spec (p : predictInfo) :
    ∀ period : List hotSpotPeriod,
      buildScheduleT p period = specScheduleWindows p.Time p.TableNum.toNat period := by
  intro period
  induction period with
  | nil => simp [buildScheduleT, specScheduleWindows]
  | cons prev rest ih =>
    cases rest with
    | nil => simp [buildScheduleT, specScheduleWindows]
    | cons cur rest =>
      rw [specScheduleWindows_cons, buildScheduleT, ← ih]
      by_cases hgap : cur.StartTime - prev.EndTime > 120
      · have hgap' : cur.StartTime - prev.EndTime > 2 * 60 := by omega
        simp [hgap, hgap', specWindow]
      · have hgap' : ¬ (cur.StartTime - prev.EndTime > 2 * 60) := by omega
        simp [hgap, hgap']

theorem updateDeltT_frame (v v1 : scheduleTime) (h : hotSpotPeriod)
    (hv : updateDeltT v h = Except.ok v1) :
    v1.StartTime = v.StartTime ∧ v1.EndTime = v.EndTime ∧ v1.DeltT.length = v.DeltT.length := by
  unfold updateDeltT at hv
  split at hv
  · cases hv
  · split at hv
    · cases hv
    · simp only at hv
      split_ifs at hv <;> cases hv <;> simp

theorem weightWindow_frame (hotSpotArr : List hotSpotPeriod) :
    ∀ v v1 : scheduleTime, weightWindow v hotSpotArr = Except.ok v1 →
      v1.StartTime = v.StartTime ∧ v1.EndTime = v.EndTime ∧
        v1.DeltT.length = v.DeltT.length := by
  induction hotSpotArr with
  | nil =>
    intro v v1 h
    simp only [weightWindow, Except.ok.injEq] at h
    subst h
    exact ⟨rfl, rfl, rfl⟩
  | cons h rest ih =>
    intro v v1 hv
    rw [weightWindow] at hv
    split at hv
    · cases hv
    · rename_i v2 h2
      obtain ⟨a1, a2, a3⟩ := updateDeltT_frame _ _ _ h2
      obtain ⟨b1, b2, b3⟩ := ih _ _ hv
      exact ⟨b1.trans a1, b2.trans a2, b3.trans a3⟩

theorem weightPass_frame (hotSpotArr : List hotSpotPeriod) :
    ∀ ws ws1 : List scheduleTime, weightPass hotSpotArr ws = Except.ok ws1 →
      List.Forall₂ (fun w1 w => w1.StartTime = w.StartTime ∧ w1.EndTime = w.EndTime ∧
        w1.DeltT.length = w.DeltT.length) ws1 ws := by
  intro ws
  induction ws with
  | nil =>
    intro ws1 h
    simp only [weightPass, Except.ok.injEq] at h
    subst h
    exact List.Forall₂.nil
  | cons v rest ih =>
    intro ws1 h
    rw [weightPass] at h
    split at h
    · cases h
    · rename_i v1 h1
      split at h
      · cases h
      · rename_i more h2
        simp only [Except.ok.injEq] at h
        subst h
        exact List.Forall₂.cons (weightWindow_frame _ _ _ h1) (ih _ h2)

theorem specScheduleWindows_length (T0 : Int) (tableNum : Nat) (period : List hotSpotPeriod) :
    ∀ w ∈ specScheduleWindows T0 tableNum period, w.DeltT.length = tableNum := by
  intro w hw
  unfold specScheduleWindows at hw
  rw [List.mem_filterMap] at hw
  obtain ⟨i, -, hi⟩ := hw
  unfold specWindowAt at hi
  split at hi
  · split_ifs at hi
    simp only [Option.some.injEq] at hi
    subst hi
    simp [specWindow]
  · cases hi

/-- C10: for every period list `period` (seed at index 0) and snapshot `p` the
window list built by `calculateScheduleTime` is the list of the specification:
in order of `i = 1 .. len(period) - 1`, one window for each `i` with
`period[i].start - period[i-1].end > 120`, ending at `period[i].end` and
starting at `p.Time` when `period[i-1].end = 0` and at
`(period[i].start + period[i-1].end) / 2` otherwise, and none for any other
pair. Every window has a weight vector with one entry per table, and the weight
pass changes neither the bounds of a window nor the length of its vector. -/
theorem buildScheduleT_windows (p : predictInfo) (period hotSpotArr : List hotSpotPeriod) :
    buildScheduleT p period = specScheduleWindows p.Time p.TableNum.toNat period ∧
    (∀ w ∈ buildScheduleT p period, w.DeltT.length = p.TableNum.toNat) ∧
    (∀ ws, weightPass hotSpotArr (buildScheduleT p period) = Except.ok ws →
      ws.map (fun w => (w.StartTime, w.EndTime)) =
        (specScheduleWindows p.Time p.TableNum.toNat period).map
          (fun w => (w.StartTime, w.EndTime)) ∧
      ∀ w ∈ ws, w.DeltT.length = p.TableNum.toNat) := by
  have hspec := buildScheduleT_eq_spec p period
  have hlen := specScheduleWindows_length p.Time p.TableNum.toNat period
  refine ⟨hspec, ?_, ?_⟩
  · rw [hspec]
    exact hlen
  · intro ws hws
    have hframe := weightPass_frame hotSpotArr _ _ hws
    rw [hspec] at hframe
    generalize specScheduleWindows p.Time p.TableNum.toNat period = spec at hframe hlen
    clear hws hspec
    induction hframe with
    | nil => exact ⟨rfl, by simp⟩
    | cons hhead _ ih =>
      rename_i w1 w ws1 ws0
      obtain ⟨ih1, ih2⟩ := ih (fun x hx => hlen x (List.mem_cons_of_mem _ hx))
      refine ⟨?_, ?_⟩
      · simp only [List.map_cons, ih1, hhead.1, hhead.2.1]
      · intro x hx
        rcases List.mem_cons.1 hx with rfl | hx
        · rw [hhead.2.2]
          exact hlen _ (List.mem_cons_self _ _)
        · exact ih2 x hx

/-- C10 witness: seed `[0,0]` followed by `[1060,1300]` and `[2200,2140]` with
base timestamp 1000 and three tables; the weight pass over one interval keeps
the bounds `(1000,1300)` and `(1750,2140)`. -/
theorem buildScheduleT_windows_witness :
    List.map (fun w : scheduleTime => (w.StartTime, w.EndTime))
      [{ StartTime := 1000, EndTime := 1300, DeltT := [1, 0, 0] },
       { StartTime := 1750, EndTime := 2140, DeltT := [-1331, 0, 0] }] =
      (specScheduleWindows 1000 3
        [{ StartTime := 0, EndTime := 0, TableKey := [] },
         { StartTime := 1060, EndTime := 1300, TableKey := [0, 1, 2] },
         { StartTime := 2200, EndTime := 2140, TableKey := [2] }]).map
        (fun w => (w.StartTime, w.EndTime)) :=
  ((buildScheduleT_windows
    { Time := 1000, TableNum := 3, PredictStep := 20, TableInfo := [] }
    [{ StartTime := 0, EndTime := 0, TableKey := [] },
     { StartTime := 1060, EndTime := 1300, TableKey := [0, 1, 2] },
     { StartTime := 2200, EndTime := 2140, TableKey := [2] }]
    [{ StartTime := 1060, EndTime := 1120, TableKey := [0] }]).2.2
    [{ StartTime := 1000, EndTime := 1300, DeltT := [1, 0, 0] },
     { StartTime := 1750, EndTime := 2140, DeltT := [-1331, 0, 0] }] rfl).1

/-! ## Theorems: the weight pass -/

theorem set_getElem_same (l : List Int) (k : Nat) (hlt : k < l.length) : l.set k l[k] = l := by
  apply List.ext_getElem?
  intro i
  by_cases hik : k = i
  · subst hik
    rw [List.getElem?_set_self hlt, List.getElem?_eq_getElem hlt]
  · rw [List.getElem?_set_ne hik]

/-- An integer below `2^53` in absolute value converts to `float64` exactly. -/
theorem float64OfInt_small (n : Int) (h : n.natAbs < 2 ^ 53) : float64OfInt n = n := by
  unfold float64OfInt
  rw [if_pos h]

/-- A value inside the `int64` range converts back exactly. -/
theorem int64OfFloat64_small (f : Int) (h1 : -(2 ^ 63) ≤ f) (h2 : f < 2 ^ 63) :
    int64OfFloat64 f = f := by
  unfold int64OfFloat64
  rw [if_pos ⟨h1, h2⟩]

/-- The call `math.Pow(x, 2)` rounds the square once. -/
theorem mathPow_two (x : Int) : mathPow x 2 = float64OfInt (float64OfInt (x * x)) := by
  simp [mathPow, powLoop]

/-- The call `math.Pow(x, 3)` rounds the square and then the product with it. -/
theorem mathPow_three (x : Int) :
    mathPow x 3 = float64OfInt (float64OfInt x * float64OfInt (x * x)) := by
  simp [mathPow, powLoop]

/-- The square the weight pass stores is exact while the minute count is at
most 94906265 in absolute value, that is, while the square is below `2^53`. -/
theorem square_exact (x : Int) (hx : x.natAbs ≤ 94906265) :
    int64OfFloat64 (mathPow (float64OfInt x) 2) = x ^ 2 := by
  have h1 : x.natAbs < 2 ^ 53 := by omega
  have h2 : (x * x).natAbs < 2 ^ 53 := by
    rw [Int.natAbs_mul]
    calc x.natAbs * x.natAbs ≤ 94906265 * 94906265 := Nat.mul_le_mul hx hx
      _ < 2 ^ 53 := by norm_num
  rw [float64OfInt_small x h1, mathPow_two, float64OfInt_small _ h2, float64OfInt_small _ h2,
    int64OfFloat64_small]
  · ring
  · omega
  · omega

/-- The cube the weight pass stores is exact while the minute count is at most
208063 in absolute value, that is, while the cube is below `2^53`. -/
theorem cube_exact (x : Int) (hx : x.natAbs ≤ 208063) :
    int64OfFloat64 (mathPow (float64OfInt x) 3) = x ^ 3 := by
  have h1 : x.natAbs < 2 ^ 53 := by omega
  have h2 : (x * x).natAbs < 2 ^ 53 := by
    rw [Int.natAbs_mul]
    calc x.natAbs * x.natAbs ≤ 208063 * 208063 := Nat.mul_le_mul hx hx
      _ < 2 ^ 53 := by norm_num
  have h3 : (x * (x * x)).natAbs < 2 ^ 53 := by
    rw [Int.natAbs_mul, Int.natAbs_mul]
    calc x.natAbs * (x.natAbs * x.natAbs) ≤ 208063 * (208063 * 208063) :=
          Nat.mul_le_mul hx (Nat.mul_le_mul hx hx)
      _ < 2 ^ 53 := by norm_num
  rw [float64OfInt_small x h1, mathPow_three, float64OfInt_small x h1,
    float64OfInt_small _ h2, float64OfInt_small _ h3, int64OfFloat64_small]
  · ring
  · omega
  · omega

/-- The first minute count whose square is not exact in `float64`: the code
stores `9007199515875288`, the exact square is `9007199515875289`. -/
theorem square_rounds_example :
    int64OfFloat64 (mathPow (float64OfInt 94906267) 2) = 9007199515875288 ∧
    (94906267 : Int) ^ 2 = 9007199515875289 := by
  have hlog : Nat.log2 9007199515875289 = 53 := by
    have h1 : Nat.log2 9007199515875289 < 54 := (Nat.log2_lt (by norm_num)).2 (by norm_num)
    have h2 : ¬ Nat.log2 9007199515875289 < 53 := fun h =>
      absurd ((Nat.log2_lt (by norm_num)).1 h) (by norm_num)
    omega
  have hlog2 : Nat.log2 9007199515875288 = 53 := by
    have h1 : Nat.log2 9007199515875288 < 54 := (Nat.log2_lt (by norm_num)).2 (by norm_num)
    have h2 : ¬ Nat.log2 9007199515875288 < 53 := fun h =>
      absurd ((Nat.log2_lt (by norm_num)).1 h) (by norm_num)
    omega
  have hr : float64OfInt 9007199515875289 = 9007199515875288 := by
    have hn : (9007199515875289 : Int).natAbs = 9007199515875289 := rfl
    unfold float64OfInt
    rw [hn, hlog]
    norm_num
  have hr2 : float64OfInt 9007199515875288 = 9007199515875288 := by
    have hn : (9007199515875288 : Int).natAbs = 9007199515875288 := rfl
    unfold float64OfInt
    rw [hn, hlog2]
    norm_num
  refine ⟨?_, by norm_num⟩
  rw [float64OfInt_small _ (by norm_num), mathPow_two]
  have hsq : (94906267 : Int) * 94906267 = 9007199515875289 := by norm_num
  rw [hsq, hr, hr2, int64OfFloat64_small _ (by norm_num) (by norm_num)]

/-- The weight the code stores is the weight the specification records while
the whole minutes between the midpoint and the window start are at most 208063
in absolute value. -/
theorem storedWeight_eq_recordedWeight (winStart winEnd : Int) (h : hotSpotPeriod)
    (hq : ((intervalMid h - winStart).tdiv 60).natAbs ≤ 208063) :
    storedWeight winStart winEnd h = recordedWeight winStart winEnd h := by
  unfold storedWeight recordedWeight
  rw [square_exact _ (by omega), cube_exact _ hq]

/-- One interval of the weight pass: with a readable table key `k` and entry
`cur`, only entry `k` of the vector changes, to `entryStep`. -/
theorem updateDeltT_entry (v : scheduleTime) (h : hotSpotPeriod) (k : Nat) (cur : Int)
    (hk : h.TableKey[0]? = some k) (hcur : v.DeltT[k]? = some cur) :
    updateDeltT v h =
      Except.ok { v with DeltT := v.DeltT.set k (entryStep v.StartTime v.EndTime cur h) } := by
  have hlt : k < v.DeltT.length := (List.getElem?_eq_some_iff.1 hcur).1
  have hself : v.DeltT.set k cur = v.DeltT := by
    have hc : v.DeltT[k] = cur := by
      rw [List.getElem?_eq_getElem hlt] at hcur
      exact Option.some.inj hcur
    rw [← hc]
    exact set_getElem_same _ _ hlt
  unfold updateDeltT
  simp only [hk, hcur]
  unfold entryStep storedWeight intervalMid
  by_cases hin : v.StartTime ≤ (h.StartTime + h.EndTime).tdiv 2 ∧
      (h.StartTime + h.EndTime).tdiv 2 ≤ v.EndTime
  · simp only [ge_iff_le, hin, and_self, if_true]
  · simp only [ge_iff_le, hin, if_false, gt_iff_lt]
    by_cases hafter : v.EndTime < (h.StartTime + h.EndTime).tdiv 2
    · simp only [hafter, if_true]
      split_ifs
      · rfl
      · rw [hself]
    · simp only [hafter, if_false]
      split_ifs
      · rfl
      · rw [hself]

/-- The weight pass over one window returns when every interval names a table
inside the vector, keeps the window bounds and the vector length, and leaves in
entry `k` the fold of `entryStep` over the intervals of table `k`, in list order. -/
theorem weightWindow_entry :
    ∀ (hs : List hotSpotPeriod) (v : scheduleTime) (k : Nat) (cur : Int),
      (∀ h ∈ hs, ∃ k', h.TableKey[0]? = some k' ∧ k' < v.DeltT.length) →
      v.DeltT[k]? = some cur →
      ∃ v1, weightWindow v hs = Except.ok v1 ∧ v1.StartTime = v.StartTime ∧
        v1.EndTime = v.EndTime ∧ v1.DeltT.length = v.DeltT.length ∧
        v1.DeltT[k]? = some ((hs.filter fun h => decide (h.TableKey[0]? = some k)).foldl
          (entryStep v.StartTime v.EndTime) cur) := by
  intro hs
  induction hs with
  | nil =>
    intro v k cur _ hcur
    exact ⟨v, rfl, rfl, rfl, rfl, by simpa using hcur⟩
  | cons h rest ih =>
    intro v k cur hrange hcur
    obtain ⟨k', hk', hlt'⟩ := hrange h (List.mem_cons_self _ _)
    have hcur' : v.DeltT[k']? = some v.DeltT[k'] := List.getElem?_eq_getElem hlt'
    rw [weightWindow, updateDeltT_entry v h k' _ hk' hcur']
    simp only
    have hrange2 : ∀ h2 ∈ rest, ∃ k2, h2.TableKey[0]? = some k2 ∧
        k2 < (v.DeltT.set k' (entryStep v.StartTime v.EndTime v.DeltT[k'] h)).length := by
      intro h2 hh2
      obtain ⟨k2, e1, e2⟩ := hrange h2 (List.mem_cons_of_mem _ hh2)
      exact ⟨k2, e1, by simpa using e2⟩
    by_cases hkk : k' = k
    · subst hkk
      have hc : v.DeltT[k'] = cur := by
        rw [hcur'] at hcur
        exact Option.some.inj hcur
      obtain ⟨v1, h1, h2, h3, h4, h5⟩ := ih
        { v with DeltT := v.DeltT.set k' (entryStep v.StartTime v.EndTime v.DeltT[k'] h) } k'
        (entryStep v.StartTime v.EndTime cur h) hrange2 (by
          simp only [List.getElem?_set_self hlt', hc])
      refine ⟨v1, h1, h2, h3, by simpa using h4, ?_⟩
      rw [h5]
      simp [List.filter_cons, hk']
    · obtain ⟨v1, h1, h2, h3, h4, h5⟩ := ih
        { v with DeltT := v.DeltT.set k' (entryStep v.StartTime v.EndTime v.DeltT[k'] h) } k
        cur hrange2 (by
          simp only [List.getElem?_set_ne hkk]
          exact hcur)
      refine ⟨v1, h1, h2, h3, by simpa using h4, ?_⟩
      rw [h5]
      have hne : ¬ (h.TableKey[0]? = some k) := by
        rw [hk']
        intro e
        exact hkk (Option.some.inj e)
      simp [List.filter_cons, hne]

/-- Folding `entryStep` over copies of one interval `h`, from an entry that is 0
or with the midpoint of `h` inside the window, ends at the weight the code
computes for `h`. -/
theorem foldl_entryStep_same (winStart winEnd : Int) (h : hotSpotPeriod) :
    ∀ (l : List hotSpotPeriod) (cur : Int), (∀ x ∈ l, x = h) → l ≠ [] →
      (cur = 0 ∨ cur = storedWeight winStart winEnd h ∨
        (winStart ≤ intervalMid h ∧ intervalMid h ≤ winEnd)) →
      l.foldl (entryStep winStart winEnd) cur = storedWeight winStart winEnd h := by
  intro l
  induction l with
  | nil => intro cur _ hne; exact absurd rfl hne
  | cons x rest ih =>
    intro cur hall _ hcur
    have hx : x = h := hall x (List.mem_cons_self _ _)
    subst hx
    have hstep : entryStep winStart winEnd cur x = storedWeight winStart winEnd x := by
      unfold entryStep
      by_cases hin : winStart ≤ intervalMid x ∧ intervalMid x ≤ winEnd
      · rw [if_pos hin]
        unfold storedWeight
        rw [if_pos hin]
      · rw [if_neg hin]
        rcases hcur with h0 | h1 | h2
        · rw [if_pos (Or.inl h0)]
        · rw [h1]
          split_ifs <;> rfl
        · exact absurd h2 hin
    rw [List.foldl_cons, hstep]
    cases rest with
    | nil => rfl
    | cons y rest2 =>
      exact ih _ (fun z hz => hall z (List.mem_cons_of_mem _ hz)) (by simp) (Or.inr (Or.inl rfl))

/-- The entry of table `k` after the weight pass over one window, when every
interval of table `k` in the list is the interval `h`, and the entry starts at 0
or `h` has its midpoint inside the window: it is the weight the code computes
for `h`. -/
theorem weightWindow_only_interval (v : scheduleTime) (hs : List hotSpotPeriod)
    (h : hotSpotPeriod) (k : Nat) (cur : Int)
    (hrange : ∀ h' ∈ hs, ∃ k', h'.TableKey[0]? = some k' ∧ k' < v.DeltT.length)
    (hmem : h ∈ hs) (hk : h.TableKey[0]? = some k)
    (honly : ∀ h' ∈ hs, h'.TableKey[0]? = some k → h' = h)
    (hcur : v.DeltT[k]? = some cur)
    (hstart : cur = 0 ∨ (v.StartTime ≤ intervalMid h ∧ intervalMid h ≤ v.EndTime)) :
    ∃ v1, weightWindow v hs = Except.ok v1 ∧
      v1.DeltT[k]? = some (storedWeight v.StartTime v.EndTime h) := by
  obtain ⟨v1, h1, -, -, -, h5⟩ := weightWindow_entry hs v k cur hrange hcur
  refine ⟨v1, h1, ?_⟩
  rw [h5, foldl_entryStep_same v.StartTime v.EndTime h]
  · intro x hx
    rw [List.mem_filter] at hx
    exact honly x hx.1 (by simpa using hx.2)
  · intro hnil
    have : h ∈ hs.filter fun h => decide (h.TableKey[0]? = some k) := by
      rw [List.mem_filter]
      exact ⟨hmem, by simpa using hk⟩
    rw [hnil] at this
    cases this
  · rcases hstart with h0 | hin
    · exact Or.inl h0
    · exact Or.inr (Or.inr hin)

/-- C11: for every window `v` and every table `k` whose only hot interval `h`
has its midpoint inside the window (`v.start ≤ mid ≤ v.end`, both bounds
included), the weight pass over the window returns and leaves weight 1 in entry
`k`, whatever the entry held before; the weight recorded at `mid = v.start` and
at `mid = v.end` is that of the within-window branch. -/
theorem weightWindow_inside_window (v : scheduleTime) (hs : List hotSpotPeriod)
    (h : hotSpotPeriod) (k : Nat)
    (hrange : ∀ h' ∈ hs, ∃ k', h'.TableKey[0]? = some k' ∧ k' < v.DeltT.length)
    (hmem : h ∈ hs) (hk : h.TableKey[0]? = some k)
    (honly : ∀ h' ∈ hs, h'.TableKey[0]? = some k → h' = h)
    (hlo : v.StartTime ≤ intervalMid h) (hhi : intervalMid h ≤ v.EndTime) :
    (∃ v1, weightWindow v hs = Except.ok v1 ∧ v1.DeltT[k]? = some 1) ∧
    recordedWeight v.StartTime v.EndTime h = 1 := by
  have hw : recordedWeight v.StartTime v.EndTime h = 1 := by
    unfold recordedWeight
    rw [if_pos ⟨hlo, hhi⟩]
  obtain ⟨k', hk', hlt⟩ := hrange h hmem
  rw [hk] at hk'
  cases hk'
  have hsw : storedWeight v.StartTime v.EndTime h = 1 := by
    unfold storedWeight
    rw [if_pos ⟨hlo, hhi⟩]
  obtain ⟨v1, h1, h2⟩ := weightWindow_only_interval v hs h k v.DeltT[k] hrange hmem hk honly
    (List.getElem?_eq_getElem hlt) (Or.inr ⟨hlo, hhi⟩)
  rw [hsw] at h2
  exact ⟨⟨v1, h1, h2⟩, hw⟩

/-- C11 witness: window `[1000, 1300]` over two tables; table 1 has the single
interval `[1000, 1000]`, whose midpoint is the window start. -/
theorem weightWindow_inside_window_witness :
    (∃ v1, weightWindow { StartTime := 1000, EndTime := 1300, DeltT := [0, 0] }
        [{ StartTime := 940, EndTime := 940, TableKey := [0] },
         { StartTime := 1000, EndTime := 1000, TableKey := [1] }] = Except.ok v1 ∧
      v1.DeltT[1]? = some 1) ∧
    recordedWeight 1000 1300 { StartTime := 1000, EndTime := 1000, TableKey := [1] } = 1 :=
  weightWindow_inside_window { StartTime := 1000, EndTime := 1300, DeltT := [0, 0] }
    [{ StartTime := 940, EndTime := 940, TableKey := [0] },
     { StartTime := 1000, EndTime := 1000, TableKey := [1] }]
    { StartTime := 1000, EndTime := 1000, TableKey := [1] } 1
    (by
      intro h' hh'
      simp only [List.mem_cons, List.mem_singleton, List.not_mem_nil, or_false] at hh'
      rcases hh' with rfl | rfl
      · exact ⟨0, rfl, by decide⟩
      · exact ⟨1, rfl, by decide⟩)
    (by simp) rfl
    (by
      intro h' hh' hk'
      simp only [List.mem_cons, List.mem_singleton, List.not_mem_nil, or_false] at hh'
      rcases hh' with rfl | rfl
      · simp at hk'
      · rfl)
    (by decide) (by decide)


/-- C12 (as stated, fails): in the window `[1000, 1300]` with a fresh vector, an
only interval with midpoint `1360 = 1300 + 60` gets weight `36`, not 1: the
quadratic branch counts the whole minutes from the window start. -/
theorem weightWindow_one_minute_after_counterexample :
    intervalMid { StartTime := 1360, EndTime := 1360, TableKey := [0] } = 1300 + 60 ∧
    weightWindow { StartTime := 1000, EndTime := 1300, DeltT := [0] }
      [{ StartTime := 1360, EndTime := 1360, TableKey := [0] }] =
      Except.ok { StartTime := 1000, EndTime := 1300, DeltT := [36] } ∧
    recordedWeight 1000 1300 { StartTime := 1360, EndTime := 1360, TableKey := [0] } = 36 ∧
    (36 : Int) ≠ 1 := by
  refine ⟨rfl, rfl, rfl, by decide⟩

/-- C12 (amended): for every window `v` with `v.start ≤ v.end` that is shorter
than `2^32` seconds and every table `k` whose entry is 0 before the pass and
whose only hot interval `h` has its midpoint exactly 60 seconds after `v.end`,
the weight pass returns and the entry is `((v.end + 60 - v.start) / 60)^2`
(quadratic branch, whole minutes counted from `v.start`), which is 1 exactly
when the window is shorter than 60 seconds. -/
theorem weightWindow_one_minute_after (v : scheduleTime) (hs : List hotSpotPeriod)
    (h : hotSpotPeriod) (k : Nat)
    (hwin : v.StartTime ≤ v.EndTime) (hlen : v.EndTime - v.StartTime < 2 ^ 32)
    (hrange : ∀ h' ∈ hs, ∃ k', h'.TableKey[0]? = some k' ∧ k' < v.DeltT.length)
    (hmem : h ∈ hs) (hk : h.TableKey[0]? = some k)
    (honly : ∀ h' ∈ hs, h'.TableKey[0]? = some k → h' = h)
    (hfresh : v.DeltT[k]? = some 0)
    (hmid : intervalMid h = v.EndTime + 60) :
    ∃ v1, weightWindow v hs = Except.ok v1 ∧
      v1.DeltT[k]? = some (((v.EndTime + 60 - v.StartTime).tdiv 60) ^ 2) ∧
      (v1.DeltT[k]? = some 1 ↔ v.EndTime - v.StartTime < 60) := by
  obtain ⟨v1, h1, h2⟩ := weightWindow_only_interval v hs h k 0 hrange hmem hk honly hfresh
    (Or.inl rfl)
  have hdiv : (v.EndTime + 60 - v.StartTime).tdiv 60 = (v.EndTime + 60 - v.StartTime) / 60 :=
    Int.tdiv_eq_ediv (by omega) (by omega)
  have hq1 : 1 ≤ (v.EndTime + 60 - v.StartTime) / 60 := by omega
  have hq2 : (v.EndTime + 60 - v.StartTime) / 60 ≤ 71582789 := by
    have : (2 : Int) ^ 32 = 4294967296 := by norm_num
    omega
  have hw : v1.DeltT[k]? = some (((v.EndTime + 60 - v.StartTime).tdiv 60) ^ 2) := by
    rw [h2]
    unfold storedWeight
    rw [if_neg (by omega), if_pos (by omega), hmid, square_exact _ (by rw [hdiv]; omega)]
  refine ⟨v1, h1, hw, ?_⟩
  rw [hw, hdiv, Option.some.injEq]
  constructor
  · intro hone
    by_contra hlong
    have h2le : 2 ≤ (v.EndTime + 60 - v.StartTime) / 60 := by omega
    nlinarith
  · intro hshort
    have hq : (v.EndTime + 60 - v.StartTime) / 60 = 1 := by omega
    rw [hq]
    rfl

/-- C12 witness: window `[1000, 1300]`, one table, only interval `[1360, 1360]`:
the entry is `(360 / 60)^2 = 36`. -/
theorem weightWindow_one_minute_after_witness :
    ∃ v1, weightWindow { StartTime := 1000, EndTime := 1300, DeltT := [0] }
        [{ StartTime := 1360, EndTime := 1360, TableKey := [0] }] = Except.ok v1 ∧
      v1.DeltT[0]? = some (((1300 + 60 - 1000 : Int).tdiv 60) ^ 2) ∧
      (v1.DeltT[0]? = some 1 ↔ (1300 : Int) - 1000 < 60) :=
  weightWindow_one_minute_after { StartTime := 1000, EndTime := 1300, DeltT := [0] }
    [{ StartTime := 1360, EndTime := 1360, TableKey := [0] }]
    { StartTime := 1360, EndTime := 1360, TableKey := [0] } 0 (by decide) (by decide)
    (by
      intro h' hh'
      simp only [List.mem_singleton] at hh'
      subst hh'
      exact ⟨0, rfl, by decide⟩)
    (by simp) rfl
    (by
      intro h' hh' _
      simpa using hh')
    rfl rfl

/-- The cubic branch on a midpoint one minute before the window start: in the
window `[1000, 1300]` with a fresh vector, an only interval with midpoint
`940 = 1000 - 60` leaves the negative value `(-1)^3 = -1` in the entry. -/
theorem weightWindow_one_minute_before_example :
    intervalMid { StartTime := 940, EndTime := 940, TableKey := [0] } = 1000 - 60 ∧
    weightWindow { StartTime := 1000, EndTime := 1300, DeltT := [0] }
      [{ StartTime := 940, EndTime := 940, TableKey := [0] }] =
      Except.ok { StartTime := 1000, EndTime := 1300, DeltT := [-1] } := by
  refine ⟨rfl, rfl⟩

/-- C13 (fails on the code): one table over ten steps, hot at step 0 and at
steps 5-6, threshold 1, base 1000, zero seed. The second window is
`[1210, 1420]`; for the interval `[1060, 1060]` the cubic branch records `-8`,
and then the interval `[1360, 1420]`, inside the window, overwrites the entry
with 1 without the comparison its sibling branches make. The entry ends at 1
although the smallest nonzero recorded weight is `-8`. -/
theorem weightPass_not_minimum_nonzero :
    predictInfo.calculateScheduleTime 10
      { Time := 1000, TableNum := 1, PredictStep := 10,
        TableInfo := [{ Predict := [5, 0, 0, 0, 0, 5, 5, 0, 0, 0] }] } 1
      { StartTime := 0, EndTime := 0, TableKey := [] } =
      (Except.ok [{ StartTime := 1000, EndTime := 1060, DeltT := [1] },
                  { StartTime := 1210, EndTime := 1420, DeltT := [1] }],
       { StartTime := 1360, EndTime := 1420, TableKey := [0] }) ∧
    detectAll
      { Time := 1000, TableNum := 1, PredictStep := 10,
        TableInfo := [{ Predict := [5, 0, 0, 0, 0, 5, 5, 0, 0, 0] }] } 1 (List.range 1) =
      Except.ok [{ StartTime := 1060, EndTime := 1060, TableKey := [0] },
                 { StartTime := 1360, EndTime := 1420, TableKey := [0] }] ∧
    recordedWeight 1210 1420 { StartTime := 1060, EndTime := 1060, TableKey := [0] } = -8 ∧
    recordedWeight 1210 1420 { StartTime := 1360, EndTime := 1420, TableKey := [0] } = 1 ∧
    min (-8 : Int) 1 ≠ 1 := by
  refine ⟨rfl, rfl, rfl, rfl, by decide⟩

/-! ## Theorems: bounds of the threshold -/

/-- In a list sorted in ascending order the entry at a lower index is at most
the entry at a higher index. -/
theorem sorted_getElem_le (l : List ℚ) (hs : l.Sorted (· ≤ ·)) (i j : Nat) (hij : i ≤ j)
    (hj : j < l.length) : l[i] ≤ l[j] := by
  rcases Nat.eq_or_lt_of_le hij with rfl | hlt
  · exact le_rfl
  · exact (List.pairwise_iff_getElem.1 hs) i j (by omega) hj hlt

/-- For a well-formed snapshot with at least two steps the threshold lies
between the least and the greatest per-step mean. -/
theorem calculateThreshold_bounds (p : predictInfo) (hS : 1 ≤ p.TableNum)
    (hT : 2 ≤ p.PredictStep) (hlen : (p.TableInfo.length : Int) = p.TableNum)
    (hpred : ∀ t ∈ p.TableInfo, (t.Predict.length : Int) = p.PredictStep) :
    ∃ means threshold mn mx,
      stepMeans p (List.range p.PredictStep.toNat) = Except.ok means ∧
      p.calculateThreshold = Except.ok threshold ∧
      mn ∈ means ∧ mx ∈ means ∧ (∀ x ∈ means, mn ≤ x ∧ x ≤ mx) ∧
      mn ≤ threshold ∧ threshold ≤ mx := by
  obtain ⟨means, lo, hi, hmeans, hl, hlo, hhi, hthr⟩ := calculateThreshold_ok p hS hT hlen hpred
  have hsorted : (means.insertionSort (· ≤ ·)).Sorted (· ≤ ·) := List.sorted_insertionSort _ _
  have hperm : List.Perm (means.insertionSort (· ≤ ·)) means := List.perm_insertionSort _ _
  have hsl : (means.insertionSort (· ≤ ·)).length = means.length := hperm.length_eq
  obtain ⟨h1, e1⟩ := List.getElem?_eq_some_iff.1 hlo
  obtain ⟨h2, e2⟩ := List.getElem?_eq_some_iff.1 hhi
  have hdiv : p.PredictStep.tdiv 5 = p.PredictStep / 5 :=
    Int.tdiv_eq_ediv (by omega) (by omega)
  have hpos : 0 < (means.insertionSort (· ≤ ·)).length := by omega
  have hlast : means.length - 1 < (means.insertionSort (· ≤ ·)).length := by omega
  refine ⟨means, (lo + hi) / 2, (means.insertionSort (· ≤ ·))[0],
    (means.insertionSort (· ≤ ·))[means.length - 1], hmeans, hthr,
    hperm.subset (List.getElem_mem _), hperm.subset (List.getElem_mem _), ?_, ?_, ?_⟩
  · intro x hx
    obtain ⟨k, hk, rfl⟩ := List.getElem_of_mem (hperm.symm.subset hx)
    exact ⟨sorted_getElem_le _ hsorted 0 k (Nat.zero_le _) hk,
      sorted_getElem_le _ hsorted k (means.length - 1) (by omega) hlast⟩
  · have a1 := sorted_getElem_le _ hsorted 0 _ (Nat.zero_le _) h1
    have a2 := sorted_getElem_le _ hsorted 0 _ (Nat.zero_le _) h2
    rw [e1] at a1
    rw [e2] at a2
    linarith
  · rw [← e1, ← e2]
    have b1 : (means.insertionSort (· ≤ ·))[(p.PredictStep.tdiv 5).toNat] ≤
        (means.insertionSort (· ≤ ·))[means.length - 1] :=
      sorted_getElem_le _ hsorted _ _ (by omega) hlast
    have b2 : (means.insertionSort (· ≤ ·))[(p.PredictStep.tdiv 5 + 1).toNat] ≤
        (means.insertionSort (· ≤ ·))[means.length - 1] :=
      sorted_getElem_le _ hsorted _ _ (by omega) hlast
    linarith

/-- The inner loop of `calculateThreshold` over the tables from index `a` on
adds their predictions for step `i` to the accumulator. -/
theorem sumPredict_eq (p : predictInfo) (i : Nat)
    (hpred : ∀ t ∈ p.TableInfo, i < t.Predict.length) :
    ∀ (n a : Nat) (acc : ℚ), a + n = p.TableInfo.length →
      sumPredict p i (List.range' a n) acc =
        Except.ok (acc + ((p.TableInfo.drop a).map fun t => t.Predict.getD i 0).sum) := by
  intro n
  induction n with
  | zero =>
    intro a acc ha
    have hdrop : p.TableInfo.drop a = [] := List.drop_eq_nil_of_le (by omega)
    simp [sumPredict, hdrop]
  | succ n ih =>
    intro a acc ha
    have hlt : a < p.TableInfo.length := by omega
    have hi := hpred _ (List.getElem_mem hlt)
    have hdrop : p.TableInfo.drop a = p.TableInfo[a] :: p.TableInfo.drop (a + 1) :=
      List.drop_eq_getElem_cons hlt
    rw [List.range'_succ, sumPredict, List.getElem?_eq_getElem hlt]
    simp only [List.getElem?_eq_getElem hi]
    rw [ih (a + 1) _ (by omega), hdrop]
    simp only [List.map_cons, List.sum_cons, List.getD_eq_getElem?_getD,
      List.getElem?_eq_getElem hi, Option.getD_some]
    rw [add_assoc]

/-- On a well-formed snapshot the outer loop of `calculateThreshold` computes
the per-step mean series of the specification. -/
theorem stepMeans_eq (p : predictInfo) (hlen : (p.TableInfo.length : Int) = p.TableNum)
    (hpred : ∀ t ∈ p.TableInfo, (t.Predict.length : Int) = p.PredictStep) :
    ∀ steps : List Nat, (∀ i ∈ steps, (i : Int) < p.PredictStep) →
      stepMeans p steps = Except.ok (steps.map (specStepMean p)) := by
  intro steps
  induction steps with
  | nil => intro _; rfl
  | cons i rest ih =>
    intro hsteps
    have hi := hsteps i (List.mem_cons_self _ _)
    have hnum : p.TableNum.toNat = p.TableInfo.length := by omega
    have hcast : (p.TableNum : ℚ) = (p.TableInfo.length : ℚ) := by
      rw [← hlen]
      simp
    rw [stepMeans, hnum, List.range_eq_range',
      sumPredict_eq p i (fun t ht => by have := hpred t ht; omega) _ 0 0 (by omega),
      ih (fun x hx => hsteps x (List.mem_cons_of_mem _ hx))]
    simp only [List.drop_zero, zero_add, List.map_cons, hcast]
    rfl

/-- C14: for every well-formed snapshot with `S ≥ 1` tables and `T ≥ 5` steps,
predictions read as exact rationals, `calculateThreshold` succeeds and its
threshold is at least the minimum `mn` and at most the maximum `mx` of the
per-step mean series, the series of `specStepMean p i` for the steps
`i = 0, ..., T - 1`. -/
theorem calculateThreshold_between_min_max (p : predictInfo) (hS : 1 ≤ p.TableNum)
    (hT : 5 ≤ p.PredictStep) (hlen : (p.TableInfo.length : Int) = p.TableNum)
    (hpred : ∀ t ∈ p.TableInfo, (t.Predict.length : Int) = p.PredictStep) :
    ∃ threshold mn mx,
      p.calculateThreshold = Except.ok threshold ∧
      mn ∈ (List.range p.PredictStep.toNat).map (specStepMean p) ∧
      mx ∈ (List.range p.PredictStep.toNat).map (specStepMean p) ∧
      (∀ x ∈ (List.range p.PredictStep.toNat).map (specStepMean p), mn ≤ x ∧ x ≤ mx) ∧
      mn ≤ threshold ∧ threshold ≤ mx := by
  obtain ⟨means, threshold, mn, mx, hmeans, hthr, h1, h2, h3, h4, h5⟩ :=
    calculateThreshold_bounds p hS (by omega) hlen hpred
  have hseries := stepMeans_eq p hlen hpred (List.range p.PredictStep.toNat) (by
    intro i hi
    rw [List.mem_range] at hi
    omega)
  rw [hseries] at hmeans
  simp only [Except.ok.injEq] at hmeans
  subst hmeans
  exact ⟨threshold, mn, mx, hthr, h1, h2, h3, h4, h5⟩

/-- C14 witness: two tables over five steps; the per-step means are
`2, 2, 2, 6, 5`. -/
theorem calculateThreshold_between_min_max_witness :
    ∃ threshold mn mx,
      predictInfo.calculateThreshold
        { Time := 0, TableNum := 2, PredictStep := 5,
          TableInfo := [{ Predict := [1, 2, 3, 4, 5] }, { Predict := [3, 2, 1, 8, 5] }] } =
        Except.ok threshold ∧
      mn ∈ (List.range (5 : Int).toNat).map
        (specStepMean
          { Time := 0, TableNum := 2, PredictStep := 5,
            TableInfo := [{ Predict := [1, 2, 3, 4, 5] }, { Predict := [3, 2, 1, 8, 5] }] }) ∧
      mx ∈ (List.range (5 : Int).toNat).map
        (specStepMean
          { Time := 0, TableNum := 2, PredictStep := 5,
            TableInfo := [{ Predict := [1, 2, 3, 4, 5] }, { Predict := [3, 2, 1, 8, 5] }] }) ∧
      (∀ x ∈ (List.range (5 : Int).toNat).map
        (specStepMean
          { Time := 0, TableNum := 2, PredictStep := 5,
            TableInfo := [{ Predict := [1, 2, 3, 4, 5] }, { Predict := [3, 2, 1, 8, 5] }] }),
        mn ≤ x ∧ x ≤ mx) ∧
      mn ≤ threshold ∧ threshold ≤ mx :=
  calculateThreshold_between_min_max
    { Time := 0, TableNum := 2, PredictStep := 5,
      TableInfo := [{ Predict := [1, 2, 3, 4, 5] }, { Predict := [3, 2, 1, 8, 5] }] }
    (by decide) (by decide) rfl
    (by
      intro t ht
      simp only [List.mem_cons, List.mem_singleton, List.not_mem_nil, or_false] at ht
      rcases ht with rfl | rfl <;> rfl)

/-- The snapshot of the witness: the per-step means are `2, 2, 2, 6, 5`, sorted
`2, 2, 2, 5, 6`, and the threshold is the mean of the entries at positions 1
and 2, which is 2. -/
theorem calculateThreshold_example :
    (List.range 5).map
      (specStepMean
        { Time := 0, TableNum := 2, PredictStep := 5,
          TableInfo := [{ Predict := [1, 2, 3, 4, 5] }, { Predict := [3, 2, 1, 8, 5] }] }) =
      [2, 2, 2, 6, 5] ∧
    predictInfo.calculateThreshold
      { Time := 0, TableNum := 2, PredictStep := 5,
        TableInfo := [{ Predict := [1, 2, 3, 4, 5] }, { Predict := [3, 2, 1, 8, 5] }] } =
      Except.ok 2 := by
  have hseries : (List.range 5).map
      (specStepMean
        { Time := 0, TableNum := 2, PredictStep := 5,
          TableInfo := [{ Predict := [1, 2, 3, 4, 5] }, { Predict := [3, 2, 1, 8, 5] }] }) =
      [2, 2, 2, 6, 5] := by
    simp [specStepMean, List.range, List.range.loop]
    norm_num
  refine ⟨hseries, ?_⟩
  have hm := stepMeans_eq
    { Time := 0, TableNum := 2, PredictStep := 5,
      TableInfo := [{ Predict := [1, 2, 3, 4, 5] }, { Predict := [3, 2, 1, 8, 5] }] }
    rfl
    (by
      intro t ht
      simp only [List.mem_cons, List.mem_singleton, List.not_mem_nil, or_false] at ht
      rcases ht with rfl | rfl <;> rfl)
    (List.range 5)
    (by
      intro i hi
      rw [List.mem_range] at hi
      show (i : Int) < 5
      omega)
  rw [hseries] at hm
  unfold predictInfo.calculateThreshold
  rw [if_neg (by decide)]
  simp only
  have h5 : (5 : Int).toNat = 5 := rfl
  rw [h5, hm]
  have hlo : (Int.tdiv 5 5).toNat = 1 := by decide
  have hhi : (Int.tdiv 5 5 + 1).toNat = 2 := by decide
  simp [List.insertionSort, List.orderedInsert, hlo, hhi]

/-! ## Theorems: the carried-over period -/

/-- The merging loop only appends to `period`. -/
theorem mergeLoop_prefix (hotSpotArr : List hotSpotPeriod) :
    ∀ (fuel : Nat) (s : MergeState) (period : List hotSpotPeriod),
      mergeLoop hotSpotArr fuel s = Except.ok period →
        ∃ more, period = s.period ++ more := by
  intro fuel
  induction fuel with
  | zero => intro s period h; cases h
  | succ fuel ih =>
    intro s period h
    cases hhj : hotSpotArr[s.j]? with
    | none =>
      rw [mergeLoop] at h
      simp only [hhj] at h
      cases h
    | some hj =>
      cases hhi : hotSpotArr[s.i]? with
      | none =>
        rw [mergeLoop] at h
        simp only [hhj, hhi] at h
        split_ifs at h with h1 h2
        · simp only [Except.ok.injEq] at h
          exact ⟨_, by rw [← h, List.append_assoc]⟩
        · obtain ⟨more, hmore⟩ := ih _ _ h
          exact ⟨_, by rw [hmore, List.append_assoc]⟩
      | some hi =>
        rw [mergeLoop_succ hotSpotArr fuel s hi hj hhj hhi] at h
        by_cases h1 : 120 < hj.StartTime - s.endT
        · rw [if_pos h1] at h
          by_cases h2 : s.j = hotSpotArr.length
          · rw [if_pos h2] at h
            simp only [Except.ok.injEq] at h
            exact ⟨_, by rw [← h, List.append_assoc]⟩
          · rw [if_neg h2] at h
            obtain ⟨more, hmore⟩ := ih _ _ h
            exact ⟨_, by rw [hmore, List.append_assoc]⟩
        · rw [if_neg h1] at h
          by_cases h2 : s.j + 1 = hotSpotArr.length
          · rw [if_pos h2] at h
            simp only [Except.ok.injEq] at h
            exact ⟨_, h.symm⟩
          · rw [if_neg h2] at h
            obtain ⟨more, hmore⟩ := ih _ _ h
            exact ⟨_, hmore⟩

/-- The merged period list starts with the carried-over period. -/
theorem mergePeriods_head (fuel : Nat) (gLastPeriod : hotSpotPeriod)
    (hotSpotArr period : List hotSpotPeriod)
    (h : mergePeriods fuel gLastPeriod hotSpotArr = Except.ok period) :
    period[0]? = some gLastPeriod := by
  unfold mergePeriods at h
  split at h
  · cases h
  · obtain ⟨more, hmore⟩ := mergeLoop_prefix _ _ _ _ h
    rw [hmore]
    simp

/-- C16: a `calculateScheduleTime` run that succeeds leaves in `gLastPeriod` the
last period of the merged list it produced, and element 0 of that list is the
carry-over held at entry; a run that fails, in particular with the "no hot
spot" error, leaves the carry-over unchanged. -/
theorem calculateScheduleTime_carry_over (fuel : Nat) (p : predictInfo) (threshold : ℚ)
    (gLastPeriod : hotSpotPeriod) :
    (∀ scheduleT, (p.calculateScheduleTime fuel threshold gLastPeriod).1 = Except.ok scheduleT →
      ∃ hotSpotArr period,
        detectAll p threshold (List.range p.TableNum.toNat) = Except.ok hotSpotArr ∧
        mergePeriods fuel gLastPeriod (bubbleSortHotSpot hotSpotArr) = Except.ok period ∧
        period[0]? = some gLastPeriod ∧
        period.getLast? = some (p.calculateScheduleTime fuel threshold gLastPeriod).2) ∧
    (∀ e, (p.calculateScheduleTime fuel threshold gLastPeriod).1 = Except.error e →
      (p.calculateScheduleTime fuel threshold gLastPeriod).2 = gLastPeriod) := by
  unfold predictInfo.calculateScheduleTime
  split_ifs with h1 h2
  · exact ⟨fun _ h => (by cases h), fun _ _ => rfl⟩
  · exact ⟨fun _ h => (by cases h), fun _ _ => rfl⟩
  · cases hdet : detectAll p threshold (List.range p.TableNum.toNat) with
    | error e => exact ⟨fun _ h => (by cases h), fun _ _ => rfl⟩
    | ok hotSpotArr =>
      simp only
      split_ifs with h3
      · exact ⟨fun _ h => (by cases h), fun _ _ => rfl⟩
      · cases hmerge : mergePeriods fuel gLastPeriod (bubbleSortHotSpot hotSpotArr) with
        | error e => exact ⟨fun _ h => (by cases h), fun _ _ => rfl⟩
        | ok period =>
          simp only
          cases hw : weightPass (bubbleSortHotSpot hotSpotArr) (buildScheduleT p period) with
          | error e => exact ⟨fun _ h => (by cases h), fun _ _ => rfl⟩
          | ok scheduleT =>
            simp only
            cases hlast : period.getLast? with
            | none => exact ⟨fun _ h => (by cases h), fun _ _ => rfl⟩
            | some last =>
              refine ⟨fun _ _ => ⟨hotSpotArr, period, rfl, hmerge,
                mergePeriods_head _ _ _ _ hmerge, hlast⟩, fun _ h => (by cases h)⟩

/-- C16 witness: the run on one table hot at step 0 and at steps 5-6 succeeds
from the zero seed and leaves `[1360, 1420]` as the carry-over. -/
theorem calculateScheduleTime_carry_over_witness :
    ∃ hotSpotArr period,
      detectAll
        { Time := 1000, TableNum := 1, PredictStep := 10,
          TableInfo := [{ Predict := [5, 0, 0, 0, 0, 5, 5, 0, 0, 0] }] } 1 (List.range 1) =
        Except.ok hotSpotArr ∧
      mergePeriods 10 { StartTime := 0, EndTime := 0, TableKey := [] }
        (bubbleSortHotSpot hotSpotArr) = Except.ok period ∧
      period[0]? = some { StartTime := 0, EndTime := 0, TableKey := [] } ∧
      period.getLast? = some { StartTime := 1360, EndTime := 1420, TableKey := [0] } :=
  (calculateScheduleTime_carry_over 10
    { Time := 1000, TableNum := 1, PredictStep := 10,
      TableInfo := [{ Predict := [5, 0, 0, 0, 0, 5, 5, 0, 0, 0] }] } 1
    { StartTime := 0, EndTime := 0, TableKey := [] }).1
    [{ StartTime := 1000, EndTime := 1060, DeltT := [1] },
     { StartTime := 1210, EndTime := 1420, DeltT := [1] }] rfl

/-! ## Theorems: `bubbleSortHotSpot` -/

/-- A pass of `n` comparisons touches only the first `n + 1` elements. -/
theorem bubblePass_append :
    ∀ (n : Nat) (xs ys : List hotSpotPeriod), xs.length = n + 1 →
      bubblePass n (xs ++ ys) = ((bubblePass n xs).1 ++ ys, (bubblePass n xs).2) := by
  intro n
  induction n with
  | zero =>
    intro xs ys hlen
    match xs, hlen with
    | [a], _ => simp [bubblePass]
  | succ n ih =>
    intro xs ys hlen
    match xs, hlen with
    | a :: b :: rest, hlen =>
      have hl : (a :: rest).length = n + 1 := by simpa using hlen
      have hl2 : (b :: rest).length = n + 1 := by simpa using hlen
      have e1 := ih (a :: rest) ys hl
      have e2 := ih (b :: rest) ys hl2
      rw [List.cons_append] at e1 e2
      rw [List.cons_append, List.cons_append, bubblePass, bubblePass]
      split_ifs
      · rw [e1]
        rfl
      · rw [e2]
        rfl

/-- A full pass over `n + 1` elements permutes them, keeps the order of the
elements of each start time, moves a greatest element to the end, and reports
no swap only when the list was already sorted and is unchanged. -/
theorem bubblePass_spec :
    ∀ (n : Nat) (xs : List hotSpotPeriod), xs.length = n + 1 →
      List.Perm (bubblePass n xs).1 xs ∧
      (∀ s : Int, (bubblePass n xs).1.filter (fun h => decide (h.StartTime = s)) =
        xs.filter (fun h => decide (h.StartTime = s))) ∧
      (∃ init mx, (bubblePass n xs).1 = init ++ [mx] ∧
        ∀ x ∈ init, x.StartTime ≤ mx.StartTime) ∧
      ((bubblePass n xs).2 = true →
        (bubblePass n xs).1 = xs ∧ xs.Pairwise (fun a b => a.StartTime ≤ b.StartTime)) := by
  intro n
  induction n with
  | zero =>
    intro xs hlen
    match xs, hlen with
    | [a], _ =>
      have hp : bubblePass 0 [a] = ([a], true) := by simp [bubblePass]
      rw [hp]
      exact ⟨List.Perm.refl _, fun _ => rfl, ⟨[], a, rfl, by simp⟩, fun _ => ⟨rfl, by simp⟩⟩
  | succ n ih =>
    intro xs hlen
    match xs, hlen with
    | a :: b :: rest, hlen =>
      rw [bubblePass]
      by_cases hgt : a.StartTime > b.StartTime
      · rw [if_pos hgt]
        obtain ⟨hperm, hfilter, ⟨init, mx, hshape, hmax⟩, -⟩ :=
          ih (a :: rest) (by simpa using hlen)
        have hamem : a ∈ init ++ [mx] := by
          rw [← hshape]
          exact hperm.symm.subset (List.mem_cons_self _ _)
        have hamx : a.StartTime ≤ mx.StartTime := by
          rcases List.mem_append.1 hamem with h | h
          · exact hmax a h
          · rw [List.mem_singleton.1 h]
        refine ⟨?_, ?_, ?_, fun h => by cases h⟩
        · exact (List.Perm.cons b hperm).trans (List.Perm.swap a b rest)
        · intro s
          simp only [List.filter_cons, hfilter s]
          by_cases hb : b.StartTime = s
          · have ha : ¬ a.StartTime = s := by omega
            simp [hb, ha]
          · simp [hb]
        · refine ⟨b :: init, mx, by simp [hshape], ?_⟩
          intro x hx
          rcases List.mem_cons.1 hx with rfl | hx
          · omega
          · exact hmax x hx
      · rw [if_neg hgt]
        obtain ⟨hperm, hfilter, ⟨init, mx, hshape, hmax⟩, hflag⟩ :=
          ih (b :: rest) (by simpa using hlen)
        have hbmem : b ∈ init ++ [mx] := by
          rw [← hshape]
          exact hperm.symm.subset (List.mem_cons_self _ _)
        have hbmx : b.StartTime ≤ mx.StartTime := by
          rcases List.mem_append.1 hbmem with h | h
          · exact hmax b h
          · rw [List.mem_singleton.1 h]
        refine ⟨List.Perm.cons a hperm, ?_, ?_, ?_⟩
        · intro s
          simp only [List.filter_cons, hfilter s]
        · refine ⟨a :: init, mx, by simp [hshape], ?_⟩
          intro x hx
          rcases List.mem_cons.1 hx with rfl | hx
          · omega
          · exact hmax x hx
        · intro hf
          obtain ⟨heq, hsorted⟩ := hflag hf
          refine ⟨by rw [heq], ?_⟩
          rw [List.pairwise_cons]
          refine ⟨?_, hsorted⟩
          intro y hy
          rcases List.mem_cons.1 hy with rfl | hy
          · omega
          · have := (List.pairwise_cons.1 hsorted).1 y hy
            omega

/-- The outer loop with `m` passes left, on a list whose first `m + 1` elements
are followed by a sorted tail that dominates them: the result is sorted, a
permutation, and keeps the order of the elements of each start time. -/
theorem bubbleLoop_spec :
    ∀ (m : Nat) (xs ys : List hotSpotPeriod), xs.length = m + 1 →
      ys.Pairwise (fun a b => a.StartTime ≤ b.StartTime) →
      (∀ x ∈ xs, ∀ y ∈ ys, x.StartTime ≤ y.StartTime) →
      (bubbleLoop m (xs ++ ys)).Pairwise (fun a b => a.StartTime ≤ b.StartTime) ∧
      List.Perm (bubbleLoop m (xs ++ ys)) (xs ++ ys) ∧
      ∀ s : Int, (bubbleLoop m (xs ++ ys)).filter (fun h => decide (h.StartTime = s)) =
        (xs ++ ys).filter (fun h => decide (h.StartTime = s)) := by
  intro m
  induction m with
  | zero =>
    intro xs ys hlen hys hdom
    match xs, hlen with
    | [a], _ =>
      rw [bubbleLoop]
      refine ⟨?_, List.Perm.refl _, fun _ => rfl⟩
      simp only [List.singleton_append, List.pairwise_cons]
      exact ⟨fun y hy => hdom a (List.mem_singleton_self a) y hy, hys⟩
  | succ m ih =>
    intro xs ys hlen hys hdom
    obtain ⟨hperm, hfilter, ⟨init, mx, hshape, hmax⟩, hflag⟩ := bubblePass_spec (m + 1) xs hlen
    rw [bubbleLoop, bubblePass_append (m + 1) xs ys hlen]
    simp only
    by_cases hf : (bubblePass (m + 1) xs).2 = true
    · rw [if_pos hf]
      obtain ⟨heq, hsorted⟩ := hflag hf
      rw [heq]
      refine ⟨?_, List.Perm.refl _, fun _ => rfl⟩
      rw [List.pairwise_append]
      exact ⟨hsorted, hys, hdom⟩
    · rw [if_neg hf]
      have hinit_len : init.length = m + 1 := by
        have := hperm.length_eq
        rw [hshape] at this
        simp only [List.length_append, List.length_singleton] at this
        omega
      have hsub : ∀ x ∈ init ++ [mx], x ∈ xs := by
        intro x hx
        rw [← hshape] at hx
        exact hperm.subset hx
      have hys2 : (mx :: ys).Pairwise (fun a b => a.StartTime ≤ b.StartTime) := by
        rw [List.pairwise_cons]
        exact ⟨fun y hy => hdom mx (hsub mx (by simp)) y hy, hys⟩
      have hdom2 : ∀ x ∈ init, ∀ y ∈ mx :: ys, x.StartTime ≤ y.StartTime := by
        intro x hx y hy
        rcases List.mem_cons.1 hy with rfl | hy
        · exact hmax x hx
        · exact hdom x (hsub x (List.mem_append_left _ hx)) y hy
      obtain ⟨h1, h2, h3⟩ := ih init (mx :: ys) hinit_len hys2 hdom2
      have hre : (bubblePass (m + 1) xs).1 ++ ys = init ++ mx :: ys := by
        rw [hshape]
        simp
      rw [hre]
      refine ⟨h1, ?_, ?_⟩
      · refine h2.trans ?_
        rw [← hre]
        exact List.Perm.append_right ys hperm
      · intro s
        rw [h3 s, ← hre, List.filter_append, List.filter_append, hfilter s]

/-- The result of `bubbleSortHotSpot` is a sorted permutation of its input that
keeps the input order of the intervals of each start time. -/
theorem bubbleSortHotSpot_spec (values : List hotSpotPeriod) :
    List.Perm (bubbleSortHotSpot values) values ∧
    (bubbleSortHotSpot values).Pairwise (fun a b => a.StartTime ≤ b.StartTime) ∧
    ∀ s : Int, (bubbleSortHotSpot values).filter (fun h => decide (h.StartTime = s)) =
      values.filter (fun h => decide (h.StartTime = s)) := by
  unfold bubbleSortHotSpot
  cases values with
  | nil => simp [bubbleLoop]
  | cons a rest =>
    obtain ⟨h1, h2, h3⟩ := bubbleLoop_spec ((a :: rest).length - 1) (a :: rest) []
      (by simp) List.Pairwise.nil (fun _ _ y hy => by cases hy)
    rw [List.append_nil] at h1 h2 h3
    exact ⟨h2, h1, h3⟩

/-- C18: for every list of intervals, `bubbleSortHotSpot` leaves a permutation
of its input that is sorted in ascending order of `StartTime` and stable: for
every start time the intervals with that start time appear in their input
order. The early exit on a swap-free pass never stops before the list is
sorted. -/
theorem bubbleSortHotSpot_sorted_stable (values : List hotSpotPeriod) :
    List.Perm (bubbleSortHotSpot values) values ∧
    (bubbleSortHotSpot values).Pairwise (fun a b => a.StartTime ≤ b.StartTime) ∧
    ∀ s : Int, (bubbleSortHotSpot values).filter (fun h => decide (h.StartTime = s)) =
      values.filter (fun h => decide (h.StartTime = s)) :=
  bubbleSortHotSpot_spec values

/-! ## Theorems: time order of the schedule windows -/

/-- Go's truncating division by 2 is within one half of the exact quotient. -/
theorem tdiv_two_bounds (x : Int) : x - 1 ≤ 2 * x.tdiv 2 ∧ 2 * x.tdiv 2 ≤ x + 1 := by
  rcases le_or_lt 0 x with h | h
  · rw [Int.tdiv_eq_ediv h (by omega)]
    omega
  · have hx : x = -(-x) := by ring
    rw [hx, Int.neg_tdiv, Int.tdiv_eq_ediv (by omega) (by omega)]
    omega

/-- A period as the merging loop emits them on detector intervals: it ends no
earlier than 60 seconds before its start, and starts at least 60 seconds after
the base timestamp. -/
theorem buildScheduleT_after (p : predictInfo) (hbase : 0 < p.Time) :
    ∀ (rest : List hotSpotPeriod) (cur : hotSpotPeriod),
      (∀ P ∈ cur :: rest, P.StartTime - 60 ≤ P.EndTime ∧ p.Time + 60 ≤ P.StartTime) →
      List.Chain' (fun P P' : hotSpotPeriod => 120 < P'.StartTime - P.EndTime) (cur :: rest) →
      ∀ w ∈ buildScheduleT p (cur :: rest),
        cur.EndTime + 60 ≤ w.StartTime ∧ cur.EndTime + 60 ≤ w.EndTime := by
  intro rest
  induction rest with
  | nil =>
    intro cur _ _ w hw
    simp [buildScheduleT] at hw
  | cons nxt rest ih =>
    intro cur hgood hchain w hw
    have hlink : 120 < nxt.StartTime - cur.EndTime := (List.chain'_cons.1 hchain).1
    have hchain' := (List.chain'_cons.1 hchain).2
    have hgc := hgood cur (List.mem_cons_self _ _)
    have hgn := hgood nxt (List.mem_cons_of_mem _ (List.mem_cons_self _ _))
    have hmid := tdiv_two_bounds (nxt.StartTime + cur.EndTime)
    rw [buildScheduleT] at hw
    simp only at hw
    rw [if_pos (by omega), if_neg (by omega)] at hw
    rcases List.mem_cons.1 hw with rfl | hw
    · simp only
      constructor <;> omega
    · have := ih nxt (fun P hP => hgood P (List.mem_cons_of_mem _ hP)) hchain' w hw
      omega

/-- The windows built from a seed followed by such periods, each more than two
minutes after the previous one, are in time order. -/
theorem buildScheduleT_sorted (p : predictInfo) (hbase : 0 < p.Time) :
    ∀ (periods : List hotSpotPeriod) (prev : hotSpotPeriod),
      (∀ P ∈ periods, P.StartTime - 60 ≤ P.EndTime ∧ p.Time + 60 ≤ P.StartTime) →
      List.Chain' (fun P P' : hotSpotPeriod => 120 < P'.StartTime - P.EndTime) periods →
      (∀ w ∈ buildScheduleT p (prev :: periods), w.StartTime ≤ w.EndTime) ∧
      (buildScheduleT p (prev :: periods)).Pairwise
        (fun w w' => w.StartTime ≤ w'.StartTime ∧ w.EndTime ≤ w'.EndTime) := by
  intro periods
  induction periods with
  | nil =>
    intro prev _ _
    simp [buildScheduleT]
  | cons cur rest ih =>
    intro prev hgood hchain
    have hgc := hgood cur (List.mem_cons_self _ _)
    obtain ⟨ih1, ih2⟩ := ih cur (fun P hP => hgood P (List.mem_cons_of_mem _ hP))
      (List.Chain'.tail hchain)
    have hafter := buildScheduleT_after p hbase rest cur hgood hchain
    have hmid := tdiv_two_bounds (cur.StartTime + prev.EndTime)
    rw [buildScheduleT]
    simp only
    by_cases hgap : cur.StartTime - prev.EndTime > 2 * 60
    · rw [if_pos hgap]
      have hstart : (if prev.EndTime = 0 then p.Time
          else (cur.StartTime + prev.EndTime).tdiv 2) ≤ cur.StartTime - 60 := by
        split_ifs <;> omega
      constructor
      · intro w hw
        rcases List.mem_cons.1 hw with rfl | hw
        · simp only
          omega
        · exact ih1 w hw
      · rw [List.pairwise_cons]
        refine ⟨?_, ih2⟩
        intro w hw
        have := hafter w hw
        simp only
        constructor <;> omega
    · rw [if_neg hgap]
      exact ⟨ih1, ih2⟩

/-- A running period extended by one more closed period keeps the chain. -/
theorem chain_concat (Ps : List hotSpotPeriod) (cur : hotSpotPeriod)
    (hchain : List.Chain' (fun P P' : hotSpotPeriod => 120 < P'.StartTime - P.EndTime) Ps)
    (hlast : ∀ P ∈ Ps.getLast?, 120 < cur.StartTime - P.EndTime) :
    List.Chain' (fun P P' : hotSpotPeriod => 120 < P'.StartTime - P.EndTime) (Ps ++ [cur]) := by
  rw [List.chain'_append]
  refine ⟨hchain, List.chain'_singleton _, ?_⟩
  intro x hx y hy
  simp only [List.head?_cons, Option.mem_def, Option.some.injEq] at hy
  subst hy
  exact hlast x hx

/-- The merging loop on intervals that end no earlier than 60 seconds before
their start and start at least 60 seconds after the base: every period after
the seed has the same two properties, and each period starts more than two
minutes after the end of the period before it. -/
theorem mergeLoop_periods (p : predictInfo) (hotSpotArr : List hotSpotPeriod)
    (harr : ∀ h ∈ hotSpotArr, h.StartTime - 60 ≤ h.EndTime ∧ p.Time + 60 ≤ h.StartTime)
    (g : hotSpotPeriod) :
    ∀ (fuel : Nat) (s : MergeState) (period Ps : List hotSpotPeriod),
      s.period = g :: Ps →
      (∀ P ∈ Ps, P.StartTime - 60 ≤ P.EndTime ∧ p.Time + 60 ≤ P.StartTime) →
      List.Chain' (fun P P' : hotSpotPeriod => 120 < P'.StartTime - P.EndTime) Ps →
      (∀ P ∈ Ps.getLast?, 120 < s.startT - P.EndTime) →
      (∃ hi, hotSpotArr[s.i]? = some hi ∧ hi.StartTime = s.startT ∧ hi.EndTime ≤ s.endT) →
      mergeLoop hotSpotArr fuel s = Except.ok period →
      ∃ Ps', period = g :: Ps' ∧
        (∀ P ∈ Ps', P.StartTime - 60 ≤ P.EndTime ∧ p.Time + 60 ≤ P.StartTime) ∧
        List.Chain' (fun P P' : hotSpotPeriod => 120 < P'.StartTime - P.EndTime) Ps' := by
  intro fuel
  induction fuel with
  | zero => intro s period Ps _ _ _ _ _ h; cases h
  | succ fuel ih =>
    intro s period Ps hper hgood hchain hlast hrun h
    obtain ⟨hi, hhi, hstart, hend⟩ := hrun
    have hgi := harr hi (List.getElem?_mem hhi)
    cases hhj : hotSpotArr[s.j]? with
    | none =>
      rw [mergeLoop] at h
      simp only [hhj] at h
      cases h
    | some hj =>
      have hgj := harr hj (List.getElem?_mem hhj)
      have hjlt : s.j < hotSpotArr.length := (List.getElem?_eq_some_iff.1 hhj).1
      rw [mergeLoop_succ hotSpotArr fuel s hi hj hhj hhi] at h
      have hcur_good : ∀ e : Int, hi.EndTime ≤ e → ∀ k : List Nat,
          ∀ P ∈ Ps ++ [({ StartTime := s.startT, EndTime := e, TableKey := k } : hotSpotPeriod)],
            P.StartTime - 60 ≤ P.EndTime ∧ p.Time + 60 ≤ P.StartTime := by
        intro e he k P hP
        rcases List.mem_append.1 hP with hP | hP
        · exact hgood P hP
        · rw [List.mem_singleton.1 hP]
          simp only
          constructor <;> omega
      by_cases h1 : 120 < hj.StartTime - s.endT
      · rw [if_pos h1, if_neg (by omega)] at h
        refine ih _ period _ (by simp [hper]) (hcur_good _ hend s.tableArr)
          (chain_concat Ps _ hchain hlast) ?_ ⟨hj, hhj, rfl, le_rfl⟩ h
        intro P hP
        rw [List.getLast?_concat] at hP
        simp only [Option.mem_def, Option.some.injEq] at hP
        subst hP
        exact h1
      · rw [if_neg h1] at h
        have hend' : hi.EndTime ≤ (if hi.EndTime < hj.EndTime then hj.EndTime else s.endT) := by
          split_ifs <;> omega
        by_cases h2 : s.j + 1 = hotSpotArr.length
        · rw [if_pos h2] at h
          simp only [Except.ok.injEq] at h
          subst h
          rw [hper]
          exact ⟨_, rfl, hcur_good _ hend' _, chain_concat Ps _ hchain hlast⟩
        · rw [if_neg h2] at h
          refine ih _ period Ps ?_ hgood hchain ?_ ?_ h
          · exact hper
          · exact hlast
          · exact ⟨hi, hhi, hstart, hend'⟩

/-- The interval of a maximal run ends no earlier than 60 seconds before its
start and starts at least 60 seconds after the base timestamp. -/
theorem runInterval_shape (p : predictInfo) (i a b : Nat) (hab : a ≤ b)
    (hb : (b : Int) < p.PredictStep) :
    (runInterval p i a b).StartTime - 60 ≤ (runInterval p i a b).EndTime ∧
    p.Time + 60 ≤ (runInterval p i a b).StartTime ∧ (runInterval p i a b).TableKey = [i] := by
  unfold runInterval
  simp only
  refine ⟨?_, by omega, trivial⟩
  split_ifs <;> omega

/-- Every interval the detector emits on a well-formed snapshot ends no earlier
than 60 seconds before its start, starts at least 60 seconds after the base
timestamp, and is tagged with the index of one of the tables visited. -/
theorem detectAll_shape (p : predictInfo) (threshold : ℚ)
    (hpred : ∀ t ∈ p.TableInfo, (t.Predict.length : Int) = p.PredictStep) :
    ∀ (tables : List Nat) (arr : List hotSpotPeriod),
      (∀ i ∈ tables, i < p.TableInfo.length) →
      detectAll p threshold tables = Except.ok arr →
      ∀ h ∈ arr, h.StartTime - 60 ≤ h.EndTime ∧ p.Time + 60 ≤ h.StartTime ∧
        ∃ i ∈ tables, h.TableKey = [i] := by
  intro tables
  induction tables with
  | nil =>
    intro arr _ harr h hh
    simp only [detectAll, Except.ok.injEq] at harr
    subst harr
    cases hh
  | cons i rest ih =>
    intro arr hin harr h hh
    have hi : i < p.TableInfo.length := hin i (List.mem_cons_self _ _)
    have ht : p.TableInfo[i]? = some p.TableInfo[i] := List.getElem?_eq_getElem hi
    have hlen := hpred _ (List.getElem_mem hi)
    obtain ⟨runs, hruns, -, hchar⟩ := detectShard_runs p threshold i _ ht hlen
      p.PredictStep.toNat 0 false 0 (by omega) (fun h => by cases h) (fun _ k hk => by omega)
    rw [detectAll, List.range_eq_range', hruns] at harr
    simp only at harr
    cases hrest : detectAll p threshold rest with
    | error e =>
      rw [hrest] at harr
      cases harr
    | ok more =>
      rw [hrest] at harr
      simp only [Except.ok.injEq] at harr
      subst harr
      rcases List.mem_append.1 hh with hh | hh
      · obtain ⟨r, hr, rfl⟩ := List.mem_map.1 hh
        have hmax := ((hchar r.1 r.2).1 hr).1
        have hb := (hmax.2.1 r.2 hmax.1 le_rfl).lt_length
        obtain ⟨s1, s2, s3⟩ := runInterval_shape p i r.1 r.2 hmax.1 (by omega)
        exact ⟨s1, s2, i, List.mem_cons_self _ _, s3⟩
      · obtain ⟨s1, s2, k, hk, s3⟩ := ih more (fun x hx => hin x (List.mem_cons_of_mem _ hx))
          hrest h hh
        exact ⟨s1, s2, k, List.mem_cons_of_mem _ hk, s3⟩

/-- Order properties of a window list carry over to a list with the same bounds. -/
theorem windows_order_of_frame (ws ws0 : List scheduleTime)
    (hframe : List.Forall₂ (fun (w1 w : scheduleTime) => w1.StartTime = w.StartTime ∧
      w1.EndTime = w.EndTime ∧ w1.DeltT.length = w.DeltT.length) ws ws0)
    (h1 : ∀ w ∈ ws0, w.StartTime ≤ w.EndTime)
    (h2 : ws0.Pairwise (fun w w' => w.StartTime ≤ w'.StartTime ∧ w.EndTime ≤ w'.EndTime)) :
    (∀ w ∈ ws, w.StartTime ≤ w.EndTime) ∧
    ws.Pairwise (fun w w' => w.StartTime ≤ w'.StartTime ∧ w.EndTime ≤ w'.EndTime) ∧
    ∀ w ∈ ws, ∃ w0 ∈ ws0, w.StartTime = w0.StartTime ∧ w.EndTime = w0.EndTime := by
  induction hframe with
  | nil => simp
  | @cons a b l1 l2 hhead _ ih =>
    obtain ⟨i1, i2, i3⟩ := ih (fun w hw => h1 w (List.mem_cons_of_mem _ hw))
      (List.pairwise_cons.1 h2).2
    have hb := h1 b (List.mem_cons_self _ _)
    refine ⟨?_, ?_, ?_⟩
    · intro w hw
      rcases List.mem_cons.1 hw with rfl | hw
      · omega
      · exact i1 w hw
    · rw [List.pairwise_cons]
      refine ⟨?_, i2⟩
      intro w hw
      obtain ⟨w0, hw0, e1, e2⟩ := i3 w hw
      have := (List.pairwise_cons.1 h2).1 w0 hw0
      omega
    · intro w hw
      rcases List.mem_cons.1 hw with rfl | hw
      · exact ⟨b, List.mem_cons_self _ _, hhead.1, hhead.2.1⟩
      · obtain ⟨w0, hw0, e⟩ := i3 w hw
        exact ⟨w0, List.mem_cons_of_mem _ hw0, e⟩

/-- A successful `calculateScheduleTime` run went through every stage: the
detector, the sort, the merge, the window builder and the weight pass. -/
theorem calculateScheduleTime_ok (fuel : Nat) (p : predictInfo) (threshold : ℚ)
    (gLastPeriod : hotSpotPeriod) (scheduleT : List scheduleTime) :
    (p.calculateScheduleTime fuel threshold gLastPeriod).1 = Except.ok scheduleT →
      ∃ hotSpotArr period,
        detectAll p threshold (List.range p.TableNum.toNat) = Except.ok hotSpotArr ∧
        mergePeriods fuel gLastPeriod (bubbleSortHotSpot hotSpotArr) = Except.ok period ∧
        weightPass (bubbleSortHotSpot hotSpotArr) (buildScheduleT p period) =
          Except.ok scheduleT ∧
        period.getLast? = some (p.calculateScheduleTime fuel threshold gLastPeriod).2 := by
  unfold predictInfo.calculateScheduleTime
  split_ifs with h1 h2
  · intro h; cases h
  · intro h; cases h
  · cases hdet : detectAll p threshold (List.range p.TableNum.toNat) with
    | error e => intro h; cases h
    | ok hotSpotArr =>
      simp only
      split_ifs with h3
      · intro h; cases h
      · cases hmerge : mergePeriods fuel gLastPeriod (bubbleSortHotSpot hotSpotArr) with
        | error e => intro h; cases h
        | ok period =>
          simp only
          cases hw : weightPass (bubbleSortHotSpot hotSpotArr) (buildScheduleT p period) with
          | error e => intro h; cases h
          | ok ws =>
            simp only
            cases hlast : period.getLast? with
            | none => intro h; cases h
            | some last =>
              intro h
              simp only [Except.ok.injEq] at h
              subst h
              exact ⟨hotSpotArr, period, rfl, hmerge, hw, hlast⟩

/-- C17: for every snapshot whose table list has `TableNum` entries of
`PredictStep` predictions each, with positive base timestamp, and every
carry-over seed, the windows a `calculateScheduleTime` run returns are in time
order: every window has `start ≤ end`, and of two windows the one earlier in the
list has the smaller or equal start and the smaller or equal end. -/
theorem calculateScheduleTime_windows_sorted (fuel : Nat) (p : predictInfo) (threshold : ℚ)
    (gLastPeriod : hotSpotPeriod)
    (hlen : (p.TableInfo.length : Int) = p.TableNum)
    (hpred : ∀ t ∈ p.TableInfo, (t.Predict.length : Int) = p.PredictStep)
    (hbase : 0 < p.Time) :
    ∀ scheduleT, (p.calculateScheduleTime fuel threshold gLastPeriod).1 = Except.ok scheduleT →
      (∀ w ∈ scheduleT, w.StartTime ≤ w.EndTime) ∧
      scheduleT.Pairwise
        (fun w w' => w.StartTime ≤ w'.StartTime ∧ w.EndTime ≤ w'.EndTime) := by
  intro scheduleT hret
  obtain ⟨arr0, period, hdet, hmerge, hw, -⟩ :=
    calculateScheduleTime_ok fuel p threshold gLastPeriod scheduleT hret
  have hshape0 := detectAll_shape p threshold hpred (List.range p.TableNum.toNat)
    arr0 (by intro i hi; rw [List.mem_range] at hi; omega) hdet
  have hshape : ∀ h ∈ bubbleSortHotSpot arr0,
      h.StartTime - 60 ≤ h.EndTime ∧ p.Time + 60 ≤ h.StartTime := by
    intro h hh
    have := hshape0 h ((bubbleSortHotSpot_spec arr0).1.subset hh)
    exact ⟨this.1, this.2.1⟩
  unfold mergePeriods at hmerge
  cases h0 : (bubbleSortHotSpot arr0)[0]? with
  | none =>
    rw [h0] at hmerge
    cases hmerge
  | some first =>
    rw [h0] at hmerge
    simp only at hmerge
    obtain ⟨Ps, hPs, hgood, hchain⟩ := mergeLoop_periods p (bubbleSortHotSpot arr0)
      hshape gLastPeriod fuel _ period [] rfl (by simp) List.chain'_nil (by simp)
      ⟨first, h0, rfl, le_rfl⟩ hmerge
    subst hPs
    obtain ⟨b1, b2⟩ := buildScheduleT_sorted p hbase Ps gLastPeriod hgood hchain
    obtain ⟨c1, c2, -⟩ := windows_order_of_frame scheduleT _
      (weightPass_frame _ _ _ hw) b1 b2
    exact ⟨c1, c2⟩

/-- C17 witness: the run on one table hot at step 0 and at steps 5-6, base 1000,
returns the windows `[1000, 1060]` and `[1210, 1420]`. -/
theorem calculateScheduleTime_windows_sorted_witness :
    (∀ w ∈ [({ StartTime := 1000, EndTime := 1060, DeltT := [1] } : scheduleTime),
            { StartTime := 1210, EndTime := 1420, DeltT := [1] }], w.StartTime ≤ w.EndTime) ∧
    [({ StartTime := 1000, EndTime := 1060, DeltT := [1] } : scheduleTime),
     { StartTime := 1210, EndTime := 1420, DeltT := [1] }].Pairwise
      (fun w w' => w.StartTime ≤ w'.StartTime ∧ w.EndTime ≤ w'.EndTime) :=
  calculateScheduleTime_windows_sorted 10
    { Time := 1000, TableNum := 1, PredictStep := 10,
      TableInfo := [{ Predict := [5, 0, 0, 0, 0, 5, 5, 0, 0, 0] }] } 1
    { StartTime := 0, EndTime := 0, TableKey := [] } rfl
    (by
      intro t ht
      simp only [List.mem_singleton] at ht
      subst ht
      rfl)
    (by decide)
    [{ StartTime := 1000, EndTime := 1060, DeltT := [1] },
     { StartTime := 1210, EndTime := 1420, DeltT := [1] }] rfl

/-! ## Theorems: the bin table of `getTopK` -/

/-- C19 (fails on the code): two regions with metrics 1 and 4. The bin width is
`max(1, floor((4-1)/2)) = 1`, the region with metric 1 gets bin `(4-1)/1 = 3`,
and the table of `2+1` bins is indexed out of range. -/
theorem getTopK_bin_out_of_range :
    getTopK
      [{ id := 7, hexStartKey := [], leader := none, storeIds := [], rwBytesTotal := 1,
         approximateSize := 1 },
       { id := 8, hexStartKey := [], leader := none, storeIds := [], rwBytesTotal := 4,
         approximateSize := 1 }]
      0
      { predictData := { Time := 0, TableNum := 1, PredictStep := 1,
                         TableInfo := [{ Predict := [1] }] },
        threshold := 0,
        scheduleTime := [{ StartTime := 0, EndTime := 10, DeltT := [1] }] } =
      Except.error Failure.indexOutOfRange ∧
    metricLoop
      { predictData := { Time := 0, TableNum := 1, PredictStep := 1,
                         TableInfo := [{ Predict := [1] }] },
        threshold := 0,
        scheduleTime := [{ StartTime := 0, EndTime := 10, DeltT := [1] }] } [1]
      [{ id := 7, hexStartKey := [], leader := none, storeIds := [], rwBytesTotal := 1,
         approximateSize := 1 },
       { id := 8, hexStartKey := [], leader := none, storeIds := [], rwBytesTotal := 4,
         approximateSize := 1 }] uint64Max uint64Min = Except.ok ([1, 4], 1, 4) ∧
    ¬ ((4 - 1) / max 1 ((4 - 1) / 2) ≤ 2) := by
  refine ⟨rfl, rfl, by decide⟩

/-! ## Theorems: `getTableIndexByRegion` -/

theorem stringsCompare_cases (a b : List Nat) :
    stringsCompare a b = -1 ∨ stringsCompare a b = 0 ∨ stringsCompare a b = 1 := by
  induction a generalizing b with
  | nil => cases b <;> simp [stringsCompare]
  | cons x xs ih =>
    cases b with
    | nil => simp [stringsCompare]
    | cons y ys =>
      rw [stringsCompare]
      split_ifs
      · exact Or.inl rfl
      · exact Or.inr (Or.inr rfl)
      · exact ih ys

theorem stringsCompare_eq_zero_iff (a b : List Nat) : stringsCompare a b = 0 ↔ a = b := by
  induction a generalizing b with
  | nil => cases b <;> simp [stringsCompare]
  | cons x xs ih =>
    cases b with
    | nil => simp [stringsCompare]
    | cons y ys =>
      rw [stringsCompare]
      split_ifs with h1 h2
      · simp only [List.cons.injEq]
        constructor
        · intro h; cases h
        · rintro ⟨rfl, -⟩; omega
      · simp only [List.cons.injEq]
        constructor
        · intro h; cases h
        · rintro ⟨rfl, -⟩; omega
      · have hxy : x = y := by omega
        subst hxy
        simp [ih ys]

theorem stringsCompare_eq_neg_one_iff (a b : List Nat) :
    stringsCompare a b = -1 ↔ List.Lex (· < ·) a b := by
  induction a generalizing b with
  | nil =>
    cases b with
    | nil => simp [stringsCompare]
    | cons y ys => simp [stringsCompare, List.Lex.nil]
  | cons x xs ih =>
    cases b with
    | nil =>
      simp only [stringsCompare]
      constructor
      · intro h; cases h
      · intro h; cases h
    | cons y ys =>
      rw [stringsCompare]
      split_ifs with h1 h2
      · exact ⟨fun _ => List.Lex.rel h1, fun _ => rfl⟩
      · constructor
        · intro h; cases h
        · intro h
          cases h with
          | cons h' => omega
          | rel h' => omega
      · have hxy : x = y := by omega
        subst hxy
        rw [ih ys]
        constructor
        · intro h; exact List.Lex.cons h
        · intro h
          cases h with
          | cons h' => exact h'
          | rel h' => omega

theorem stringsCompare_eq_one_iff (a b : List Nat) :
    stringsCompare a b = 1 ↔ List.Lex (· < ·) b a := by
  induction a generalizing b with
  | nil =>
    cases b with
    | nil =>
      simp only [stringsCompare]
      constructor
      · intro h; cases h
      · intro h; cases h
    | cons y ys =>
      simp only [stringsCompare]
      constructor
      · intro h; cases h
      · intro h; cases h
  | cons x xs ih =>
    cases b with
    | nil => simp [stringsCompare, List.Lex.nil]
    | cons y ys =>
      rw [stringsCompare]
      split_ifs with h1 h2
      · constructor
        · intro h; cases h
        · intro h
          cases h with
          | cons h' => omega
          | rel h' => omega
      · exact ⟨fun _ => List.Lex.rel h2, fun _ => rfl⟩
      · have hxy : x = y := by omega
        subst hxy
        rw [ih ys]
        constructor
        · intro h; exact List.Lex.cons h
        · intro h
          cases h with
          | cons h' => exact h'
          | rel h' => omega

theorem lex_irrefl (a : List Nat) : ¬ List.Lex (· < ·) a a := by
  intro h
  have h1 := (stringsCompare_eq_neg_one_iff a a).2 h
  have h0 := (stringsCompare_eq_zero_iff a a).2 rfl
  omega

/-- The test of the scan loop is ownership under half-open semantics. -/
theorem scan_test_iff (t : preTableInfo) (str : List Nat) :
    (stringsCompare t.StartKey str ≤ 0 ∧ (t.EndKey = [] ∨ stringsCompare t.EndKey str > 0)) ↔
      Owns t str := by
  unfold Owns keyLE
  have hstart : stringsCompare t.StartKey str ≤ 0 ↔
      (t.StartKey = str ∨ List.Lex (· < ·) t.StartKey str) := by
    rw [← stringsCompare_eq_zero_iff, ← stringsCompare_eq_neg_one_iff]
    rcases stringsCompare_cases t.StartKey str with h | h | h <;> rw [h] <;> decide
  have hend : stringsCompare t.EndKey str > 0 ↔ List.Lex (· < ·) str t.EndKey := by
    rw [← stringsCompare_eq_one_iff]
    rcases stringsCompare_cases t.EndKey str with h | h | h <;> rw [h] <;> decide
  rw [hstart, hend]

theorem scanTables_ok_iff (str : List Nat) :
    ∀ (tables : List preTableInfo) (index i : Nat),
      scanTables str tables index = Except.ok i ↔
        ∃ n, i = index + n ∧ (∃ t, tables[n]? = some t ∧ Owns t str) ∧
          ∀ m, m < n → ∀ t, tables[m]? = some t → ¬ Owns t str := by
  intro tables
  induction tables with
  | nil =>
    intro index i
    simp only [scanTables]
    constructor
    · intro h; cases h
    · rintro ⟨n, -, ⟨t, ht, -⟩, -⟩
      simp at ht
  | cons t rest ih =>
    intro index i
    rw [scanTables]
    by_cases hown : Owns t str
    · rw [if_pos ((scan_test_iff t str).2 hown)]
      simp only [Except.ok.injEq]
      constructor
      · intro h
        exact ⟨0, by omega, ⟨t, List.getElem?_cons_zero, hown⟩, fun m hm => by omega⟩
      · rintro ⟨n, hn, -, hmin⟩
        cases n with
        | zero => omega
        | succ n => exact absurd hown (hmin 0 (by omega) t List.getElem?_cons_zero)
    · rw [if_neg (fun h => hown ((scan_test_iff t str).1 h)), ih]
      constructor
      · rintro ⟨n, hn, ⟨t', ht', hown'⟩, hmin⟩
        refine ⟨n + 1, by omega, ⟨t', by simpa using ht', hown'⟩, ?_⟩
        intro m hm t2 ht2
        cases m with
        | zero =>
          simp only [List.getElem?_cons_zero, Option.some.injEq] at ht2
          subst ht2
          exact hown
        | succ m => exact hmin m (by omega) t2 (by simpa using ht2)
      · rintro ⟨n, hn, ⟨t', ht', hown'⟩, hmin⟩
        cases n with
        | zero =>
          simp only [List.getElem?_cons_zero, Option.some.injEq] at ht'
          subst ht'
          exact absurd hown' hown
        | succ n =>
          refine ⟨n, by omega, ⟨t', by simpa using ht', hown'⟩, ?_⟩
          intro m hm t2 ht2
          exact hmin (m + 1) (by omega) t2 (by simpa using ht2)

theorem scanTables_error_iff (str : List Nat) :
    ∀ (tables : List preTableInfo) (index : Nat) (e : Failure),
      scanTables str tables index = Except.error e ↔
        e = Failure.error "region is not in all table" ∧ ∀ t ∈ tables, ¬ Owns t str := by
  intro tables
  induction tables with
  | nil =>
    intro index e
    simp only [scanTables, Except.error.injEq, List.not_mem_nil, false_imp_iff, implies_true,
      and_true]
    exact eq_comm
  | cons t rest ih =>
    intro index e
    rw [scanTables]
    by_cases hown : Owns t str
    · rw [if_pos ((scan_test_iff t str).2 hown)]
      constructor
      · intro h; cases h
      · rintro ⟨-, hall⟩
        exact absurd hown (hall t (List.mem_cons_self _ _))
    · rw [if_neg (fun h => hown ((scan_test_iff t str).1 h)), ih]
      simp only [List.mem_cons, forall_eq_or_imp, hown, not_false_eq_true, true_and]

/-- C20 (as stated, fails): the single table with empty start key and empty end
key owns the empty key, which equals its end key: `getTableIndexByRegion`
returns index 0 for it. -/
theorem getTableIndexByRegion_end_key_counterexample :
    ({ Predict := [], StartKey := [], EndKey := [] } : preTableInfo).EndKey = ([] : List Nat) ∧
    Owns { Predict := [], StartKey := [], EndKey := [] } [] ∧
    predictInfo.getTableIndexByRegion
      { Time := 0, TableNum := 1, PredictStep := 0,
        TableInfo := [{ Predict := [], StartKey := [], EndKey := [] }] }
      { id := 1, hexStartKey := [], leader := none, storeIds := [], rwBytesTotal := 0,
        approximateSize := 0 } = Except.ok 0 := by
  refine ⟨rfl, ⟨Or.inl rfl, Or.inl rfl⟩, rfl⟩

/-- C20 (amended): for every table list and every region start key `k` (the hex
string), `getTableIndexByRegion` returns index `i` exactly when `i` is the
smallest index whose table owns `k` under half-open semantics (`startKey ≤ k`,
and `endKey` empty or `k < endKey`), and returns an error, "region is not in all
table", exactly when no table owns `k`; a key equal to a table's non-empty end
key is not owned by that table. -/
theorem getTableIndexByRegion_iff (p : predictInfo) (meta : RegionInfo) :
    (∀ i, p.getTableIndexByRegion meta = Except.ok i ↔
      (∃ t, p.TableInfo[i]? = some t ∧ Owns t meta.hexStartKey) ∧
        ∀ j, j < i → ∀ t, p.TableInfo[j]? = some t → ¬ Owns t meta.hexStartKey) ∧
    (∀ e, p.getTableIndexByRegion meta = Except.error e ↔
      e = Failure.error "region is not in all table" ∧
        ∀ t ∈ p.TableInfo, ¬ Owns t meta.hexStartKey) ∧
    (∀ t : preTableInfo, t.EndKey ≠ [] → meta.hexStartKey = t.EndKey →
      ¬ Owns t meta.hexStartKey) := by
  refine ⟨fun i => ?_, fun e => ?_, ?_⟩
  · unfold predictInfo.getTableIndexByRegion
    rw [scanTables_ok_iff]
    constructor
    · rintro ⟨n, hn, h1, h2⟩
      have : i = n := by omega
      subst this
      exact ⟨h1, h2⟩
    · rintro ⟨h1, h2⟩
      exact ⟨i, by omega, h1, h2⟩
  · exact scanTables_error_iff _ _ _ _
  · intro t hne heq hown
    rcases hown.2 with h | h
    · exact hne h
    · rw [heq] at h
      exact lex_irrefl _ h

/-- C20 witness: tables `["", "5")` and `["5", "")`; the key `"5"` equals the
non-empty end key of table 0 and is not owned by it. -/
theorem getTableIndexByRegion_iff_witness :
    ¬ Owns { Predict := [], StartKey := [], EndKey := [53] } [53] :=
  (getTableIndexByRegion_iff
    { Time := 0, TableNum := 2, PredictStep := 0,
      TableInfo := [{ Predict := [], StartKey := [], EndKey := [53] },
                    { Predict := [], StartKey := [53], EndKey := [] }] }
    { id := 1, hexStartKey := [53], leader := none, storeIds := [], rwBytesTotal := 0,
      approximateSize := 0 }).2.2
    { Predict := [], StartKey := [], EndKey := [53] } (by simp) rfl

/-- The scan on the tables of the witness: the key `"5"` goes to table 1. -/
theorem getTableIndexByRegion_example :
    predictInfo.getTableIndexByRegion
      { Time := 0, TableNum := 2, PredictStep := 0,
        TableInfo := [{ Predict := [], StartKey := [], EndKey := [53] },
                      { Predict := [], StartKey := [53], EndKey := [] }] }
      { id := 1, hexStartKey := [53], leader := none, storeIds := [], rwBytesTotal := 0,
        approximateSize := 0 } = Except.ok 1 := by
  rfl

/-! ## Theorems: the selection of `getTopK` -/

/-- The metric loop: `tmp` has one entry per region, `maxrw` only grows and
bounds every entry, `minrw ≤ maxrw` once an owned region was seen, and a nonzero
entry belongs to a region with an owning table. -/
theorem metricLoop_spec (dispatchT : dispatchTiming) (DeltT : List Int) :
    ∀ (regions : List RegionInfo) (mn0 mx0 : Nat) (tmp : List Nat) (mn mx : Nat),
      (∀ v ∈ regions, v.rwBytesTotal < 2 ^ 64) →
      ((mn0 = uint64Max ∧ mx0 = 0) ∨ (mn0 ≤ mx0 ∧ mx0 < 2 ^ 64)) →
      metricLoop dispatchT DeltT regions mn0 mx0 = Except.ok (tmp, mn, mx) →
      tmp.length = regions.length ∧ mx0 ≤ mx ∧
      ((mn = uint64Max ∧ mx = 0) ∨ (mn ≤ mx ∧ mx < 2 ^ 64)) ∧
      ∀ e ∈ regions.zip tmp, e.2 ≤ mx ∧
        (e.2 ≠ 0 → ∃ i, dispatchT.predictData.getTableIndexByRegion e.1 = Except.ok i) := by
  intro regions
  induction regions with
  | nil =>
    intro mn0 mx0 tmp mn mx _ hinv h
    simp only [metricLoop, Except.ok.injEq, Prod.mk.injEq] at h
    obtain ⟨rfl, rfl, rfl⟩ := h
    exact ⟨rfl, le_rfl, hinv, by simp⟩
  | cons v rest ih =>
    intro mn0 mx0 tmp mn mx hrw hinv h
    have hrw' : ∀ x ∈ rest, x.rwBytesTotal < 2 ^ 64 := fun x hx =>
      hrw x (List.mem_cons_of_mem _ hx)
    rw [metricLoop] at h
    cases hidx : dispatchT.predictData.getTableIndexByRegion v with
    | error e =>
      simp only [hidx] at h
      cases hrec : metricLoop dispatchT DeltT rest mn0 mx0 with
      | error e2 =>
        simp only [hrec] at h
        cases h
      | ok res =>
        obtain ⟨tmp', mn', mx'⟩ := res
        simp only [hrec, Except.ok.injEq, Prod.mk.injEq] at h
        obtain ⟨rfl, rfl, rfl⟩ := h
        obtain ⟨h1, h2, h3, h4⟩ := ih mn0 mx0 tmp' mn' mx' hrw' hinv hrec
        refine ⟨by simp [h1], h2, h3, ?_⟩
        intro e he
        simp only [List.zip_cons_cons, List.mem_cons] at he
        rcases he with rfl | he
        · exact ⟨Nat.zero_le _, fun hne => absurd rfl hne⟩
        · exact h4 e he
    | ok tableIndex =>
      simp only [hidx] at h
      cases hw : DeltT[tableIndex]? with
      | none =>
        simp only [hw] at h
        cases h
      | some w =>
        simp only [hw] at h
        by_cases hdiv : ((w * v.approximateSize) % 2 ^ 64).toNat = 0
        · rw [if_pos hdiv] at h
          cases h
        rw [if_neg hdiv] at h
        have hdata : v.rwBytesTotal / ((w * v.approximateSize) % 2 ^ 64).toNat < 2 ^ 64 :=
          lt_of_le_of_lt (Nat.div_le_self _ _) (hrw v (List.mem_cons_self _ _))
        generalize v.rwBytesTotal / ((w * v.approximateSize) % 2 ^ 64).toNat = data at h hdata
        cases hrec : metricLoop dispatchT DeltT rest (if mn0 > data then data else mn0)
            (if mx0 < data then data else mx0) with
        | error e2 =>
          simp only [hrec] at h
          cases h
        | ok res =>
          obtain ⟨tmp', mn', mx'⟩ := res
          simp only [hrec, Except.ok.injEq, Prod.mk.injEq] at h
          obtain ⟨rfl, rfl, rfl⟩ := h
          have hinv1 : ((if mn0 > data then data else mn0) = uint64Max ∧
              (if mx0 < data then data else mx0) = 0) ∨
              ((if mn0 > data then data else mn0) ≤ (if mx0 < data then data else mx0) ∧
                (if mx0 < data then data else mx0) < 2 ^ 64) := by
            right
            unfold uint64Max at hinv
            rcases hinv with ⟨ha, hb⟩ | ⟨ha, hb⟩
            · subst ha hb
              split_ifs <;> omega
            · split_ifs <;> omega
          obtain ⟨h1, h2, h3, h4⟩ := ih _ _ tmp' mn' mx' hrw' hinv1 hrec
          have hle : data ≤ mx' := by
            refine le_trans ?_ h2
            split_ifs <;> omega
          refine ⟨by simp [h1], ?_, h3, ?_⟩
          · refine le_trans ?_ h2
            split_ifs <;> omega
          · intro e he
            simp only [List.zip_cons_cons, List.mem_cons] at he
            rcases he with rfl | he
            · exact ⟨hle, fun _ => ⟨tableIndex, hidx⟩⟩
            · exact h4 e he

/-- The bin loop keeps the number of bins, succeeds only when every ranked
region has its bin inside the table, and appends to each bin the IDs of the
ranked regions of that bin, in iteration order. -/
theorem binLoop_spec (maxrw segment : Nat) (hmx : maxrw < 2 ^ 64) :
    ∀ (entries : List (RegionInfo × Nat)) (H H' : List HotRegionTable),
      (∀ e ∈ entries, e.2 ≤ maxrw) →
      binLoop maxrw segment entries H = Except.ok H' →
      H'.length = H.length ∧
      (∀ e ∈ entries, e.2 ≠ 0 → specBin maxrw segment e.2 < H.length) ∧
      ∀ b, H'[b]?.map (fun h => h.regionID) =
        H[b]?.map (fun h => h.regionID ++
          (entries.filter fun e => decide (e.2 ≠ 0 ∧ specBin maxrw segment e.2 = b)).map
            (fun e => e.1.id)) := by
  intro entries
  induction entries with
  | nil =>
    intro H H' _ h
    simp only [binLoop, Except.ok.injEq] at h
    subst h
    refine ⟨rfl, by simp, fun b => ?_⟩
    cases H[b]? <;> simp
  | cons e rest ih =>
    intro H H' hle h
    obtain ⟨v, d⟩ := e
    have hle' : ∀ x ∈ rest, x.2 ≤ maxrw := fun x hx => hle x (List.mem_cons_of_mem _ hx)
    rw [binLoop] at h
    by_cases hd : d = 0
    · rw [if_pos hd] at h
      obtain ⟨h1, h2, h3⟩ := ih H H' hle' h
      refine ⟨h1, ?_, ?_⟩
      · intro x hx hne
        rcases List.mem_cons.1 hx with rfl | hx
        · exact absurd hd hne
        · exact h2 x hx hne
      · intro b
        rw [h3 b, List.filter_cons_of_neg (by simp [hd])]
    · rw [if_neg hd] at h
      have hdle : d ≤ maxrw := hle (v, d) (List.mem_cons_self _ _)
      have hidx : ((maxrw + 2 ^ 64 - d) % 2 ^ 64) / segment = specBin maxrw segment d := by
        unfold specBin
        congr 1
        omega
      simp only [hidx] at h
      cases hH : H[specBin maxrw segment d]? with
      | none =>
        simp only [hH] at h
        cases h
      | some hb =>
        simp only [hH] at h
        have hlt : specBin maxrw segment d < H.length := (List.getElem?_eq_some_iff.1 hH).1
        obtain ⟨h1, h2, h3⟩ := ih _ H' hle' h
        rw [List.length_set] at h1 h2
        refine ⟨h1, ?_, ?_⟩
        · intro x hx hne
          rcases List.mem_cons.1 hx with rfl | hx
          · exact hlt
          · exact h2 x hx hne
        · intro b
          rw [h3 b]
          by_cases hbb : specBin maxrw segment d = b
          · subst hbb
            rw [List.getElem?_set_self hlt, hH,
              List.filter_cons_of_pos (by simp [hd])]
            simp
          · rw [List.getElem?_set_ne hbb,
              List.filter_cons_of_neg (by simp [hbb])]

/-- The inner selection loop with `k < topk`: it appends the first `topk - k`
IDs of the bin, breaks exactly when the bin holds that many, and otherwise
advances `k` by the size of the bin. -/
theorem takeBin_spec (topk : Int) :
    ∀ (ids ret : List Nat) (k : Int), k < topk →
      (takeBin topk ids ret k).1 = ret ++ ids.take (topk - k).toNat ∧
      ((takeBin topk ids ret k).2.2 = true → (topk - k).toNat ≤ ids.length) ∧
      ((takeBin topk ids ret k).2.2 = false →
        ids.length < (topk - k).toNat ∧ (takeBin topk ids ret k).2.1 = k + ids.length) := by
  intro ids
  induction ids with
  | nil =>
    intro ret k hk
    simp only [takeBin, List.take_nil, List.append_nil, List.length_nil, true_and]
    exact ⟨fun h => (by cases h), fun _ => ⟨by omega, by simp⟩⟩
  | cons i rest ih =>
    intro ret k hk
    rw [takeBin]
    obtain ⟨m, hm⟩ : ∃ m, (topk - k).toNat = m + 1 := ⟨(topk - k).toNat - 1, by omega⟩
    by_cases hstop : k + 1 = topk
    · rw [if_pos hstop]
      have hm0 : m = 0 := by omega
      subst hm0
      rw [hm]
      refine ⟨by simp, fun _ => by simp, fun h => by cases h⟩
    · rw [if_neg hstop]
      obtain ⟨h1, h2, h3⟩ := ih (ret ++ [i]) (k + 1) (by omega)
      have hm2 : (topk - (k + 1)).toNat = m := by omega
      rw [hm2] at h1 h2 h3
      rw [hm]
      refine ⟨by rw [h1]; simp, fun h => by have := h2 h; simp; omega, fun h => ?_⟩
      obtain ⟨a, b⟩ := h3 h
      refine ⟨by simp; omega, ?_⟩
      rw [b]
      simp only [List.length_cons]
      push_cast
      ring

/-- With `k < topk` the selection returns `retRegionID` followed by the first
`topk - k` IDs of the concatenated bins. -/
theorem takeLoop_spec (topk : Int) :
    ∀ (bins : List HotRegionTable) (ret : List Nat) (k : Int), k < topk →
      takeLoop topk bins ret k =
        ret ++ (bins.flatMap fun h => h.regionID).take (topk - k).toNat := by
  intro bins
  induction bins with
  | nil =>
    intro ret k _
    simp [takeLoop]
  | cons h rest ih =>
    intro ret k hk
    obtain ⟨h1, h2, h3⟩ := takeBin_spec topk h.regionID ret k hk
    rw [takeLoop, List.flatMap_cons]
    by_cases hb : (takeBin topk h.regionID ret k).2.2 = true
    · rw [if_pos hb, h1, List.take_append_of_le_length (h2 hb)]
    · rw [if_neg hb]
      have hb' : (takeBin topk h.regionID ret k).2.2 = false := by simpa using hb
      obtain ⟨hlt, hk'⟩ := h3 hb'
      rw [ih _ _ (by rw [hk']; omega), h1, hk', List.take_append_eq_append_take,
        List.take_of_length_le (le_of_lt hlt), List.append_assoc]
      congr 2
      congr 1
      omega

theorem filter_length_add {α : Type} (p q r : α → Bool) (l : List α)
    (h : ∀ x ∈ l, r x = (p x || q x) ∧ (p x && q x) = false) :
    (l.filter p).length + (l.filter q).length = (l.filter r).length := by
  induction l with
  | nil => rfl
  | cons x xs ih =>
    have hx := h x (List.mem_cons_self _ _)
    have ih' := ih (fun y hy => h y (List.mem_cons_of_mem _ hy))
    simp only [List.filter_cons]
    cases hp : p x <;> cases hq : q x <;> simp [hp, hq] at hx <;> simp [hx] <;> omega

theorem filter_bin_length (maxrw segment : Nat) (entries : List (RegionInfo × Nat)) (m : Nat) :
    (entries.filter fun e => decide (e.2 ≠ 0 ∧ specBin maxrw segment e.2 < m)).length +
      (entries.filter fun e => decide (e.2 ≠ 0 ∧ specBin maxrw segment e.2 = m)).length =
      (entries.filter fun e => decide (e.2 ≠ 0 ∧ specBin maxrw segment e.2 < m + 1)).length := by
  apply filter_length_add
  intro e _
  by_cases hd : e.2 ≠ 0
  · rcases Nat.lt_trichotomy (specBin maxrw segment e.2) m with hlt | heq | hgt
    · have h1 : ¬ specBin maxrw segment e.2 = m := by omega
      have h2 : specBin maxrw segment e.2 < m + 1 := by omega
      simp [hd, hlt, h1, h2]
    · have h1 : ¬ specBin maxrw segment e.2 < m := by omega
      have h2 : specBin maxrw segment e.2 < m + 1 := by omega
      simp [hd, heq, h1, h2]
    · have h1 : ¬ specBin maxrw segment e.2 < m := by omega
      have h2 : ¬ specBin maxrw segment e.2 < m + 1 := by omega
      have h3 : ¬ specBin maxrw segment e.2 = m := by omega
      simp [hd, h1, h2, h3]
  · simp [hd]

/-- When every ranked region has its bin among `0 .. n`, the bin-ordered
sequence holds every ranked region once. -/
theorem rankedByBin_length (maxrw segment n : Nat) (entries : List (RegionInfo × Nat))
    (hbin : ∀ e ∈ entries, e.2 ≠ 0 → specBin maxrw segment e.2 < n + 1) :
    (rankedByBin maxrw segment n entries).length =
      (entries.filter fun e => decide (e.2 ≠ 0)).length := by
  have key : ∀ m, ((List.range m).flatMap fun b =>
      entries.filter fun e => decide (e.2 ≠ 0 ∧ specBin maxrw segment e.2 = b)).length =
      (entries.filter fun e => decide (e.2 ≠ 0 ∧ specBin maxrw segment e.2 < m)).length := by
    intro m
    induction m with
    | zero => simp
    | succ m ih =>
      rw [List.range_succ, List.flatMap_append, List.length_append, ih]
      simp only [List.flatMap_cons, List.flatMap_nil, List.append_nil]
      exact filter_bin_length maxrw segment entries m
  unfold rankedByBin
  rw [key (n + 1)]
  congr 1
  apply List.filter_congr
  intro e he
  by_cases hd : e.2 ≠ 0
  · simp [hd, hbin e he hd]
  · simp [hd]

/-- Bins appear in non-decreasing order along the bin-ordered sequence, and
every entry of it is a ranked region. -/
theorem rankedByBin_sorted (maxrw segment n : Nat) (entries : List (RegionInfo × Nat)) :
    (rankedByBin maxrw segment n entries).Pairwise
      (fun e f => specBin maxrw segment e.2 ≤ specBin maxrw segment f.2) ∧
    ∀ e ∈ rankedByBin maxrw segment n entries, e ∈ entries ∧ e.2 ≠ 0 := by
  unfold rankedByBin
  constructor
  · rw [List.pairwise_flatMap]
    constructor
    · intro b _
      rw [List.pairwise_iff_forall_sublist]
      intro x y hxy
      have hx := hxy.subset (List.mem_cons_self _ _)
      have hy := hxy.subset (List.mem_cons_of_mem _ (List.mem_singleton_self _))
      simp only [List.mem_filter, decide_eq_true_eq] at hx hy
      omega
    · refine (List.pairwise_lt_range (n + 1)).imp ?_
      intro a b hab x hx y hy
      simp only [List.mem_filter, decide_eq_true_eq] at hx hy
      omega
  · intro e he
    simp only [List.mem_flatMap, List.mem_filter, decide_eq_true_eq] at he
    obtain ⟨b, -, hmem, hd, -⟩ := he
    exact ⟨hmem, hd⟩

/-- The bin width of the code, with its `uint64` subtraction, is the bin width
of the specification once `minrw ≤ maxrw`, and also when no region was owned. -/
theorem segment_eq_specBinWidth (minrw maxrw n : Nat) (hn : 2 ≤ n)
    (hinv : (minrw = uint64Max ∧ maxrw = 0) ∨ (minrw ≤ maxrw ∧ maxrw < 2 ^ 64)) :
    (if ((maxrw + 2 ^ 64 - minrw) % 2 ^ 64) / n = 0 then 1
      else ((maxrw + 2 ^ 64 - minrw) % 2 ^ 64) / n) = specBinWidth minrw maxrw n := by
  unfold specBinWidth
  unfold uint64Max at hinv
  rcases hinv with ⟨ha, hb⟩ | ⟨ha, hb⟩
  · subst ha hb
    have h1 : ((0 + 2 ^ 64 - (2 ^ 64 - 1)) % 2 ^ 64) / n = 0 := by
      have : (0 + 2 ^ 64 - (2 ^ 64 - 1)) % 2 ^ 64 = 1 := by norm_num
      rw [this]
      exact Nat.div_eq_of_lt (by omega)
    rw [if_pos h1]
    simp
  · have h1 : (maxrw + 2 ^ 64 - minrw) % 2 ^ 64 = maxrw - minrw := by omega
    rw [h1]
    split_ifs with h0
    · rw [h0]
      rfl
    · have : 1 ≤ (maxrw - minrw) / n := Nat.one_le_iff_ne_zero.2 h0
      exact (max_eq_right this).symm

/-- The concatenation of the bins after the bin loop, started from empty bins,
is the list of IDs along the bin-ordered sequence. -/
theorem bins_flatMap_eq (maxrw segment n : Nat) (entries : List (RegionInfo × Nat))
    (H : List HotRegionTable)
    (hbins : ∀ b, H[b]?.map (fun h => h.regionID) =
      (List.replicate (n + 1) ({ count := 0, regionID := [] } : HotRegionTable))[b]?.map
        (fun h => h.regionID ++
          (entries.filter fun e => decide (e.2 ≠ 0 ∧ specBin maxrw segment e.2 = b)).map
            (fun e => e.1.id))) :
    (H.flatMap fun h => h.regionID) =
      (rankedByBin maxrw segment n entries).map (fun e => e.1.id) := by
  unfold rankedByBin
  rw [List.map_flatMap, List.flatMap_def, List.flatMap_def]
  congr 1
  apply List.ext_getElem?
  intro b
  rw [List.getElem?_map, hbins b, List.getElem?_map]
  by_cases hb : b < n + 1
  · rw [List.getElem?_replicate_of_lt hb, List.getElem?_range hb]
    simp
  · rw [List.getElem?_eq_none (by simp; omega), List.getElem?_eq_none (by simp; omega)]
    rfl

/-- C15: for every region set of `n ≥ 10` regions (with `uint64` byte counters)
on which `getTopK` completes, the output is the list of IDs of the first
`min(floor(n/10), r)` entries of the bin-ordered sequence: the ranked regions
(owning table and nonzero metric, `r` of them) taken bin after bin, each bin in
region-iteration order, a region's bin being `floor((max - metric) / binWidth)`.
The sequence holds each ranked region once, its bins are in non-decreasing
order, so no unselected region lies in a lower bin than a selected one, and
each of its regions has an owning table. -/
theorem getTopK_ranked_prefix (regions : List RegionInfo) (index : Nat)
    (dispatchT : dispatchTiming) (ids : List Nat) (hn : 10 ≤ regions.length)
    (hrw : ∀ v ∈ regions, v.rwBytesTotal < 2 ^ 64)
    (hret : getTopK regions index dispatchT = Except.ok ids) :
    ∃ window tmp minrw maxrw,
      dispatchT.scheduleTime[index]? = some window ∧
      metricLoop dispatchT window.DeltT regions uint64Max uint64Min =
        Except.ok (tmp, minrw, maxrw) ∧
      tmp.length = regions.length ∧
      ids = ((rankedByBin maxrw (specBinWidth minrw maxrw regions.length) regions.length
          (regions.zip tmp)).take
            (min (regions.length / 10)
              ((regions.zip tmp).filter fun e => decide (e.2 ≠ 0)).length)).map
          (fun e => e.1.id) ∧
      (rankedByBin maxrw (specBinWidth minrw maxrw regions.length) regions.length
          (regions.zip tmp)).length =
        ((regions.zip tmp).filter fun e => decide (e.2 ≠ 0)).length ∧
      (rankedByBin maxrw (specBinWidth minrw maxrw regions.length) regions.length
          (regions.zip tmp)).Pairwise
        (fun e f => specBin maxrw (specBinWidth minrw maxrw regions.length) e.2 ≤
          specBin maxrw (specBinWidth minrw maxrw regions.length) f.2) ∧
      ∀ e ∈ rankedByBin maxrw (specBinWidth minrw maxrw regions.length) regions.length
          (regions.zip tmp),
        e ∈ regions.zip tmp ∧ e.2 ≠ 0 ∧
          ∃ i, dispatchT.predictData.getTableIndexByRegion e.1 = Except.ok i := by
  unfold getTopK at hret
  cases hwin : dispatchT.scheduleTime[index]? with
  | none =>
    simp only [hwin] at hret
    cases hret
  | some window =>
    simp only [hwin] at hret
    rw [if_neg (by omega)] at hret
    cases hmet : metricLoop dispatchT window.DeltT regions uint64Max uint64Min with
    | error e =>
      simp only [hmet] at hret
      cases hret
    | ok res =>
      obtain ⟨tmp, minrw, maxrw⟩ := res
      simp only [hmet] at hret
      obtain ⟨hlen, -, hinv, hent⟩ := metricLoop_spec dispatchT window.DeltT regions uint64Max
        uint64Min tmp minrw maxrw hrw (Or.inl ⟨rfl, rfl⟩) hmet
      have hmx : maxrw < 2 ^ 64 := by
        rcases hinv with ⟨-, hb⟩ | ⟨-, hb⟩
        · rw [hb]; norm_num
        · exact hb
      rw [segment_eq_specBinWidth minrw maxrw regions.length (by omega) hinv] at hret
      cases hbin : binLoop maxrw (specBinWidth minrw maxrw regions.length) (regions.zip tmp)
          (List.replicate (regions.length + 1) { count := 0, regionID := [] }) with
      | error e =>
        simp only [hbin] at hret
        cases hret
      | ok H =>
        simp only [hbin, Except.ok.injEq] at hret
        obtain ⟨hH1, hH2, hH3⟩ := binLoop_spec maxrw (specBinWidth minrw maxrw regions.length)
          hmx (regions.zip tmp) _ H (fun e he => (hent e he).1) hbin
        rw [List.length_replicate] at hH1 hH2
        have hflat := bins_flatMap_eq maxrw (specBinWidth minrw maxrw regions.length)
          regions.length (regions.zip tmp) H hH3
        have hseqlen := rankedByBin_length maxrw (specBinWidth minrw maxrw regions.length)
          regions.length (regions.zip tmp) hH2
        obtain ⟨hsorted, hmem⟩ := rankedByBin_sorted maxrw
          (specBinWidth minrw maxrw regions.length) regions.length (regions.zip tmp)
        have htopk : (regions.length : Int).tdiv 10 = ((regions.length / 10 : Nat) : Int) := by
          rw [Int.tdiv_eq_ediv (by omega) (by omega)]
          norm_cast
        refine ⟨window, tmp, minrw, maxrw, rfl, hmet, hlen, ?_, hseqlen, hsorted, ?_⟩
        · rw [← hret, takeLoop_spec _ _ _ _ (by rw [htopk]; omega), hflat, htopk]
          simp only [List.nil_append, sub_zero, Int.toNat_ofNat]
          rw [← List.map_take, ← hseqlen, ← List.take_take, List.take_length]
        · intro e he
          obtain ⟨h1, h2⟩ := hmem e he
          exact ⟨h1, h2, (hent e h1).2 h2⟩

/-- C15 witness: ten regions with metrics 1 to 10 under one table of weight 1;
`getTopK` returns the region with the highest metric. -/
theorem getTopK_ranked_prefix_witness :
    ∃ window tmp minrw maxrw,
      (⟨{ Time := 0, TableNum := 1, PredictStep := 1, TableInfo := [{ Predict := [1] }] }, 0,
        [{ StartTime := 0, EndTime := 10, DeltT := [1] }]⟩ : dispatchTiming).scheduleTime[0]? =
        some window ∧
      metricLoop
        ⟨{ Time := 0, TableNum := 1, PredictStep := 1, TableInfo := [{ Predict := [1] }] }, 0,
          [{ StartTime := 0, EndTime := 10, DeltT := [1] }]⟩ window.DeltT
        ((List.range 10).map fun i =>
          ({ id := 100 + i, hexStartKey := [], leader := none, storeIds := [],
             rwBytesTotal := i + 1, approximateSize := 1 } : RegionInfo))
        uint64Max uint64Min = Except.ok (tmp, minrw, maxrw) ∧
      [109] = ((rankedByBin maxrw (specBinWidth minrw maxrw 10) 10
          (((List.range 10).map fun i =>
            ({ id := 100 + i, hexStartKey := [], leader := none, storeIds := [],
               rwBytesTotal := i + 1, approximateSize := 1 } : RegionInfo)).zip tmp)).take
            (min (10 / 10)
              ((((List.range 10).map fun i =>
                ({ id := 100 + i, hexStartKey := [], leader := none, storeIds := [],
                   rwBytesTotal := i + 1, approximateSize := 1 } : RegionInfo)).zip tmp).filter
                fun e => decide (e.2 ≠ 0)).length)).map (fun e => e.1.id) := by
  obtain ⟨window, tmp, minrw, maxrw, h1, h2, -, h4, -⟩ := getTopK_ranked_prefix
    ((List.range 10).map fun i =>
      ({ id := 100 + i, hexStartKey := [], leader := none, storeIds := [],
         rwBytesTotal := i + 1, approximateSize := 1 } : RegionInfo))
    0
    ⟨{ Time := 0, TableNum := 1, PredictStep := 1, TableInfo := [{ Predict := [1] }] }, 0,
      [{ StartTime := 0, EndTime := 10, DeltT := [1] }]⟩
    [109] (by decide)
    (by
      intro v hv
      simp only [List.mem_map, List.mem_range] at hv
      obtain ⟨i, hi, rfl⟩ := hv
      show i + 1 < 2 ^ 64
      omega)
    rfl
  exact ⟨window, tmp, minrw, maxrw, h1, h2, h4⟩

/-! ## Theorems: start and end of the detector intervals -/

/-- On a well-formed snapshot the detector returns, and every interval it emits
is the interval of a run `a..b` of hot steps of one of the tables visited. -/
theorem detectAll_runs (p : predictInfo) (threshold : ℚ)
    (hpred : ∀ t ∈ p.TableInfo, (t.Predict.length : Int) = p.PredictStep) :
    ∀ (tables : List Nat), (∀ i ∈ tables, i < p.TableInfo.length) →
      ∃ arr, detectAll p threshold tables = Except.ok arr ∧
        ∀ h ∈ arr, ∃ (i a b : Nat), i ∈ tables ∧ a ≤ b ∧ (b : Int) < p.PredictStep ∧
          h = runInterval p i a b := by
  intro tables
  induction tables with
  | nil =>
    intro _
    exact ⟨[], rfl, fun h hh => by cases hh⟩
  | cons i rest ih =>
    intro hin
    have hi : i < p.TableInfo.length := hin i (List.mem_cons_self _ _)
    have ht : p.TableInfo[i]? = some p.TableInfo[i] := List.getElem?_eq_getElem hi
    have hlen := hpred _ (List.getElem_mem hi)
    obtain ⟨runs, hruns, -, hchar⟩ := detectShard_runs p threshold i _ ht hlen
      p.PredictStep.toNat 0 false 0 (by omega) (fun h => by cases h) (fun _ k hk => by omega)
    obtain ⟨more, hmore, hshape⟩ := ih (fun x hx => hin x (List.mem_cons_of_mem _ hx))
    refine ⟨runs.map (fun r => runInterval p i r.1 r.2) ++ more, ?_, ?_⟩
    · rw [detectAll, List.range_eq_range', hruns]
      simp only
      rw [hmore]
    · intro h hh
      rcases List.mem_append.1 hh with hh | hh
      · obtain ⟨r, hr, rfl⟩ := List.mem_map.1 hh
        have hmax := ((hchar r.1 r.2).1 hr).1
        have hb := (hmax.2.1 r.2 hmax.1 le_rfl).lt_length
        exact ⟨i, r.1, r.2, List.mem_cons_self _ _, hmax.1, by omega, rfl⟩
      · obtain ⟨k, a, b, hk, hab, hb, he⟩ := hshape h hh
        exact ⟨k, a, b, List.mem_cons_of_mem _ hk, hab, hb, he⟩

/-- C21 (fails on the code): one table of two steps, hot only at the final step.
The snapshot is well-formed and the detector emits the interval with start
`2*60 + 1000 = 1120` and end `1*60 + 1000 = 1060`, so its start is after its end. -/
theorem detectAll_final_step_counterexample :
    (([{ Predict := [0, 5] }] : List preTableInfo).length : Int) = 1 ∧
    (∀ t ∈ ([{ Predict := [0, 5] }] : List preTableInfo), (t.Predict.length : Int) = 2) ∧
    detectAll { Time := 1000, TableNum := 1, PredictStep := 2, TableInfo := [{ Predict := [0, 5] }] }
      1 (List.range (1 : Int).toNat) =
      Except.ok [{ StartTime := 1120, EndTime := 1060, TableKey := [0] }] ∧
    ¬ (({ StartTime := 1120, EndTime := 1060, TableKey := [0] } : hotSpotPeriod).StartTime ≤
        ({ StartTime := 1120, EndTime := 1060, TableKey := [0] } : hotSpotPeriod).EndTime) := by
  refine ⟨rfl, ?_, rfl, by decide⟩
  intro t ht
  simp only [List.mem_singleton] at ht
  subst ht
  rfl

/-- C21 (amended): on every snapshot whose table list has `TableNum` entries of
`PredictStep` predictions each, for every threshold and base timestamp, the
detector inside `calculateScheduleTime` returns, and every interval it emits
has `StartTime ≤ EndTime` unless it was opened at the final step, that is,
unless its start is `PredictStep*60 + Time`; such an interval ends 60 seconds
before its start. -/
theorem detectAll_start_le_end (p : predictInfo) (threshold : ℚ)
    (hlen : (p.TableInfo.length : Int) = p.TableNum)
    (hpred : ∀ t ∈ p.TableInfo, (t.Predict.length : Int) = p.PredictStep) :
    ∃ arr, detectAll p threshold (List.range p.TableNum.toNat) = Except.ok arr ∧
      ∀ h ∈ arr,
        (h.StartTime ≠ p.PredictStep * 60 + p.Time → h.StartTime ≤ h.EndTime) ∧
        (h.StartTime = p.PredictStep * 60 + p.Time → h.EndTime = h.StartTime - 60) := by
  obtain ⟨arr, harr, hshape⟩ := detectAll_runs p threshold hpred (List.range p.TableNum.toNat)
    (by intro i hi; rw [List.mem_range] at hi; omega)
  refine ⟨arr, harr, ?_⟩
  intro h hh
  obtain ⟨i, a, b, -, hab, hb, rfl⟩ := hshape h hh
  unfold runInterval
  simp only
  constructor
  · intro hne
    split_ifs <;> omega
  · intro he
    split_ifs <;> omega

/-- C21 witness: the amended statement on one table of five steps with a run
at steps 1-2 and a run opened at the final step. -/
theorem detectAll_start_le_end_witness :
    ∃ arr, detectAll { Time := 1000, TableNum := 1, PredictStep := 5,
                       TableInfo := [{ Predict := [0, 5, 5, 0, 5] }] } 1
        (List.range (1 : Int).toNat) = Except.ok arr ∧
      ∀ h ∈ arr,
        (h.StartTime ≠ (5 : Int) * 60 + 1000 → h.StartTime ≤ h.EndTime) ∧
        (h.StartTime = (5 : Int) * 60 + 1000 → h.EndTime = h.StartTime - 60) :=
  detectAll_start_le_end
    { Time := 1000, TableNum := 1, PredictStep := 5, TableInfo := [{ Predict := [0, 5, 5, 0, 5] }] }
    1 rfl
    (by
      intro t ht
      simp only [List.mem_singleton] at ht
      subst ht
      rfl)

/-! ## Theorems: termination of the period-merging loop -/

/-- The merging loop returns within `2 * (len - j)` iterations, and within one
iteration fewer when the interval at `j` does not open a new period: an
iteration that opens a period at `j` is followed by one that consumes `j`,
because no interval starts more than 120 seconds after its own end. The period
list returned does not depend on the iteration budget. -/
theorem mergeLoop_terminates (hotSpotArr : List hotSpotPeriod)
    (harr : ∀ h ∈ hotSpotArr, h.StartTime - h.EndTime ≤ 120) :
    ∀ (m : Nat) (s : MergeState), s.i ≤ s.j → s.j < hotSpotArr.length →
      (2 * (hotSpotArr.length - s.j) ≤ m ∨
        (2 * (hotSpotArr.length - s.j) ≤ m + 1 ∧
          ∀ hj, hotSpotArr[s.j]? = some hj → hj.StartTime - s.endT ≤ 120)) →
      ∃ period, ∀ fuel, m ≤ fuel → mergeLoop hotSpotArr fuel s = Except.ok period := by
  intro m
  induction m with
  | zero =>
    intro s _ hj hm
    omega
  | succ m ih =>
    intro s hij hjlen hm
    have hhj : hotSpotArr[s.j]? = some hotSpotArr[s.j] := List.getElem?_eq_getElem hjlen
    have hilen : s.i < hotSpotArr.length := by omega
    have hhi : hotSpotArr[s.i]? = some hotSpotArr[s.i] := List.getElem?_eq_getElem hilen
    by_cases hopen : 120 < hotSpotArr[s.j].StartTime - s.endT
    · have hne : ¬ s.j = hotSpotArr.length := by omega
      have hm' : 2 * (hotSpotArr.length - s.j) ≤ m + 1 := by
        rcases hm with hm | ⟨-, hsafe⟩
        · exact hm
        · have := hsafe _ hhj
          omega
      obtain ⟨period, hperiod⟩ := ih
        { period := s.period ++ [{ StartTime := s.startT, EndTime := s.endT,
                                   TableKey := s.tableArr }],
          i := s.j, j := s.j, tableArr := [],
          startT := hotSpotArr[s.j].StartTime, endT := hotSpotArr[s.j].EndTime }
        le_rfl hjlen
        (Or.inr ⟨hm', fun hj hhj' => by
          rw [hhj] at hhj'
          cases hhj'
          exact harr _ (List.getElem_mem hjlen)⟩)
      refine ⟨period, ?_⟩
      intro fuel hfuel
      obtain ⟨f, rfl⟩ : ∃ f, fuel = f + 1 := ⟨fuel - 1, by omega⟩
      rw [mergeLoop_succ hotSpotArr f s _ _ hhj hhi, if_pos hopen, if_neg hne]
      exact hperiod f (by omega)
    · by_cases hlast : s.j + 1 = hotSpotArr.length
      · have key := fun f => mergeLoop_succ hotSpotArr f s _ _ hhj hhi
        simp only [if_neg hopen, if_pos hlast] at key
        refine ⟨?_, ?_⟩
        swap
        · intro fuel hfuel
          obtain ⟨f, rfl⟩ : ∃ f, fuel = f + 1 := ⟨fuel - 1, by omega⟩
          exact key f
      · obtain ⟨period, hperiod⟩ := ih
          { period := s.period, i := s.i, j := s.j + 1,
            tableArr := s.tableArr ++ hotSpotArr[s.j].TableKey, startT := s.startT,
            endT := if hotSpotArr[s.i].EndTime < hotSpotArr[s.j].EndTime
                    then hotSpotArr[s.j].EndTime else s.endT }
          (by simp only; omega) (by simp only; omega)
          (Or.inl (by
            simp only
            rcases hm with hm | ⟨hm, -⟩ <;> omega))
        refine ⟨period, ?_⟩
        intro fuel hfuel
        obtain ⟨f, rfl⟩ : ∃ f, fuel = f + 1 := ⟨fuel - 1, by omega⟩
        rw [mergeLoop_succ hotSpotArr f s _ _ hhj hhi, if_neg hopen, if_neg hlast]
        exact hperiod f (by omega)

/-- On a non-empty interval list in which no interval starts more than 120
seconds after its own end, the merging pass returns a period list within
`2 * len` iterations, the same list for every larger budget. -/
theorem mergePeriods_terminates (gLastPeriod : hotSpotPeriod) (hotSpotArr : List hotSpotPeriod)
    (harr : ∀ h ∈ hotSpotArr, h.StartTime - h.EndTime ≤ 120) (hne : hotSpotArr ≠ []) :
    ∃ period, ∀ fuel, 2 * hotSpotArr.length ≤ fuel →
      mergePeriods fuel gLastPeriod hotSpotArr = Except.ok period := by
  have hpos : 0 < hotSpotArr.length := List.length_pos.2 hne
  have h0 : hotSpotArr[0]? = some hotSpotArr[0] := List.getElem?_eq_getElem hpos
  obtain ⟨period, hperiod⟩ := mergeLoop_terminates hotSpotArr harr (2 * hotSpotArr.length)
    { period := [gLastPeriod], i := 0, j := 0, tableArr := [],
      startT := hotSpotArr[0].StartTime, endT := hotSpotArr[0].EndTime }
    le_rfl hpos (Or.inl (by simp only; omega))
  refine ⟨period, ?_⟩
  intro fuel hfuel
  unfold mergePeriods
  rw [h0]
  exact hperiod fuel hfuel

/-- C22: on every snapshot whose table list has `TableNum` entries of
`PredictStep` predictions each, for every threshold and carry-over seed, the
detector returns an interval list in which every interval has
`StartTime - EndTime ≤ 60`, and when that list is not empty the period-merging
loop of `calculateScheduleTime` returns a period list within `2 * len`
iterations (the same list for every larger budget); so a run of
`calculateScheduleTime` with that budget never stops for lack of iterations. -/
theorem calculateScheduleTime_merge_terminates (p : predictInfo) (threshold : ℚ)
    (gLastPeriod : hotSpotPeriod)
    (hlen : (p.TableInfo.length : Int) = p.TableNum)
    (hpred : ∀ t ∈ p.TableInfo, (t.Predict.length : Int) = p.PredictStep) :
    ∃ hotSpotArr, detectAll p threshold (List.range p.TableNum.toNat) = Except.ok hotSpotArr ∧
      (∀ h ∈ hotSpotArr, h.StartTime - h.EndTime ≤ 60) ∧
      (hotSpotArr ≠ [] → ∃ period, ∀ fuel, 2 * hotSpotArr.length ≤ fuel →
        mergePeriods fuel gLastPeriod (bubbleSortHotSpot hotSpotArr) = Except.ok period) ∧
      ∀ fuel, 2 * hotSpotArr.length ≤ fuel →
        (p.calculateScheduleTime fuel threshold gLastPeriod).1 ≠
          Except.error Failure.loopBudget := by
  obtain ⟨arr, hdet, hruns⟩ := detectAll_runs p threshold hpred (List.range p.TableNum.toNat)
    (by intro i hi; rw [List.mem_range] at hi; omega)
  have hshape : ∀ h ∈ arr, h.StartTime - h.EndTime ≤ 60 := by
    intro h hh
    obtain ⟨i, a, b, -, hab, hb, rfl⟩ := hruns h hh
    unfold runInterval
    simp only
    split_ifs <;> omega
  have hperm := (bubbleSortHotSpot_spec arr).1
  have hsorted : ∀ h ∈ bubbleSortHotSpot arr, h.StartTime - h.EndTime ≤ 120 := by
    intro h hh
    have := hshape h (hperm.subset hh)
    omega
  have hmerge : arr ≠ [] → ∃ period, ∀ fuel, 2 * arr.length ≤ fuel →
      mergePeriods fuel gLastPeriod (bubbleSortHotSpot arr) = Except.ok period := by
    intro hne
    have hne' : bubbleSortHotSpot arr ≠ [] := by
      intro h0
      rw [h0] at hperm
      exact hne hperm.symm.eq_nil
    obtain ⟨period, hperiod⟩ := mergePeriods_terminates gLastPeriod _ hsorted hne'
    refine ⟨period, ?_⟩
    intro fuel hfuel
    exact hperiod fuel (by rw [hperm.length_eq]; exact hfuel)
  refine ⟨arr, hdet, hshape, hmerge, ?_⟩
  intro fuel hfuel
  unfold predictInfo.calculateScheduleTime
  split_ifs with h1 h2
  · intro h; cases h
  · intro h; cases h
  · rw [hdet]
    simp only
    split_ifs with h3
    · intro h; cases h
    · have hne : arr ≠ [] := by
        intro h0
        rw [h0] at h3
        exact h3 (by simp)
      obtain ⟨period, hperiod⟩ := hmerge hne
      rw [hperiod fuel hfuel]
      simp only
      cases hw : weightPass (bubbleSortHotSpot arr) (buildScheduleT p period) with
      | error e =>
        simp only
        have := weightPass_error _ _ _ hw
        subst this
        intro h; cases h
      | ok ws =>
        simp only
        cases hlast : period.getLast? with
        | none => intro h; cases h
        | some last => intro h; cases h

/-- C22 witness: the statement on one table of ten steps, hot at step 0 and at
steps 5-6, with the zero seed. -/
theorem calculateScheduleTime_merge_terminates_witness :
    ∃ hotSpotArr,
      detectAll { Time := 1000, TableNum := 1, PredictStep := 10,
                  TableInfo := [{ Predict := [5, 0, 0, 0, 0, 5, 5, 0, 0, 0] }] } 1
        (List.range (1 : Int).toNat) = Except.ok hotSpotArr ∧
      (∀ h ∈ hotSpotArr, h.StartTime - h.EndTime ≤ 60) ∧
      (hotSpotArr ≠ [] → ∃ period, ∀ fuel, 2 * hotSpotArr.length ≤ fuel →
        mergePeriods fuel { StartTime := 0, EndTime := 0, TableKey := [] }
          (bubbleSortHotSpot hotSpotArr) = Except.ok period) ∧
      ∀ fuel, 2 * hotSpotArr.length ≤ fuel →
        (predictInfo.calculateScheduleTime fuel
          { Time := 1000, TableNum := 1, PredictStep := 10,
            TableInfo := [{ Predict := [5, 0, 0, 0, 0, 5, 5, 0, 0, 0] }] } 1
          { StartTime := 0, EndTime := 0, TableKey := [] }).1 ≠
          Except.error Failure.loopBudget :=
  calculateScheduleTime_merge_terminates
    { Time := 1000, TableNum := 1, PredictStep := 10,
      TableInfo := [{ Predict := [5, 0, 0, 0, 0, 5, 5, 0, 0, 0] }] } 1
    { StartTime := 0, EndTime := 0, TableKey := [] } rfl
    (by
      intro t ht
      simp only [List.mem_singleton] at ht
      subst ht
      rfl)

/-- The merging pass on the two intervals of the witness returns after four
iterations: the seed, the period `[1060, 1060]` and the period `[1360, 1420]`. -/
theorem mergePeriods_example :
    mergePeriods 4 { StartTime := 0, EndTime := 0, TableKey := [] }
      (bubbleSortHotSpot [{ StartTime := 1060, EndTime := 1060, TableKey := [0] },
                          { StartTime := 1360, EndTime := 1420, TableKey := [0] }]) =
      Except.ok [{ StartTime := 0, EndTime := 0, TableKey := [] },
                 { StartTime := 1060, EndTime := 1060, TableKey := [0] },
                 { StartTime := 1360, EndTime := 1420, TableKey := [0] }] := by
  rfl

/-! ## Theorems: the divisor of the churn metric -/

/-- C23 (fails on the code): two tables of ten steps, the first hot at step 0
and the second never hot, with key ranges `["", "41")` and `["41", "")`. The
threshold computed for the snapshot is 0, `calculateScheduleTime` returns the
window `[1000, 1060]` with weights `[1, 0]` (the second table has no hot
interval, so its entry stays 0), the region whose hex start key is `"42"` (raw
key byte `0x42`) is owned by the second table, and `getTopK` divides its
traffic by `0 * 1`. -/
theorem getTopK_divide_by_zero :
    predictInfo.calculateThreshold
      { Time := 1000, TableNum := 2, PredictStep := 10,
        TableInfo := [{ Predict := [5, 0, 0, 0, 0, 0, 0, 0, 0, 0], StartKey := [], EndKey := [52, 49] },
                      { Predict := [0, 0, 0, 0, 0, 0, 0, 0, 0, 0], StartKey := [52, 49],
                        EndKey := [] }] } = Except.ok 0 ∧
    (predictInfo.calculateScheduleTime 4
      { Time := 1000, TableNum := 2, PredictStep := 10,
        TableInfo := [{ Predict := [5, 0, 0, 0, 0, 0, 0, 0, 0, 0], StartKey := [], EndKey := [52, 49] },
                      { Predict := [0, 0, 0, 0, 0, 0, 0, 0, 0, 0], StartKey := [52, 49],
                        EndKey := [] }] }
      0 { StartTime := 0, EndTime := 0, TableKey := [] }).1 =
      Except.ok [{ StartTime := 1000, EndTime := 1060, DeltT := [1, 0] }] ∧
    predictInfo.getTableIndexByRegion
      { Time := 1000, TableNum := 2, PredictStep := 10,
        TableInfo := [{ Predict := [5, 0, 0, 0, 0, 0, 0, 0, 0, 0], StartKey := [], EndKey := [52, 49] },
                      { Predict := [0, 0, 0, 0, 0, 0, 0, 0, 0, 0], StartKey := [52, 49],
                        EndKey := [] }] }
      { id := 7, hexStartKey := [52, 50], leader := none, storeIds := [], rwBytesTotal := 5,
        approximateSize := 1 } = Except.ok 1 ∧
    getTopK
      [{ id := 7, hexStartKey := [52, 50], leader := none, storeIds := [], rwBytesTotal := 5,
         approximateSize := 1 }]
      0
      { predictData :=
          { Time := 1000, TableNum := 2, PredictStep := 10,
            TableInfo := [{ Predict := [5, 0, 0, 0, 0, 0, 0, 0, 0, 0], StartKey := [],
                            EndKey := [52, 49] },
                          { Predict := [0, 0, 0, 0, 0, 0, 0, 0, 0, 0], StartKey := [52, 49],
                            EndKey := [] }] },
        threshold := 0,
        scheduleTime := [{ StartTime := 1000, EndTime := 1060, DeltT := [1, 0] }] } =
      Except.error Failure.divideByZero := by
  refine ⟨?_, rfl, rfl, rfl⟩
  have hm :
      stepMeans
        { Time := 1000, TableNum := 2, PredictStep := 10,
          TableInfo := [{ Predict := [5, 0, 0, 0, 0, 0, 0, 0, 0, 0], StartKey := [],
                          EndKey := [52, 49] },
                        { Predict := [0, 0, 0, 0, 0, 0, 0, 0, 0, 0], StartKey := [52, 49],
                          EndKey := [] }] } (List.range (10 : Int).toNat) =
      Except.ok [5 / 2, 0, 0, 0, 0, 0, 0, 0, 0, 0] := by
    simp [stepMeans, sumPredict, List.range, List.range.loop]
  unfold predictInfo.calculateThreshold
  rw [if_neg (by decide)]
  simp only
  rw [hm]
  have h52 : ¬ ((5 : ℚ) / 2 ≤ 0) := by norm_num
  have hlo : (Int.tdiv 10 5).toNat = 2 := by decide
  have hhi : (Int.tdiv 10 5 + 1).toNat = 3 := by decide
  simp [List.insertionSort, List.orderedInsert, h52, hlo, hhi]

end SchedulerExample
